import Mathlib

/-!
Ford-Fulkerson maximum flow (UVa 563 / 753 / 820).

A shallow embedding of the `FordFulkerson` class that the three problem
files carry, followed by theorems about it.

Modelling conventions.

* `vector<T>` is a `List T`; an index read is `getD`, an index write is `set`.
* `map<int, map<int, flow_edge>>` is a total function `Nat → Nat → flow_edge`:
  `operator[]` default-constructs a missing entry as `flow_edge()`, i.e.
  flow `0` and residual capacity `0`, so a lookup of a key that was never
  written observes exactly the default record.
* Vertex indices are `Nat`.  The predecessor sentinel `-1` of `lasts` and of
  the queue entries is `none`, a real predecessor `p` is `some p`.
* `int` values (capacities, flows, residuals, the total) are of type `Int`,
  and the arithmetic on them is given twice.  `MaxFlow` (with `pushEdge`,
  `mainLoop`) adds and subtracts over the integers: this is what the source
  computes as long as no `int` overflows.  `MaxFlow32` (with `pushEdge32`,
  `mainLoop32`) wraps every sum and difference at 32 bits, which is what the
  compiled program does when one overflows.  `MaxFlow32_eq_MaxFlow` shows that
  the two return the same under `NoOverflow`, a bound on the capacities.
* Every `for(;;)` / `while` loop takes a fuel argument and returns `none`
  when the fuel runs out before the loop exits.
-/

namespace FordFulkerson

/-- The `edge` record: destination vertex `to` (a reserved word here, hence `to_`)
and capacity. -/
structure edge where
  to_ : Nat
  capacity : Int
deriving DecidableEq

/-- The `flow_edge` record; `flow_edge()` is flow `0`, residual `0`. -/
structure flow_edge where
  flow : Int
  c_f : Int
deriving DecidableEq

/-- The flow map `map<int, map<int, flow_edge>>` with default-constructing lookup. -/
abbrev FlowMap := Nat → Nat → flow_edge

/-- The empty flow map: every lookup yields `flow_edge()`. -/
def emptyFlows : FlowMap := fun _ _ => ⟨0, 0⟩

/-- The constant `999999999` used for "not reached" in `mins`. -/
def INF : Nat := 999999999

/-- The constant `999999999` that starts the bottleneck `c_f_p`. -/
def INF_CAP : Int := 999999999

/-- The assignment `flows[u][v].c_f = x`. -/
def set_c_f (flows : FlowMap) (u v : Nat) (x : Int) : FlowMap :=
  fun a b => if a = u ∧ b = v then ⟨(flows a b).flow, x⟩ else flows a b

/-- The update `flows[u][v].flow += df; flows[u][v].c_f += dc`, over the
integers. -/
def bump (flows : FlowMap) (u v : Nat) (df dc : Int) : FlowMap :=
  fun a b => if a = u ∧ b = v then ⟨(flows a b).flow + df, (flows a b).c_f + dc⟩ else flows a b

/-- The body of the initialisation loop of 820.cpp / 753.cpp for one edge
`_graph[from][to_idx]`: push the backwards edge `{from, 0}` on
`back_graph[to]` and store the capacity in `flows[from][to].c_f`. -/
def initEdge (frm : Nat) (st : List (List edge) × FlowMap) (e : edge) :
    List (List edge) × FlowMap :=
  (st.1.set e.to_ (st.1.getD e.to_ [] ++ [⟨frm, 0⟩]), set_c_f st.2 frm e.to_ e.capacity)

/-- The body of the initialisation loop of 563.cpp for one edge: as `initEdge`,
followed by `flows[to][from].c_f = 0`. -/
def initEdge563 (frm : Nat) (st : List (List edge) × FlowMap) (e : edge) :
    List (List edge) × FlowMap :=
  (st.1.set e.to_ (st.1.getD e.to_ [] ++ [⟨frm, 0⟩]),
    set_c_f (set_c_f st.2 frm e.to_ e.capacity) e.to_ frm 0)

/-- The "initialize flow" double loop, parameterised by its body; yields
`back_graph` and the initialised flow map. -/
def initFlowWith (body : Nat → List (List edge) × FlowMap → edge → List (List edge) × FlowMap)
    (graph : List (List edge)) (flows : FlowMap) : List (List edge) × FlowMap :=
  (List.range graph.length).foldl
    (fun st frm => (graph.getD frm []).foldl (body frm) st)
    (List.replicate graph.length [], flows)

/-- The "initialize flow" loop of 820.cpp / 753.cpp. -/
def initFlow (graph : List (List edge)) (flows : FlowMap) : List (List edge) × FlowMap :=
  initFlowWith initEdge graph flows

/-- The "initialize flow" loop of 563.cpp. -/
def initFlow563 (graph : List (List edge)) (flows : FlowMap) : List (List edge) × FlowMap :=
  initFlowWith initEdge563 graph flows

/-- The body of `for(const edge &e : es)` inside the search: the edge is taken
when `mins[e.to] > cmin + 1 && flows[idx][e.to].c_f > 0`; taking it pushes
`(e.to, idx)` on the queue and sets `mins[e.to] = cmin + 1`.  The state is
`(mins, s)`. -/
def tryEdge (flows : FlowMap) (idx cmin : Nat) (st : List Nat × List (Nat × Option Nat))
    (e : edge) : List Nat × List (Nat × Option Nat) :=
  if st.1.getD e.to_ INF > cmin + 1 ∧ (flows idx e.to_).c_f > 0 then
    (st.1.set e.to_ (cmin + 1), st.2 ++ [(e.to_, some idx)])
  else st

/-- One pass of `for(const edge &e : es)` over an adjacency list. -/
def tryEdges (flows : FlowMap) (idx cmin : Nat) (es : List edge)
    (st : List Nat × List (Nat × Option Nat)) : List Nat × List (Nat × Option Nat) :=
  es.foldl (tryEdge flows idx cmin) st

/-- The variables the breadth-first search leaves behind. -/
structure SearchResult where
  idx : Nat
  mins : List Nat
  lasts : List (Option Nat)

/-- The loop `while(!s.empty())` of the search.  `idx` is the value the
variable `idx` holds on entry to the iteration. -/
def bfsLoop (graph back_graph : List (List edge)) (flows : FlowMap) (sink_idx : Nat) :
    Nat → Nat → List Nat → List (Option Nat) → List (Nat × Option Nat) → Option SearchResult
  | 0, _, _, _, _ => none
  | _ + 1, idx, mins, lasts, [] => some ⟨idx, mins, lasts⟩
  | fuel + 1, _, mins, lasts, p :: s =>
    let idx := p.1
    let cmin := mins.getD idx INF
    let lasts := lasts.set idx p.2
    if idx = sink_idx then some ⟨idx, mins, lasts⟩
    else
      let st := tryEdges flows idx cmin (graph.getD idx []) (mins, s)
      let st := tryEdges flows idx cmin (back_graph.getD idx []) st
      bfsLoop graph back_graph flows sink_idx fuel idx st.1 lasts st.2

/-- One search of the residual graph: `mins.assign`, `lasts.assign`, push the
source, run the queue loop.  The variable `idx` is uninitialised in the source
before the loop; the loop body runs at least once (the queue starts with the
source) and assigns it, so its initial value is never observed. -/
def bfs (graph back_graph : List (List edge)) (flows : FlowMap) (source_idx sink_idx : Nat)
    (fuel : Nat) : Option SearchResult :=
  bfsLoop graph back_graph flows sink_idx fuel source_idx
    ((List.replicate graph.length INF).set source_idx 0)
    (List.replicate graph.length none)
    [(source_idx, none)]

/-- The loop that finds `c_f_p`, the minimum of `c_f` along the predecessor
chain from `idx`. -/
def findCfp (flows : FlowMap) (lasts : List (Option Nat)) : Nat → Nat → Int → Option Int
  | 0, _, _ => none
  | fuel + 1, idx, c_f_p =>
    match lasts.getD idx none with
    | none => some c_f_p
    | some last => findCfp flows lasts fuel last (min c_f_p (flows last idx).c_f)

/-- The four updates of the "send flow through" loop for the step
`last → idx`, over the integers (`pushEdge32` is the same on 32-bit ints). -/
def pushEdge (flows : FlowMap) (last idx : Nat) (c_f_p : Int) : FlowMap :=
  bump (bump flows last idx c_f_p (-c_f_p)) idx last (-c_f_p) c_f_p

/-- The "send flow through" loop along the predecessor chain from `idx`, over
the integers. -/
def sendFlow (lasts : List (Option Nat)) (c_f_p : Int) : Nat → Nat → FlowMap → Option FlowMap
  | 0, _, _ => none
  | fuel + 1, idx, flows =>
    match lasts.getD idx none with
    | none => some flows
    | some last => sendFlow lasts c_f_p fuel last (pushEdge flows last idx c_f_p)

/-- One iteration of the outer `for(;;)`: search, and if the sink was reached,
augment.  `none`: an inner loop ran out of fuel.  `some none`: no path was
found (the `break`).  `some (some (c_f_p, flows))`: an augmentation by `c_f_p`. -/
def augment (graph back_graph : List (List edge)) (source_idx sink_idx : Nat) (fuel : Nat)
    (flows : FlowMap) : Option (Option (Int × FlowMap)) :=
  match bfs graph back_graph flows source_idx sink_idx fuel with
  | none => none
  | some r =>
    if r.idx ≠ sink_idx then some none
    else
      match findCfp flows r.lasts fuel sink_idx INF_CAP with
      | none => none
      | some c_f_p =>
        match sendFlow r.lasts c_f_p fuel sink_idx flows with
        | none => none
        | some flows => some (some (c_f_p, flows))

/-- The outer loop `for(;;)` of `MaxFlow`; `inner` is the fuel handed to each
inner loop.  The total `max_flow += c_f_p` is taken over the integers
(`mainLoop32` is the same loop on 32-bit ints). -/
def mainLoop (graph back_graph : List (List edge)) (source_idx sink_idx : Nat) (inner : Nat) :
    Nat → Int → FlowMap → Option (Int × FlowMap)
  | 0, _, _ => none
  | fuel + 1, max_flow, flows =>
    match augment graph back_graph source_idx sink_idx inner flows with
    | none => none
    | some none => some (max_flow, flows)
    | some (some (c_f_p, flows)) =>
      mainLoop graph back_graph source_idx sink_idx inner fuel (max_flow + c_f_p) flows

/-- The solver `FordFulkerson::MaxFlow(source_idx, sink_idx, flows)` of
820.cpp and 753.cpp, with the arithmetic over the integers: the returned total
and the flow map it leaves.  It returns what `MaxFlow32` returns whenever no
`int` overflows (`MaxFlow32_eq_MaxFlow`). -/
def MaxFlow (graph : List (List edge)) (source_idx sink_idx : Nat) (flows : FlowMap)
    (fuel : Nat) : Option (Int × FlowMap) :=
  let st := initFlow graph flows
  mainLoop graph st.1 source_idx sink_idx fuel fuel 0 st.2

/-- The solver `FordFulkerson::MaxFlow(source_idx, sink_idx, flows)` of 563.cpp,
with the arithmetic over the integers. -/
def MaxFlow563 (graph : List (List edge)) (source_idx sink_idx : Nat) (flows : FlowMap)
    (fuel : Nat) : Option (Int × FlowMap) :=
  let st := initFlow563 graph flows
  mainLoop graph st.1 source_idx sink_idx fuel fuel 0 st.2

/-- The overload `MaxFlow(source_idx, sink_idx)` of 820.cpp / 753.cpp: a fresh
empty flow map, only the total is returned. -/
def MaxFlowValue (graph : List (List edge)) (source_idx sink_idx : Nat) (fuel : Nat) :
    Option Int :=
  (MaxFlow graph source_idx sink_idx emptyFlows fuel).map Prod.fst

/-- The overload `MaxFlow(source_idx, sink_idx)` of 563.cpp. -/
def MaxFlowValue563 (graph : List (List edge)) (source_idx sink_idx : Nat) (fuel : Nat) :
    Option Int :=
  (MaxFlow563 graph source_idx sink_idx emptyFlows fuel).map Prod.fst

/-- The graph of the self-test in 563.cpp (`x=0,a=1,b=2,c=3,d=4,e=5,y=6`). -/
def selfTestGraph : List (List edge) :=
  [ [⟨2, 1⟩, ⟨1, 3⟩], [⟨3, 3⟩], [⟨3, 5⟩, ⟨4, 4⟩], [⟨6, 2⟩], [⟨5, 2⟩], [⟨6, 3⟩], [] ]

/-! ## The solver on 32-bit ints -/

/-- The largest value of the source's 32-bit `int`. -/
def INT_MAX : Int := 2147483647

/-- The value an `int` holds after an addition or subtraction whose exact
result is `x`: the representative of `x` modulo `2^32` between `-2147483648`
and `2147483647` (two's complement wrap-around). -/
def wrap32 (x : Int) : Int :=
  (x + 2147483648) % 4294967296 - 2147483648

/-- The statement `flows[u][v].flow += d` on `int` (`-=` is `+=` of the negation). -/
def addFlow32 (flows : FlowMap) (u v : Nat) (d : Int) : FlowMap :=
  fun a b => if a = u ∧ b = v then ⟨wrap32 ((flows a b).flow + d), (flows a b).c_f⟩ else flows a b

/-- The statement `flows[u][v].c_f += d` on `int` (`-=` is `+=` of the negation). -/
def addCf32 (flows : FlowMap) (u v : Nat) (d : Int) : FlowMap :=
  fun a b => if a = u ∧ b = v then ⟨(flows a b).flow, wrap32 ((flows a b).c_f + d)⟩ else flows a b

/-- The four updates of the "send flow through" loop for the step `last → idx`,
in the order of the source: `flows[last][idx].flow += c_f_p`,
`flows[idx][last].flow -= c_f_p`, `flows[last][idx].c_f -= c_f_p`,
`flows[idx][last].c_f += c_f_p`, each on `int`. -/
def pushEdge32 (flows : FlowMap) (last idx : Nat) (c_f_p : Int) : FlowMap :=
  addCf32 (addCf32 (addFlow32 (addFlow32 flows last idx c_f_p) idx last (-c_f_p))
    last idx (-c_f_p)) idx last c_f_p

/-- The "send flow through" loop along the predecessor chain from `idx`, on `int`. -/
def sendFlow32 (lasts : List (Option Nat)) (c_f_p : Int) : Nat → Nat → FlowMap → Option FlowMap
  | 0, _, _ => none
  | fuel + 1, idx, flows =>
    match lasts.getD idx none with
    | none => some flows
    | some last => sendFlow32 lasts c_f_p fuel last (pushEdge32 flows last idx c_f_p)

/-- One iteration of the outer `for(;;)` on `int`: the search and the bottleneck
loop do no arithmetic on capacities and are those of `augment`; the updates are
those of `sendFlow32`. -/
def augment32 (graph back_graph : List (List edge)) (source_idx sink_idx : Nat) (fuel : Nat)
    (flows : FlowMap) : Option (Option (Int × FlowMap)) :=
  match bfs graph back_graph flows source_idx sink_idx fuel with
  | none => none
  | some r =>
    if r.idx ≠ sink_idx then some none
    else
      match findCfp flows r.lasts fuel sink_idx INF_CAP with
      | none => none
      | some c_f_p =>
        match sendFlow32 r.lasts c_f_p fuel sink_idx flows with
        | none => none
        | some flows => some (some (c_f_p, flows))

/-- The outer loop `for(;;)` of `MaxFlow` on `int`: `max_flow += c_f_p` wraps. -/
def mainLoop32 (graph back_graph : List (List edge)) (source_idx sink_idx : Nat) (inner : Nat) :
    Nat → Int → FlowMap → Option (Int × FlowMap)
  | 0, _, _ => none
  | fuel + 1, max_flow, flows =>
    match augment32 graph back_graph source_idx sink_idx inner flows with
    | none => none
    | some none => some (max_flow, flows)
    | some (some (c_f_p, flows)) =>
      mainLoop32 graph back_graph source_idx sink_idx inner fuel (wrap32 (max_flow + c_f_p)) flows

/-- The solver `FordFulkerson::MaxFlow(source_idx, sink_idx, flows)` of
820.cpp and 753.cpp with every `int` addition and subtraction on capacities
and flows wrapping at 32 bits. -/
def MaxFlow32 (graph : List (List edge)) (source_idx sink_idx : Nat) (flows : FlowMap)
    (fuel : Nat) : Option (Int × FlowMap) :=
  let st := initFlow graph flows
  mainLoop32 graph st.1 source_idx sink_idx fuel fuel 0 st.2

/-- The overload `MaxFlow(source_idx, sink_idx)` of 820.cpp / 753.cpp on `int`. -/
def MaxFlowValue32 (graph : List (List edge)) (source_idx sink_idx : Nat) (fuel : Nat) :
    Option Int :=
  (MaxFlow32 graph source_idx sink_idx emptyFlows fuel).map Prod.fst

/-- The state after `k` augmentations of the outer loop on `int`, started from
`(max_flow, flows)`; `none` when the loop does not make `k` augmentations. -/
def afterAugmentations32 (graph back_graph : List (List edge)) (source_idx sink_idx : Nat)
    (inner : Nat) : Nat → Int × FlowMap → Option (Int × FlowMap)
  | 0, st => some st
  | k + 1, st =>
    match augment32 graph back_graph source_idx sink_idx inner st.2 with
    | some (some (c_f_p, flows)) =>
      afterAugmentations32 graph back_graph source_idx sink_idx inner k
        (wrap32 (st.1 + c_f_p), flows)
    | _ => none

/-! ## Specification-side notions -/

/-- Every edge of the graph points at a vertex of the graph. -/
def GraphWF (graph : List (List edge)) : Prop :=
  ∀ row ∈ graph, ∀ e ∈ row, e.to_ < graph.length

instance (graph : List (List edge)) : Decidable (GraphWF graph) := by
  unfold GraphWF; infer_instance

/-- Every capacity is non-negative. -/
def NonNegCaps (graph : List (List edge)) : Prop :=
  ∀ row ∈ graph, ∀ e ∈ row, 0 ≤ e.capacity

instance (graph : List (List edge)) : Decidable (NonNegCaps graph) := by
  unfold NonNegCaps; infer_instance

/-- No two edges share the same ordered `(from, to)` pair. -/
def NoParallel (graph : List (List edge)) : Prop :=
  ∀ row ∈ graph, (row.map edge.to_).Nodup

instance (graph : List (List edge)) : Decidable (NoParallel graph) := by
  unfold NoParallel; infer_instance

/-- The edges of the graph that go from `u` to `v`, in adjacency order. -/
def edgesTo (graph : List (List edge)) (u v : Nat) : List edge :=
  (graph.getD u []).filter (fun e => e.to_ = v)

/-- The capacity from `u` to `v`: the sum over all (parallel) edges `u → v`. -/
def capOf (graph : List (List edge)) (u v : Nat) : Int :=
  ((edgesTo graph u v).map edge.capacity).sum

/-- The capacity of the last-listed edge `u → v`, `0` when there is none. -/
def lastCap (graph : List (List edge)) (u v : Nat) : Int :=
  match (edgesTo graph u v).getLast? with
  | some e => e.capacity
  | none => 0

/-- The capacity of the cut `S` under the pair capacity `cap`: the sum of
`cap u v` over `u` inside and `v` outside `S`. -/
def cutCapacityOf (cap : Nat → Nat → Int) (n : Nat) (S : Nat → Bool) : Int :=
  ∑ u in Finset.range n, ∑ v in Finset.range n,
    if S u = true ∧ S v = false then cap u v else 0

/-- The capacity of the cut `S` of the graph, parallel edges counted separately. -/
def cutCapacity (graph : List (List edge)) (S : Nat → Bool) : Int :=
  cutCapacityOf (capOf graph) graph.length S

/-- The value `c` is the minimum of `cutCapacityOf cap n` over the cuts that
separate `s` from `t`. -/
def IsMinCutOf (cap : Nat → Nat → Int) (n s t : Nat) (c : Int) : Prop :=
  (∃ S : Nat → Bool, S s = true ∧ S t = false ∧ cutCapacityOf cap n S = c) ∧
  ∀ S : Nat → Bool, S s = true → S t = false → c ≤ cutCapacityOf cap n S

/-- A feasible flow under the pair capacity `cap`: on every ordered pair
between `0` and the capacity of the pair, and conserved (what enters equals
what leaves) at every vertex other than `s` and `t`. -/
def IsFeasibleFlowOf (cap : Nat → Nat → Int) (n s t : Nat) (f : Nat → Nat → Int) : Prop :=
  (∀ u v, 0 ≤ f u v ∧ f u v ≤ cap u v) ∧
  ∀ v, v < n → v ≠ s → v ≠ t →
    ∑ w in Finset.range n, f w v = ∑ w in Finset.range n, f v w

/-- The value of a flow: what leaves `s` minus what enters `s`. -/
def flowValueOf (n s : Nat) (f : Nat → Nat → Int) : Int :=
  ∑ w in Finset.range n, f s w - ∑ w in Finset.range n, f w s

/-- The value `c` is the maximum value of a feasible flow from `s` to `t`
under the pair capacity `cap`. -/
def IsMaxFlowOf (cap : Nat → Nat → Int) (n s t : Nat) (c : Int) : Prop :=
  (∃ f, IsFeasibleFlowOf cap n s t f ∧ flowValueOf n s f = c) ∧
  ∀ f, IsFeasibleFlowOf cap n s t f → flowValueOf n s f ≤ c

/-- A feasible flow of the graph, parallel edges counted separately. -/
def IsFeasibleFlow (graph : List (List edge)) (s t : Nat) (f : Nat → Nat → Int) : Prop :=
  IsFeasibleFlowOf (capOf graph) graph.length s t f

/-- The value of a flow of the graph. -/
def flowValue (graph : List (List edge)) (s : Nat) (f : Nat → Nat → Int) : Int :=
  flowValueOf graph.length s f

/-- The value `c` is the maximum value of a feasible flow of the graph from
`s` to `t`. -/
def IsMaxFlowValue (graph : List (List edge)) (s t : Nat) (c : Int) : Prop :=
  (∃ f, IsFeasibleFlow graph s t f ∧ flowValue graph s f = c) ∧
  ∀ f, IsFeasibleFlow graph s t f → flowValue graph s f ≤ c

/-- The value `c` is the minimum capacity of a cut of the graph that
separates `s` from `t`, parallel edges counted separately. -/
def IsMinCutValue (graph : List (List edge)) (s t : Nat) (c : Int) : Prop :=
  IsMinCutOf (capOf graph) graph.length s t c

/-- The net flow leaving `v` in a flow map: the sum of `flows[v][w].flow`. -/
def netOut (n : Nat) (flows : FlowMap) (v : Nat) : Int :=
  ∑ w in Finset.range n, (flows v w).flow

/-- The state after `k` augmentations of the outer loop, started from
`(max_flow, flows)`; `none` when the loop does not make `k` augmentations. -/
def afterAugmentations (graph back_graph : List (List edge)) (source_idx sink_idx : Nat)
    (inner : Nat) : Nat → Int × FlowMap → Option (Int × FlowMap)
  | 0, st => some st
  | k + 1, st =>
    match augment graph back_graph source_idx sink_idx inner st.2 with
    | some (some (c_f_p, flows)) =>
      afterAugmentations graph back_graph source_idx sink_idx inner k (st.1 + c_f_p, flows)
    | _ => none

/-! ## Invariants of the search -/

/-- What the search knows about a predecessor link `p → v`: both are vertices,
`v` is one hop further than `p`, the pair has positive residual capacity, and
`p` itself has been taken off the queue. -/
structure LinkOK (n source : Nat) (flows : FlowMap) (mins : List Nat)
    (lasts : List (Option Nat)) (p v : Nat) : Prop where
  v_lt : v < n
  p_lt : p < n
  v_ne : v ≠ source
  level : mins.getD v INF = mins.getD p INF + 1
  reached : mins.getD v INF < INF
  pos : 0 < (flows p v).c_f
  parent : p = source ∨ lasts.getD p none ≠ none

/-- Vertex `u` has been expanded: each neighbour in the residual graph is at
most one hop further or is cut off by an exhausted residual capacity. -/
def Expanded (graph back_graph : List (List edge)) (flows : FlowMap) (sink : Nat)
    (mins : List Nat) (u : Nat) : Prop :=
  u ≠ sink ∧ ∀ e ∈ graph.getD u [] ++ back_graph.getD u [],
    mins.getD e.to_ INF ≤ mins.getD u INF + 1 ∨ (flows u e.to_).c_f ≤ 0

/-- The invariant of the queue loop.  `cmin` is the level being expanded and
`cur` the vertex under expansion, if any. -/
structure BfsInv (graph back_graph : List (List edge)) (flows : FlowMap)
    (source sink : Nat) (cmin : Nat) (cur : Option Nat)
    (mins : List Nat) (lasts : List (Option Nat)) (q : List (Nat × Option Nat)) : Prop where
  len_mins : mins.length = graph.length
  len_lasts : lasts.length = graph.length
  src_lt : source < graph.length
  src_min : mins.getD source INF = 0
  src_last : lasts.getD source none = none
  links : ∀ v p, lasts.getD v none = some p → LinkOK graph.length source flows mins lasts p v
  queue : ∀ x ∈ q, x.1 < graph.length ∧ mins.getD x.1 INF < INF ∧
    (x.2 = none → x.1 = source) ∧
    (∀ p, x.2 = some p → LinkOK graph.length source flows mins lasts p x.1)
  level : ∀ w, mins.getD w INF ≤ cmin + 1 ∨ mins.getD w INF = INF
  q_ge : ∀ x ∈ q, cmin ≤ mins.getD x.1 INF
  q_sorted : (q.map (fun x => mins.getD x.1 INF)).Pairwise (fun a b => a ≤ b)
  expanded : ∀ u, mins.getD u INF < INF →
    (∃ x ∈ q, x.1 = u) ∨ cur = some u ∨ Expanded graph back_graph flows sink mins u
  levels : ∀ v, mins.getD v INF < INF → ∀ k, k ≤ mins.getD v INF →
    ∃ w, w < graph.length ∧ mins.getD w INF = k

/-- Both adjacency structures only name vertices of the graph. -/
def AdjWF (graph back_graph : List (List edge)) : Prop :=
  back_graph.length = graph.length ∧
  ∀ u, ∀ e ∈ graph.getD u [] ++ back_graph.getD u [], e.to_ < graph.length

/-- What a finished search guarantees. -/
structure BfsPost (graph back_graph : List (List edge)) (flows : FlowMap)
    (source sink : Nat) (r : SearchResult) : Prop where
  len_mins : r.mins.length = graph.length
  len_lasts : r.lasts.length = graph.length
  src_min : r.mins.getD source INF = 0
  src_last : r.lasts.getD source none = none
  links : ∀ v p, r.lasts.getD v none = some p →
    LinkOK graph.length source flows r.mins r.lasts p v
  found : r.idx = sink → r.lasts.getD sink none ≠ none
  levels : ∀ v, r.mins.getD v INF < INF → ∀ k, k ≤ r.mins.getD v INF →
    ∃ w, w < graph.length ∧ r.mins.getD w INF = k
  closed : r.idx ≠ sink → ∀ u, r.mins.getD u INF < INF →
    Expanded graph back_graph flows sink r.mins u

/-! ## Invariants of the augmentation loop -/

/-- The step `p → v` lies on the predecessor chain that starts at `idx`. -/
inductive OnChain (lasts : List (Option Nat)) : Nat → Nat → Nat → Prop
  | here {idx p : Nat} : lasts.getD idx none = some p → OnChain lasts idx p idx
  | there {idx q p v : Nat} : lasts.getD idx none = some q → OnChain lasts q p v →
      OnChain lasts idx p v

/-- The invariant of the outer loop, relative to the pair capacities `cap`
that the initialisation stored: antisymmetry, residual bookkeeping,
non-negative residuals, conservation away from source and sink, and the
running total as the net flow out of the source and into the sink. -/
structure FlowInv (n s t : Nat) (cap : Nat → Nat → Int) (max_flow : Int)
    (flows : FlowMap) : Prop where
  antisym : ∀ u v, (flows u v).flow = -(flows v u).flow
  resid : ∀ u v, (flows u v).c_f + (flows u v).flow = cap u v
  nonneg : ∀ u v, 0 ≤ (flows u v).c_f
  support : ∀ u v, n ≤ u ∨ n ≤ v → (flows u v).flow = 0
  conserve : ∀ v, v < n → v ≠ s → v ≠ t → netOut n flows v = 0
  value : netOut n flows s = max_flow
  sink_value : netOut n flows t = -max_flow

/-- The set of vertices a search has reached: those whose `mins` entry is no
longer `999999999`. -/
def reachedSet (r : SearchResult) : Nat → Bool :=
  fun v => decide (r.mins.getD v INF < INF)

/-- A fuel that suffices for `MaxFlow` on the graph from source `s`. -/
def fuelBound (graph : List (List edge)) (s : Nat) : Nat :=
  2 * graph.length * INF + 2 + (∑ w in Finset.range graph.length, lastCap graph s w).toNat

/-- The non-negative flow on ordered pairs that a flow map stands for. -/
def pairFlow (flows : FlowMap) : Nat → Nat → Int :=
  fun u v => max (flows u v).flow 0

/-- Vertex `v` is reachable from `u` along directed edges of the graph. -/
inductive Reach (graph : List (List edge)) : Nat → Nat → Prop
  | refl (u : Nat) : Reach graph u u
  | step {u v w : Nat} : Reach graph u v → (∃ e ∈ graph.getD v [], e.to_ = w) → Reach graph u w

/-- The graph with two parallel unit edges `0 → 1`. -/
def parallelGraph : List (List edge) := [[⟨1, 1⟩, ⟨1, 1⟩], []]

/-- The graph with parallel edges `0 → 1` of capacities `2` then `3`. -/
def parallelGraph23 : List (List edge) := [[⟨1, 2⟩, ⟨1, 3⟩], []]

/-- The path graph `0 → 1 → ... → n` whose `i`-th edge has capacity `caps[i]`. -/
def pathGraph (caps : List Int) : List (List edge) :=
  (List.range caps.length).map (fun i => [(⟨i + 1, caps.getD i 0⟩ : edge)]) ++ [[]]

/-- Scenario A: edges `0 → 1` of capacity `5` and `1 → 2` of capacity `3`. -/
def scenarioA : List (List edge) := [[⟨1, 5⟩], [⟨2, 3⟩], []]

/-- Edges `0 → 1` and `2 → 1`: vertex `2` cannot be reached from vertex `0`. -/
def unreachableSinkGraph : List (List edge) := [[⟨1, 4⟩], [], [⟨1, 2⟩]]

/-- Edges `0 → 1` of capacity `5` and `1 → 0` of capacity `3`. -/
def antiparallelGraph : List (List edge) := [[⟨1, 5⟩], [⟨0, 3⟩]]

/-- One edge `0 → 1` of capacity `2000000000`. -/
def bigEdgeGraph : List (List edge) := [[⟨1, 2000000000⟩], []]

/-- Every capacity is zero. -/
def AllZeroCaps (graph : List (List edge)) : Prop :=
  ∀ row ∈ graph, ∀ e ∈ row, e.capacity = 0

instance (graph : List (List edge)) : Decidable (AllZeroCaps graph) := by
  unfold AllZeroCaps; infer_instance

/-- Two edges of capacity zero, `0 → 1` and `1 → 2`. -/
def zeroGraph : List (List edge) := [[⟨1, 0⟩], [⟨2, 0⟩], []]

/-- A sequence of vertices in which every consecutive pair `(u, v)` has
positive residual capacity `flows[u][v].c_f`. -/
def IsResidualPath (flows : FlowMap) (path : List Nat) : Prop :=
  List.Chain' (fun u v => 0 < (flows u v).c_f) path

/-- The constant `POSSIBLE`. -/
def POSSIBLE : String := "possible"

/-- The constant `NOT_POSSIBLE`. -/
def NOT_POSSIBLE : String := "not possible"

/-- The constant `Crimewave::SOURCE_IDX`. -/
def SOURCE_IDX : Nat := 0

/-- The constant `Crimewave::SINK_IDX`. -/
def SINK_IDX : Nat := 1

/-- The function `Crimewave::GetVertIdx`: the index of the in-vertex of the
grid position `(x, y)`, `-1` when out of bounds. -/
def GetVertIdx (x_max y_max : Nat) (x y : Int) : Int :=
  if x < 0 ∨ x ≥ x_max then -1
  else if y < 0 ∨ y ≥ y_max then -1
  else 2 + y * (x_max * 2) + x * 2

/-- The function `Crimewave::MakeEdge`; as in the source, `from_idx` is not used.
Vertex indices are `Nat` here, so the target is stored as `to_idx.toNat`, which
is `to_idx` itself whenever `to_idx ≥ 0`.  The source passes a negative target
in one place only: the edge of a bank that lies outside the grid, for which
`GetVertIdx` is `-1`; `Solve` yields no result on such an input. -/
def MakeEdge (_from_idx to_idx capacity : Int) : edge :=
  ⟨to_idx.toNat, capacity⟩

/-- The statement `_graph[idx].push_back(e)`. -/
def pushBackAt (graph : List (List edge)) (idx : Int) (e : edge) : List (List edge) :=
  graph.set idx.toNat (graph.getD idx.toNat [] ++ [e])

/-- The loop "Setup each intersection": an edge of capacity `1` from the
in-vertex to the out-vertex of every grid position. -/
def setupIntersections (x_max y_max : Nat) (graph : List (List edge)) : List (List edge) :=
  (List.range x_max).foldl
    (fun g x => (List.range y_max).foldl
      (fun g y =>
        let in_idx := GetVertIdx x_max y_max x y
        let out_idx := in_idx + 1
        pushBackAt g in_idx (MakeEdge in_idx out_idx 1))
      g)
    graph

/-- One of the four blocks "try up / down / left / right": an edge from
`idx_out` to the in-vertex of the neighbour `(x, y)`, or to the sink when the
neighbour is off the grid. -/
def tryNeighbour (x_max y_max : Nat) (graph : List (List edge)) (idx_out x y : Int) :
    List (List edge) :=
  let idx_in := GetVertIdx x_max y_max x y
  if idx_in ≥ 0 then pushBackAt graph idx_out (MakeEdge idx_out idx_in 1)
  else pushBackAt graph idx_out (MakeEdge idx_out SINK_IDX 1)

/-- The loop "Setup each intersection's edges to other intersections". -/
def setupNeighbours (x_max y_max : Nat) (graph : List (List edge)) : List (List edge) :=
  (List.range x_max).foldl
    (fun g x => (List.range y_max).foldl
      (fun g y =>
        let idx_out := 1 + GetVertIdx x_max y_max x y
        let g := tryNeighbour x_max y_max g idx_out x (y + 1)
        let g := tryNeighbour x_max y_max g idx_out x (y - 1)
        let g := tryNeighbour x_max y_max g idx_out (x - 1) y
        tryNeighbour x_max y_max g idx_out (x + 1) y)
      g)
    graph

/-- The loop "Setup banks": an edge of capacity `1` from the source to the
in-vertex of every bank (banks are given one-based). -/
def setupBanks (x_max y_max : Nat) (banks : List (Int × Int)) (graph : List (List edge)) :
    List (List edge) :=
  banks.foldl
    (fun g b =>
      let x := b.1 - 1
      let y := b.2 - 1
      let idx_to := GetVertIdx x_max y_max x y
      pushBackAt g SOURCE_IDX (MakeEdge SOURCE_IDX idx_to 1))
    graph

/-- The graph `_graph` that `Crimewave::Solve` builds before it calls the solver. -/
def crimewaveGraph (x_max y_max : Nat) (banks : List (Int × Int)) : List (List edge) :=
  setupBanks x_max y_max banks
    (setupNeighbours x_max y_max
      (setupIntersections x_max y_max (List.replicate (1 + 1 + x_max * y_max * 2) [])))

/-- Every bank (given one-based) lies on the grid, i.e. `GetVertIdx` of its
zero-based position is not `-1`. -/
def banksOnGrid (x_max y_max : Nat) (banks : List (Int × Int)) : Bool :=
  banks.all (fun b => decide (0 ≤ GetVertIdx x_max y_max (b.1 - 1) (b.2 - 1)))

/-- The method `Crimewave::Solve`.  For a bank outside the grid the source
builds an edge from the source vertex to vertex `-1`, and the solver then
indexes `back_graph[-1]`: undefined behaviour, for which there is no result
(`none`). -/
def Solve (x_max y_max : Nat) (banks : List (Int × Int)) (fuel : Nat) : Option String :=
  if banksOnGrid x_max y_max banks then
    (MaxFlowValue563 (crimewaveGraph x_max y_max banks) SOURCE_IDX SINK_IDX fuel).map
      (fun max => if max ≠ (banks.length : Int) then NOT_POSSIBLE else POSSIBLE)
  else none

/-- The number of grid positions whose in-vertex to out-vertex edge carries
non-zero flow in a flow map. -/
def cellsUsed (x_max y_max : Nat) (flows : FlowMap) : Nat :=
  (((List.range x_max).flatMap (fun x => (List.range y_max).map (fun y =>
      (GetVertIdx x_max y_max x y).toNat))).filter
    (fun in_idx => decide ((flows in_idx (in_idx + 1)).flow ≠ 0))).length

/-! ## Network bandwidth (820.cpp) -/

/-- The statement `graph[i].push_back(e)`. -/
def addEdgeAt (graph : List (List edge)) (i : Nat) (e : edge) : List (List edge) :=
  graph.set i (graph.getD i [] ++ [e])

/-- The body of the loop over the connections in `Solve` of 820.cpp, for the
connection `(a, b, bandwidth)`: two new vertices `c` and `d` (one-based, as in
the source) and the edges `c → d`, `a → c`, `b → c`, `d → a`, `d → b`. -/
def addConnection (graph : List (List edge)) (conn : Nat × Nat × Int) : List (List edge) :=
  let a := conn.1
  let b := conn.2.1
  let bandwidth := conn.2.2
  let graph := graph ++ [[]]
  let c := graph.length
  let d := graph.length + 1
  let graph := addEdgeAt graph (c - 1) ⟨d - 1, bandwidth⟩
  let graph := graph ++ [[]]
  let graph := addEdgeAt graph (a - 1) ⟨c - 1, bandwidth⟩
  let graph := addEdgeAt graph (b - 1) ⟨c - 1, bandwidth⟩
  let graph := addEdgeAt graph (d - 1) ⟨a - 1, bandwidth⟩
  addEdgeAt graph (d - 1) ⟨b - 1, bandwidth⟩

/-- The graph that `Solve` of 820.cpp builds from the node count and the
connections read from the input. -/
def networkGraph (num_nodes : Nat) (conns : List (Nat × Nat × Int)) : List (List edge) :=
  conns.foldl addConnection (List.replicate num_nodes [])

/-- The bandwidth that `Solve` of 820.cpp prints: the total of
`MaxFlow(source-1, sink-1)` on the graph it built. -/
def Solve820 (num_nodes source sink : Nat) (conns : List (Nat × Nat × Int)) (fuel : Nat) :
    Option Int :=
  MaxFlowValue (networkGraph num_nodes conns) (source - 1) (sink - 1) fuel

/-- Every connection joins two different nodes numbered from `1` to `num_nodes`. -/
def ConnsValid (num_nodes : Nat) (conns : List (Nat × Nat × Int)) : Prop :=
  ∀ c ∈ conns, 1 ≤ c.1 ∧ c.1 ≤ num_nodes ∧ 1 ≤ c.2.1 ∧ c.2.1 ≤ num_nodes ∧ c.1 ≠ c.2.1

instance (num_nodes : Nat) (conns : List (Nat × Nat × Int)) :
    Decidable (ConnsValid num_nodes conns) := by
  unfold ConnsValid; infer_instance

/-- Every row of the graph has pairwise different targets, all of them
vertices of the graph. -/
def RowsOK (graph : List (List edge)) : Prop :=
  ∀ j, ((graph.getD j []).map edge.to_).Nodup ∧ ∀ e ∈ graph.getD j [], e.to_ < graph.length

/-! ## Adapters (753.cpp) -/

/-- The body of the loop that reads the adapters in `Solve` of 753.cpp, for the
adapter `(a, b)`.  The state is the vector `adapter` and the map `have`; a
lookup `have[b]` of a key never written yields the empty string. -/
def adapterStep (st : List (String × String) × (String → String)) (ab : String × String) :
    List (String × String) × (String → String) :=
  let a := ab.1
  let b := ab.2
  if a = b then st
  else if st.2 b = a then
    let bprime := "__" ++ a ++ b
    ((st.1 ++ [(a, bprime)]) ++ [(bprime, b)], st.2)
  else (st.1 ++ [(a, b)], fun k => if k = a then b else st.2 k)

/-- The vector `adapter` after the loop that reads the adapters. -/
def rewriteAdapters (input : List (String × String)) : List (String × String) :=
  (input.foldl adapterStep ([], fun _ => "")).1

/-- Type `p` can be converted to type `r` through a chain of adapters of the list. -/
def Converts (adapters : List (String × String)) : String → String → Prop :=
  Relation.ReflTransGen (fun p q => (p, q) ∈ adapters)

/-- Four adapters: `yz → x`, `z → xy`, `x → yz`, `xy → z`. -/
def collidingAdapters : List (String × String) :=
  [("yz", "x"), ("z", "xy"), ("x", "yz"), ("xy", "z")]

/-- The type name starts with the two characters `__`. -/
def startsWithMark (s : String) : Bool :=
  "__".data.isPrefixOf s.data

/-! ## Bounds under which no `int` overflows -/

/-- Every capacity of the graph is a value of `int`, i.e. at most `2147483647`. -/
def IntCaps (graph : List (List edge)) : Prop :=
  ∀ row ∈ graph, ∀ e ∈ row, e.capacity ≤ INT_MAX

instance (graph : List (List edge)) : Decidable (IntCaps graph) := by
  unfold IntCaps; infer_instance

/-- For every pair of vertices the last-listed capacities of the two
directions sum to at most `2147483647`: no residual capacity `c_f` overflows. -/
def PairsFit (graph : List (List edge)) : Prop :=
  ∀ u, u < graph.length → ∀ v, v < graph.length →
    lastCap graph u v + lastCap graph v u ≤ INT_MAX

instance (graph : List (List edge)) : Decidable (PairsFit graph) := by
  unfold PairsFit; infer_instance

/-- The last-listed capacities of the pairs that leave the source `s` sum to at
most `2147483647`: the total `max_flow` does not overflow. -/
def SourceFits (graph : List (List edge)) (s : Nat) : Prop :=
  ((List.range graph.length).map (lastCap graph s)).sum ≤ INT_MAX

instance (graph : List (List edge)) (s : Nat) : Decidable (SourceFits graph s) := by
  unfold SourceFits; infer_instance

/-- No `int` of the solver overflows on the graph from source `s`: both
`PairsFit` and `SourceFits`. -/
def NoOverflow (graph : List (List edge)) (s : Nat) : Prop :=
  PairsFit graph ∧ SourceFits graph s

instance (graph : List (List edge)) (s : Nat) : Decidable (NoOverflow graph s) := by
  unfold NoOverflow; infer_instance

/-- The invariant of the outer loop on 32-bit ints, relative to the pair
capacities `cap` that the initialisation stored and to the exact value `total`
of the flow: antisymmetry, the residual entry as the wrapped difference of
capacity and flow, flow at most the capacity, conservation away from source
and sink, and `total` as the net flow out of the source and into the sink. -/
structure FlowInv32 (n s t : Nat) (cap : Nat → Nat → Int) (total : Int)
    (flows : FlowMap) : Prop where
  antisym : ∀ u v, (flows u v).flow = -(flows v u).flow
  resid : ∀ u v, (flows u v).c_f = wrap32 (cap u v - (flows u v).flow)
  le_cap : ∀ u v, (flows u v).flow ≤ cap u v
  support : ∀ u v, n ≤ u ∨ n ≤ v → (flows u v).flow = 0
  conserve : ∀ v, v < n → v ≠ s → v ≠ t → netOut n flows v = 0
  value : netOut n flows s = total
  sink_value : netOut n flows t = -total

/-! ## Inputs on which an `int` overflows or a path is as long as the sentinel -/

/-- Two disjoint paths `0 → 1 → 3` and `0 → 2 → 3`, every edge of capacity
`2000000000`. -/
def twoBigPathsGraph : List (List edge) :=
  [[⟨1, 2000000000⟩, ⟨2, 2000000000⟩], [⟨3, 2000000000⟩], [⟨3, 2000000000⟩], []]

/-- Edges `0 → 1` and `1 → 0`, each of capacity `2000000000`. -/
def bigAntiparallelGraph : List (List edge) :=
  [[⟨1, 2000000000⟩], [⟨0, 2000000000⟩]]

/-- A path `0 → 1 → 2 → 3` of capacity `200000000`, a detour `0 → 4 → 2` into
it and a detour `1 → 5 → 3` out of it, both of capacity `100000000`, and an
edge `2 → 1` of capacity `2000000000` against the middle edge of the path. -/
def wrappedResidualGraph : List (List edge) :=
  [[⟨1, 200000000⟩, ⟨4, 100000000⟩], [⟨2, 200000000⟩, ⟨5, 100000000⟩],
    [⟨3, 200000000⟩, ⟨1, 2000000000⟩], [], [⟨2, 100000000⟩], [⟨3, 100000000⟩]]

/-- The capacities of a path of `999999999` unit edges. -/
def longPathCaps : List Int := List.replicate 999999999 1

/-! ## Vectors -/

theorem getD_set_eq {α : Type} (l : List α) (i : Nat) (x d : α) (h : i < l.length) :
    (l.set i x).getD i d = x := by
  simp [List.getD_eq_getElem?_getD, List.getElem?_set, h]

theorem getD_set_ne {α : Type} (l : List α) (i j : Nat) (x d : α) (h : i ≠ j) :
    (l.set i x).getD j d = l.getD j d := by
  simp [List.getD_eq_getElem?_getD, List.getElem?_set, h]

theorem getD_replicate_self {α : Type} (n i : Nat) (x : α) :
    (List.replicate n x).getD i x = x := by
  by_cases h : i < n
  · simp [List.getD_eq_getElem?_getD, List.getElem?_replicate, h]
  · simp [List.getD_eq_getElem?_getD, List.getElem?_replicate, h]

theorem getD_mem {α : Type} (l : List α) (i : Nat) (d : α) (h : i < l.length) :
    l.getD i d ∈ l := by
  rw [List.getD_eq_getElem _ _ h]
  exact List.getElem_mem h

theorem getD_of_le {α : Type} (l : List α) (i : Nat) (d : α) (h : l.length ≤ i) :
    l.getD i d = d := by
  simp [List.getD_eq_getElem?_getD, List.getElem?_eq_none h]

/-! ## Initialisation -/

theorem initEdge_snd (frm : Nat) (st : List (List edge) × FlowMap) (e : edge) :
    (initEdge frm st e).2 = set_c_f st.2 frm e.to_ e.capacity := rfl

theorem initRow_flow (frm : Nat) (row : List edge) (st : List (List edge) × FlowMap)
    (a b : Nat) : ((row.foldl (initEdge frm) st).2 a b).flow = (st.2 a b).flow := by
  induction row generalizing st with
  | nil => rfl
  | cons e rest ih =>
    rw [List.foldl_cons, ih, initEdge_snd]
    unfold set_c_f
    split <;> rfl

theorem initRow_c_f (frm : Nat) (row : List edge) (st : List (List edge) × FlowMap)
    (a b : Nat) :
    ((row.foldl (initEdge frm) st).2 a b).c_f =
      if a = frm then
        match (row.filter (fun e => e.to_ = b)).getLast? with
        | some e => e.capacity
        | none => (st.2 a b).c_f
      else (st.2 a b).c_f := by
  induction row using List.reverseRecOn generalizing st with
  | nil => simp
  | append_singleton rest e ih =>
    rw [List.foldl_append, List.foldl_cons, List.foldl_nil, initEdge_snd]
    unfold set_c_f
    by_cases ha : a = frm
    · by_cases hb : e.to_ = b
      · simp [ha, hb, List.filter_append, List.getLast?_append]
      · have hb' : ¬ b = e.to_ := fun h => hb h.symm
        have hf : List.filter (fun e => decide (e.to_ = b)) (rest ++ [e])
            = List.filter (fun e => decide (e.to_ = b)) rest := by
          simp [List.filter_append, hb]
        rw [hf, if_neg (fun h => hb' h.2), ih, if_pos ha]
    · rw [if_neg (fun h => ha h.1), ih, if_neg ha, if_neg ha]

theorem initRows_flow (graph : List (List edge)) (L : List Nat)
    (st : List (List edge) × FlowMap) (a b : Nat) :
    ((L.foldl (fun st frm => (graph.getD frm []).foldl (initEdge frm) st) st).2 a b).flow
      = (st.2 a b).flow := by
  induction L generalizing st with
  | nil => rfl
  | cons x rest ih => rw [List.foldl_cons, ih, initRow_flow]

theorem initRows_c_f (graph : List (List edge)) (L : List Nat)
    (st : List (List edge) × FlowMap) (a b : Nat) :
    ((L.foldl (fun st frm => (graph.getD frm []).foldl (initEdge frm) st) st).2 a b).c_f
      = if a ∈ L then
          match (edgesTo graph a b).getLast? with
          | some e => e.capacity
          | none => (st.2 a b).c_f
        else (st.2 a b).c_f := by
  induction L generalizing st with
  | nil => simp
  | cons x rest ih =>
    rw [List.foldl_cons, ih, initRow_c_f]
    unfold edgesTo
    by_cases hx : a = x
    · subst hx
      by_cases hr : a ∈ rest
      · simp only [hr, if_true, List.mem_cons, or_true]
        cases h : (List.filter (fun e => decide (e.to_ = b)) (graph.getD a [])).getLast? <;> simp
      · simp only [hr, if_false, List.mem_cons, true_or, if_true]
    · by_cases hr : a ∈ rest
      · simp [hr, hx]
      · simp [hr, hx]

/-- After the initialisation loop of 820.cpp every entry has flow `0` and holds
as residual capacity the capacity of the last-listed edge of its pair. -/
theorem initFlow_eq (graph : List (List edge)) (u v : Nat) :
    (initFlow graph emptyFlows).2 u v = ⟨0, lastCap graph u v⟩ := by
  have h1 := initRows_flow graph (List.range graph.length)
    (List.replicate graph.length [], emptyFlows) u v
  have h2 := initRows_c_f graph (List.range graph.length)
    (List.replicate graph.length [], emptyFlows) u v
  have h3 : (initFlow graph emptyFlows).2 u v
      = ⟨((initFlow graph emptyFlows).2 u v).flow, ((initFlow graph emptyFlows).2 u v).c_f⟩ := rfl
  rw [h3]
  unfold initFlow initFlowWith
  rw [h1, h2]
  unfold lastCap
  by_cases hu : u < graph.length
  · simp [hu, emptyFlows]
  · have : edgesTo graph u v = [] := by
      unfold edgesTo
      rw [getD_of_le _ _ _ (not_lt.mp hu)]
      rfl
    simp [hu, emptyFlows, this]

theorem initEdge_fst (frm : Nat) (st : List (List edge) × FlowMap) (e : edge) :
    (initEdge frm st e).1 = st.1.set e.to_ (st.1.getD e.to_ [] ++ [⟨frm, 0⟩]) := rfl

theorem initRow_back (frm : Nat) (row : List edge) (st : List (List edge) × FlowMap) :
    (row.foldl (initEdge frm) st).1.length = st.1.length ∧
    (∀ v x, x ∈ st.1.getD v [] → x ∈ (row.foldl (initEdge frm) st).1.getD v []) ∧
    (∀ e ∈ row, e.to_ < st.1.length →
      (⟨frm, 0⟩ : edge) ∈ (row.foldl (initEdge frm) st).1.getD e.to_ []) := by
  induction row generalizing st with
  | nil => simp
  | cons e rest ih =>
    rw [List.foldl_cons]
    obtain ⟨h1, h2, h3⟩ := ih (initEdge frm st e)
    have hlen : (initEdge frm st e).1.length = st.1.length := by
      rw [initEdge_fst, List.length_set]
    have hmono : ∀ v x, x ∈ st.1.getD v [] → x ∈ (initEdge frm st e).1.getD v [] := by
      intro v x hx
      rw [initEdge_fst]
      by_cases hv : e.to_ = v
      · subst hv
        by_cases hl : e.to_ < st.1.length
        · rw [getD_set_eq _ _ _ _ hl]
          exact List.mem_append_left _ hx
        · rw [getD_of_le _ _ _ (not_lt.mp hl)] at hx
          simp at hx
      · rw [getD_set_ne _ _ _ _ _ hv]
        exact hx
    refine ⟨h1.trans hlen, fun v x hx => h2 v x (hmono v x hx), ?_⟩
    intro e' he' hlt
    rcases List.mem_cons.mp he' with rfl | hr
    · apply h2
      rw [initEdge_fst, getD_set_eq _ _ _ _ hlt]
      simp
    · exact h3 e' hr (by rw [hlen]; exact hlt)

theorem initRows_back (graph : List (List edge)) (L : List Nat)
    (st : List (List edge) × FlowMap) :
    (L.foldl (fun st frm => (graph.getD frm []).foldl (initEdge frm) st) st).1.length
      = st.1.length ∧
    (∀ v x, x ∈ st.1.getD v [] →
      x ∈ (L.foldl (fun st frm => (graph.getD frm []).foldl (initEdge frm) st) st).1.getD v []) ∧
    (∀ u ∈ L, ∀ e ∈ graph.getD u [], e.to_ < st.1.length →
      (⟨u, 0⟩ : edge) ∈
        (L.foldl (fun st frm => (graph.getD frm []).foldl (initEdge frm) st) st).1.getD e.to_ []) := by
  induction L generalizing st with
  | nil => simp
  | cons x rest ih =>
    rw [List.foldl_cons]
    obtain ⟨h1, h2, h3⟩ := ih ((graph.getD x []).foldl (initEdge x) st)
    obtain ⟨r1, r2, r3⟩ := initRow_back x (graph.getD x []) st
    refine ⟨h1.trans r1, fun v y hy => h2 v y (r2 v y hy), ?_⟩
    intro u hu e he hlt
    rcases List.mem_cons.mp hu with rfl | hr
    · exact h2 _ _ (r3 e he hlt)
    · exact h3 u hr e he (by rw [r1]; exact hlt)

theorem initFlow_back_length (graph : List (List edge)) (flows : FlowMap) :
    (initFlow graph flows).1.length = graph.length := by
  unfold initFlow initFlowWith
  rw [(initRows_back graph _ _).1]
  simp

theorem initFlow_back_mem (graph : List (List edge)) (flows : FlowMap) (hwf : GraphWF graph)
    (u : Nat) (hu : u < graph.length) (e : edge) (he : e ∈ graph.getD u []) :
    (⟨u, 0⟩ : edge) ∈ (initFlow graph flows).1.getD e.to_ [] := by
  unfold initFlow initFlowWith
  apply (initRows_back graph _ _).2.2 u (List.mem_range.mpr hu) e he
  simp only [List.length_replicate]
  exact hwf _ (getD_mem _ _ _ hu) e he

/-! ## The search keeps its invariant -/

theorem LinkOK.mono_of_stable {n source : Nat} {flows : FlowMap} {mins mins' : List Nat}
    {lasts lasts' : List (Option Nat)} {p v : Nat}
    (h : LinkOK n source flows mins lasts p v)
    (hm : ∀ w, mins.getD w INF < INF → mins'.getD w INF = mins.getD w INF)
    (hl : ∀ w, lasts.getD w none ≠ none → lasts'.getD w none ≠ none) :
    LinkOK n source flows mins' lasts' p v := by
  have hp : mins.getD p INF < INF := by
    have := h.level
    have := h.reached
    omega
  refine ⟨h.v_lt, h.p_lt, h.v_ne, ?_, ?_, h.pos, ?_⟩
  · rw [hm v h.reached, hm p hp]
    exact h.level
  · rw [hm v h.reached]
    exact h.reached
  · rcases h.parent with hs | hn
    · exact Or.inl hs
    · exact Or.inr (hl p hn)

theorem Expanded.mono_of_le {graph back_graph : List (List edge)} {flows : FlowMap} {sink : Nat}
    {mins mins' : List Nat} {u : Nat}
    (h : Expanded graph back_graph flows sink mins u)
    (hu : mins.getD u INF < INF)
    (hm : ∀ w, mins.getD w INF < INF → mins'.getD w INF = mins.getD w INF)
    (hle : ∀ w, mins'.getD w INF ≤ mins.getD w INF) :
    Expanded graph back_graph flows sink mins' u := by
  refine ⟨h.1, fun e he => ?_⟩
  rcases h.2 e he with h1 | h2
  · left
    rw [hm u hu]
    exact (hle e.to_).trans h1
  · exact Or.inr h2

theorem tryEdge_inv {graph back_graph : List (List edge)} {flows : FlowMap}
    {source sink c idx : Nat} {lasts : List (Option Nat)}
    (st : List Nat × List (Nat × Option Nat)) (e : edge)
    (he : e.to_ < graph.length) (hidx : idx < graph.length)
    (hc : st.1.getD idx INF = c) (hcI : c < INF)
    (hpar : idx = source ∨ lasts.getD idx none ≠ none)
    (h : BfsInv graph back_graph flows source sink c (some idx) st.1 lasts st.2) :
    BfsInv graph back_graph flows source sink c (some idx)
        (tryEdge flows idx c st e).1 lasts (tryEdge flows idx c st e).2 ∧
      (∀ w, st.1.getD w INF < INF → (tryEdge flows idx c st e).1.getD w INF = st.1.getD w INF) ∧
      (∀ w, (tryEdge flows idx c st e).1.getD w INF ≤ st.1.getD w INF) ∧
      ((tryEdge flows idx c st e).1.getD e.to_ INF ≤ c + 1 ∨ (flows idx e.to_).c_f ≤ 0) := by
  unfold tryEdge
  split
  next hcond =>
    obtain ⟨hgt, hpos⟩ := hcond
    have hinf : st.1.getD e.to_ INF = INF := by
      rcases h.level e.to_ with h1 | h1
      · omega
      · exact h1
    have hc1 : c + 1 < INF := by omega
    have hlt : e.to_ < st.1.length := by rw [h.len_mins]; exact he
    have hstab : ∀ w, st.1.getD w INF < INF →
        (st.1.set e.to_ (c + 1)).getD w INF = st.1.getD w INF := by
      intro w hw
      have : e.to_ ≠ w := by
        intro hEq
        rw [← hEq, hinf] at hw
        exact lt_irrefl _ hw
      exact getD_set_ne _ _ _ _ _ this
    have hle : ∀ w, (st.1.set e.to_ (c + 1)).getD w INF ≤ st.1.getD w INF := by
      intro w
      by_cases hw : e.to_ = w
      · subst hw
        rw [getD_set_eq _ _ _ _ hlt, hinf]
        omega
      · rw [getD_set_ne _ _ _ _ _ hw]
    have hnew : (st.1.set e.to_ (c + 1)).getD e.to_ INF = c + 1 := getD_set_eq _ _ _ _ hlt
    have hsrc : e.to_ ≠ source := by
      intro hEq
      rw [hEq, h.src_min] at hinf
      unfold INF at hinf
      omega
    have hidx' : (st.1.set e.to_ (c + 1)).getD idx INF = c := by
      rw [hstab idx (by rw [hc]; exact hcI), hc]
    refine ⟨⟨?_, h.len_lasts, h.src_lt, ?_, h.src_last, ?_, ?_, ?_, ?_, ?_, ?_, ?_⟩,
      hstab, hle, Or.inl (le_of_eq hnew)⟩
    · rw [List.length_set]; exact h.len_mins
    · rw [hstab source (by rw [h.src_min]; unfold INF; omega)]; exact h.src_min
    · intro v p hv
      exact (h.links v p hv).mono_of_stable hstab (fun _ hw => hw)
    · intro x hx
      rcases List.mem_append.mp hx with hx | hx
      · obtain ⟨q1, q2, q3, q4⟩ := h.queue x hx
        refine ⟨q1, ?_, q3, fun p hp => (q4 p hp).mono_of_stable hstab (fun _ hw => hw)⟩
        rw [hstab _ q2]; exact q2
      · simp only [List.mem_singleton] at hx
        subst hx
        refine ⟨he, ?_, ?_, ?_⟩
        · show (st.1.set e.to_ (c + 1)).getD e.to_ INF < INF
          rw [hnew]; exact hc1
        · intro hcontra; simp at hcontra
        · intro p hp
          simp only [Option.some.injEq] at hp
          subst hp
          exact ⟨he, hidx, hsrc, by rw [hnew, hidx'], by rw [hnew]; exact hc1, hpos, hpar⟩
    · intro w
      by_cases hw : e.to_ = w
      · subst hw; left; rw [hnew]
      · rw [getD_set_ne _ _ _ _ _ hw]; exact h.level w
    · intro x hx
      rcases List.mem_append.mp hx with hx | hx
      · rw [hstab _ (h.queue x hx).2.1]; exact h.q_ge x hx
      · simp only [List.mem_singleton] at hx
        subst hx
        show c ≤ (st.1.set e.to_ (c + 1)).getD e.to_ INF
        rw [hnew]; omega
    · rw [List.map_append, List.pairwise_append]
      refine ⟨?_, by simp, ?_⟩
      · have : st.2.map (fun x => (st.1.set e.to_ (c + 1)).getD x.1 INF)
            = st.2.map (fun x => st.1.getD x.1 INF) := by
          apply List.map_congr_left
          intro x hx
          exact hstab _ (h.queue x hx).2.1
        rw [this]
        exact h.q_sorted
      · intro a ha b hb
        simp only [List.map_cons, List.map_nil, List.mem_singleton] at hb
        rw [hb, hnew]
        obtain ⟨x, hx, rfl⟩ := List.mem_map.mp ha
        have hx2 := (h.queue x hx).2.1
        show (st.1.set e.to_ (c + 1)).getD x.1 INF ≤ c + 1
        rw [hstab _ hx2]
        rcases h.level x.1 with h1 | h1
        · exact h1
        · omega
    · intro u hu
      by_cases hw : e.to_ = u
      · left
        exact ⟨(e.to_, some idx), by simp, hw⟩
      · rw [getD_set_ne _ _ _ _ _ hw] at hu
        rcases h.expanded u hu with ⟨x, hx, hxu⟩ | hcur | hexp
        · left
          exact ⟨x, List.mem_append_left _ hx, hxu⟩
        · exact Or.inr (Or.inl hcur)
        · exact Or.inr (Or.inr (hexp.mono_of_le hu hstab hle))
    · intro v hv k hk
      by_cases hw : e.to_ = v
      · subst hw
        rw [hnew] at hk
        by_cases hk' : k = c + 1
        · exact ⟨e.to_, he, by rw [hnew, hk']⟩
        · obtain ⟨w, hw1, hw2⟩ := h.levels idx (by rw [hc]; exact hcI) k (by rw [hc]; omega)
          refine ⟨w, hw1, ?_⟩
          rw [hstab w (by rw [hw2]; omega)]
          exact hw2
      · rw [getD_set_ne _ _ _ _ _ hw] at hv hk
        obtain ⟨w, hw1, hw2⟩ := h.levels v hv k hk
        refine ⟨w, hw1, ?_⟩
        rw [hstab w (by rw [hw2]; omega)]
        exact hw2
  next hcond =>
    refine ⟨h, fun _ _ => rfl, fun _ => le_refl _, ?_⟩
    by_cases hpos : (flows idx e.to_).c_f > 0
    · left
      have : ¬ st.1.getD e.to_ INF > c + 1 := fun hgt => hcond ⟨hgt, hpos⟩
      omega
    · right
      omega

theorem tryEdges_inv {graph back_graph : List (List edge)} {flows : FlowMap}
    {source sink c idx : Nat} {lasts : List (Option Nat)}
    (es : List edge) (st : List Nat × List (Nat × Option Nat))
    (hes : ∀ e ∈ es, e.to_ < graph.length) (hidx : idx < graph.length)
    (hc : st.1.getD idx INF = c) (hcI : c < INF)
    (hpar : idx = source ∨ lasts.getD idx none ≠ none)
    (h : BfsInv graph back_graph flows source sink c (some idx) st.1 lasts st.2) :
    BfsInv graph back_graph flows source sink c (some idx)
        (tryEdges flows idx c es st).1 lasts (tryEdges flows idx c es st).2 ∧
      (∀ w, st.1.getD w INF < INF → (tryEdges flows idx c es st).1.getD w INF = st.1.getD w INF) ∧
      (∀ w, (tryEdges flows idx c es st).1.getD w INF ≤ st.1.getD w INF) ∧
      (∀ e ∈ es, (tryEdges flows idx c es st).1.getD e.to_ INF ≤ c + 1 ∨
        (flows idx e.to_).c_f ≤ 0) := by
  induction es generalizing st with
  | nil => exact ⟨h, fun _ _ => rfl, fun _ => le_refl _, fun e he => by simp at he⟩
  | cons e rest ih =>
    obtain ⟨s1, s2, s3, s4⟩ :=
      tryEdge_inv st e (hes e (List.mem_cons_self _ _)) hidx hc hcI hpar h
    have hc' : (tryEdge flows idx c st e).1.getD idx INF = c := by
      rw [s2 idx (by rw [hc]; exact hcI), hc]
    obtain ⟨r1, r2, r3, r4⟩ := ih (tryEdge flows idx c st e)
      (fun e' he' => hes e' (List.mem_cons_of_mem _ he')) hc' s1
    have hfold : tryEdges flows idx c (e :: rest) st
        = tryEdges flows idx c rest (tryEdge flows idx c st e) := rfl
    rw [hfold]
    refine ⟨r1, ?_, fun w => (r3 w).trans (s3 w), ?_⟩
    · intro w hw
      rw [r2 w (by rw [s2 w hw]; exact hw), s2 w hw]
    · intro e' he'
      rcases List.mem_cons.mp he' with rfl | hr
      · rcases s4 with h1 | h1
        · exact Or.inl ((r3 _).trans h1)
        · exact Or.inr h1
      · exact r4 e' hr

theorem BfsInv.pop {graph back_graph : List (List edge)} {flows : FlowMap}
    {source sink c : Nat} {mins : List Nat} {lasts : List (Option Nat)}
    {p : Nat × Option Nat} {s : List (Nat × Option Nat)}
    (h : BfsInv graph back_graph flows source sink c none mins lasts (p :: s)) :
    BfsInv graph back_graph flows source sink (mins.getD p.1 INF) (some p.1)
        mins (lasts.set p.1 p.2) s ∧
      p.1 < graph.length ∧ mins.getD p.1 INF < INF ∧
      (p.1 = source ∨ (lasts.set p.1 p.2).getD p.1 none ≠ none) ∧
      (p.1 ≠ source → (lasts.set p.1 p.2).getD p.1 none ≠ none) := by
  obtain ⟨q1, q2, q3, q4⟩ := h.queue p (List.mem_cons_self _ _)
  have hlt : p.1 < lasts.length := by rw [h.len_lasts]; exact q1
  have hself : (lasts.set p.1 p.2).getD p.1 none = p.2 := getD_set_eq _ _ _ _ hlt
  have hne : p.1 ≠ source → (lasts.set p.1 p.2).getD p.1 none ≠ none := by
    intro hsrc
    rw [hself]
    intro hnone
    exact hsrc (q3 hnone)
  have hl : ∀ w, lasts.getD w none ≠ none → (lasts.set p.1 p.2).getD w none ≠ none := by
    intro w hw
    by_cases hpw : p.1 = w
    · subst hpw
      apply hne
      intro hsrc
      rw [hsrc] at hw
      exact hw h.src_last
    · rw [getD_set_ne _ _ _ _ _ hpw]; exact hw
  have hcge : c ≤ mins.getD p.1 INF := h.q_ge p (List.mem_cons_self _ _)
  have hsorted := h.q_sorted
  rw [List.map_cons, List.pairwise_cons] at hsorted
  refine ⟨⟨h.len_mins, ?_, h.src_lt, h.src_min, ?_, ?_, ?_, ?_, ?_, hsorted.2, ?_, h.levels⟩,
    q1, q2, ?_, hne⟩
  · rw [List.length_set]; exact h.len_lasts
  · by_cases hps : p.1 = source
    · rw [← hps, hself]
      cases hp2 : p.2 with
      | none => rfl
      | some p' => exact absurd hps (q4 p' hp2).v_ne
    · rw [getD_set_ne _ _ _ _ _ hps]; exact h.src_last
  · intro v p' hv
    by_cases hpv : p.1 = v
    · subst hpv
      rw [hself] at hv
      exact (q4 p' hv).mono_of_stable (fun _ _ => rfl) hl
    · rw [getD_set_ne _ _ _ _ _ hpv] at hv
      exact (h.links v p' hv).mono_of_stable (fun _ _ => rfl) hl
  · intro x hx
    obtain ⟨x1, x2, x3, x4⟩ := h.queue x (List.mem_cons_of_mem _ hx)
    exact ⟨x1, x2, x3, fun p' hp' => (x4 p' hp').mono_of_stable (fun _ _ => rfl) hl⟩
  · intro w
    rcases h.level w with h1 | h1
    · left; omega
    · exact Or.inr h1
  · intro x hx
    exact hsorted.1 _ (List.mem_map.mpr ⟨x, hx, rfl⟩)
  · intro u hu
    rcases h.expanded u hu with ⟨x, hx, hxu⟩ | hcur | hexp
    · rcases List.mem_cons.mp hx with rfl | hx'
      · right; left; rw [hxu]
      · left; exact ⟨x, hx', hxu⟩
    · simp at hcur
    · exact Or.inr (Or.inr hexp)
  · by_cases hps : p.1 = source
    · exact Or.inl hps
    · exact Or.inr (hne hps)

theorem bfsLoop_post {graph back_graph : List (List edge)} {flows : FlowMap}
    {source sink : Nat} (hadj : AdjWF graph back_graph) (hst : source ≠ sink)
    (fuel : Nat) (idx c : Nat) (mins : List Nat) (lasts : List (Option Nat))
    (q : List (Nat × Option Nat)) (r : SearchResult)
    (hidx : idx ≠ sink)
    (h : BfsInv graph back_graph flows source sink c none mins lasts q)
    (hr : bfsLoop graph back_graph flows sink fuel idx mins lasts q = some r) :
    BfsPost graph back_graph flows source sink r := by
  induction fuel generalizing idx c mins lasts q with
  | zero => simp [bfsLoop] at hr
  | succ fuel ih =>
    cases q with
    | nil =>
      simp only [bfsLoop, Option.some.injEq] at hr
      subst hr
      refine ⟨h.len_mins, h.len_lasts, h.src_min, h.src_last, h.links, ?_, h.levels, ?_⟩
      · intro hEq; exact absurd hEq hidx
      · intro _ u hu
        rcases h.expanded u hu with ⟨x, hx, _⟩ | hcur | hexp
        · simp at hx
        · simp at hcur
        · exact hexp
    | cons p s =>
      obtain ⟨hinv, hplt, hpI, hpar, hne⟩ := h.pop
      simp only [bfsLoop] at hr
      split at hr
      next hps =>
        simp only [Option.some.injEq] at hr
        subst hr
        refine ⟨hinv.len_mins, hinv.len_lasts, hinv.src_min, hinv.src_last, hinv.links, ?_,
          hinv.levels, ?_⟩
        · intro _
          show (lasts.set p.1 p.2).getD sink none ≠ none
          rw [← hps]
          exact hne (by rw [hps]; exact fun hEq => hst hEq.symm)
        · intro hcontra; exact absurd hps hcontra
      next hps =>
        have hg : ∀ e ∈ graph.getD p.1 [], e.to_ < graph.length :=
          fun e he => hadj.2 p.1 e (List.mem_append_left _ he)
        have hb : ∀ e ∈ back_graph.getD p.1 [], e.to_ < graph.length :=
          fun e he => hadj.2 p.1 e (List.mem_append_right _ he)
        obtain ⟨a1, a2, a3, a4⟩ := tryEdges_inv (graph.getD p.1 []) (mins, s) hg hplt rfl hpI hpar hinv
        have hc' : (tryEdges flows p.1 (mins.getD p.1 INF) (graph.getD p.1 []) (mins, s)).1.getD p.1 INF
            = mins.getD p.1 INF := a2 p.1 hpI
        obtain ⟨b1, b2, b3, b4⟩ := tryEdges_inv (back_graph.getD p.1 []) _ hb hplt hc' hpI hpar a1
        apply ih p.1 (mins.getD p.1 INF) _ _ _ hps ?_ hr
        have hfin : ∀ w, mins.getD w INF < INF →
            (tryEdges flows p.1 (mins.getD p.1 INF) (back_graph.getD p.1 [])
              (tryEdges flows p.1 (mins.getD p.1 INF) (graph.getD p.1 []) (mins, s))).1.getD w INF
              = mins.getD w INF := by
          intro w hw
          rw [b2 w (by rw [a2 w hw]; exact hw), a2 w hw]
        refine ⟨b1.len_mins, b1.len_lasts, b1.src_lt, b1.src_min, b1.src_last, b1.links,
          b1.queue, b1.level, b1.q_ge, b1.q_sorted, ?_, b1.levels⟩
        intro u hu
        rcases b1.expanded u hu with hx | hcur | hexp
        · exact Or.inl hx
        · right; right
          simp only [Option.some.injEq] at hcur
          subst hcur
          refine ⟨hps, fun e he => ?_⟩
          rw [hfin p.1 hpI]
          rcases List.mem_append.mp he with he | he
          · rcases a4 e he with h1 | h1
            · exact Or.inl ((b3 _).trans h1)
            · exact Or.inr h1
          · exact b4 e he
        · exact Or.inr (Or.inr hexp)

theorem bfs_init_inv (graph back_graph : List (List edge)) (flows : FlowMap)
    (source sink : Nat) (hs : source < graph.length) :
    BfsInv graph back_graph flows source sink 0 none
      ((List.replicate graph.length INF).set source 0)
      (List.replicate graph.length none) [(source, none)] := by
  have hm : ∀ w, ((List.replicate graph.length INF).set source 0).getD w INF
      = if w = source then 0 else INF := by
    intro w
    by_cases hw : w = source
    · subst hw
      rw [getD_set_eq _ _ _ _ (by simp [hs])]
      simp
    · rw [getD_set_ne _ _ _ _ _ (fun h => hw h.symm), getD_replicate_self]
      simp [hw]
  have hl : ∀ w, (List.replicate graph.length (none : Option Nat)).getD w none = none :=
    fun w => getD_replicate_self _ _ _
  refine ⟨by simp, by simp, hs, by rw [hm]; simp, hl source, ?_, ?_, ?_, ?_, by simp, ?_, ?_⟩
  · intro v p hv
    rw [hl] at hv
    simp at hv
  · intro x hx
    simp only [List.mem_singleton] at hx
    subst hx
    refine ⟨hs, ?_, fun _ => rfl, fun p hp => by simp at hp⟩
    show ((List.replicate graph.length INF).set source 0).getD source INF < INF
    rw [hm]; simp [INF]
  · intro w
    rw [hm]
    by_cases hw : w = source
    · simp [hw]
    · simp [hw]
  · intro x hx
    omega
  · intro u hu
    rw [hm] at hu
    by_cases hw : u = source
    · left; exact ⟨(source, none), by simp, hw.symm⟩
    · simp [hw] at hu
  · intro v hv k hk
    rw [hm] at hv hk
    by_cases hw : v = source
    · simp only [hw, if_true] at hk
      refine ⟨source, hs, ?_⟩
      rw [hm]; simp; omega
    · simp [hw] at hv

/-- Partial correctness of one search: whatever it returns satisfies `BfsPost`. -/
theorem bfs_post {graph back_graph : List (List edge)} {flows : FlowMap}
    {source sink : Nat} (hadj : AdjWF graph back_graph) (hs : source < graph.length)
    (hst : source ≠ sink) (fuel : Nat) (r : SearchResult)
    (hr : bfs graph back_graph flows source sink fuel = some r) :
    BfsPost graph back_graph flows source sink r :=
  bfsLoop_post hadj hst fuel source 0 _ _ _ r hst
    (bfs_init_inv graph back_graph flows source sink hs) hr

/-! ## The search terminates -/

theorem sum_set_add (l : List Nat) (i x : Nat) (h : i < l.length) :
    (l.set i x).sum + l.getD i 0 = l.sum + x := by
  induction l generalizing i with
  | nil => simp at h
  | cons a rest ih =>
    cases i with
    | zero => simp; omega
    | succ j =>
      simp only [List.set_cons_succ, List.sum_cons, List.getD_cons_succ]
      have := ih j (by simpa using h)
      omega

theorem getD_default_irrel (l : List Nat) (i d d' : Nat) (h : i < l.length) :
    l.getD i d = l.getD i d' := by
  rw [List.getD_eq_getElem _ _ h, List.getD_eq_getElem _ _ h]

theorem tryEdge_measure (flows : FlowMap) (idx c n : Nat)
    (st : List Nat × List (Nat × Option Nat)) (e : edge)
    (he : e.to_ < n) (hlen : st.1.length = n) :
    (tryEdge flows idx c st e).1.length = n ∧
      2 * (tryEdge flows idx c st e).1.sum + (tryEdge flows idx c st e).2.length
        ≤ 2 * st.1.sum + st.2.length := by
  unfold tryEdge
  split
  next hcond =>
    have hlt : e.to_ < st.1.length := by rw [hlen]; exact he
    have h1 := sum_set_add st.1 e.to_ (c + 1) hlt
    rw [getD_default_irrel _ _ 0 INF hlt] at h1
    refine ⟨by rw [List.length_set]; exact hlen, ?_⟩
    simp only [List.length_append, List.length_singleton]
    omega
  next => exact ⟨hlen, le_refl _⟩

theorem tryEdges_measure (flows : FlowMap) (idx c n : Nat) (es : List edge)
    (st : List Nat × List (Nat × Option Nat))
    (hes : ∀ e ∈ es, e.to_ < n) (hlen : st.1.length = n) :
    (tryEdges flows idx c es st).1.length = n ∧
      2 * (tryEdges flows idx c es st).1.sum + (tryEdges flows idx c es st).2.length
        ≤ 2 * st.1.sum + st.2.length := by
  induction es generalizing st with
  | nil => exact ⟨hlen, le_refl _⟩
  | cons e rest ih =>
    obtain ⟨s1, s2⟩ := tryEdge_measure flows idx c n st e (hes e (List.mem_cons_self _ _)) hlen
    obtain ⟨r1, r2⟩ := ih (tryEdge flows idx c st e)
      (fun e' he' => hes e' (List.mem_cons_of_mem _ he')) s1
    have hfold : tryEdges flows idx c (e :: rest) st
        = tryEdges flows idx c rest (tryEdge flows idx c st e) := rfl
    rw [hfold]
    exact ⟨r1, r2.trans s2⟩

/-- The queue loop returns once the fuel exceeds `2 * sum mins + |queue|`. -/
theorem bfsLoop_terminates {graph back_graph : List (List edge)} (flows : FlowMap)
    (sink : Nat) (hadj : AdjWF graph back_graph)
    (fuel : Nat) (idx : Nat) (mins : List Nat) (lasts : List (Option Nat))
    (q : List (Nat × Option Nat)) (hlen : mins.length = graph.length)
    (hfuel : 2 * mins.sum + q.length < fuel) :
    ∃ r, bfsLoop graph back_graph flows sink fuel idx mins lasts q = some r := by
  induction fuel generalizing idx mins lasts q with
  | zero => omega
  | succ fuel ih =>
    cases q with
    | nil => exact ⟨_, rfl⟩
    | cons p s =>
      simp only [bfsLoop]
      split
      next => exact ⟨_, rfl⟩
      next =>
        have hg : ∀ e ∈ graph.getD p.1 [], e.to_ < graph.length :=
          fun e he => hadj.2 p.1 e (List.mem_append_left _ he)
        have hb : ∀ e ∈ back_graph.getD p.1 [], e.to_ < graph.length :=
          fun e he => hadj.2 p.1 e (List.mem_append_right _ he)
        obtain ⟨a1, a2⟩ := tryEdges_measure flows p.1 (mins.getD p.1 INF) graph.length
          (graph.getD p.1 []) (mins, s) hg hlen
        obtain ⟨b1, b2⟩ := tryEdges_measure flows p.1 (mins.getD p.1 INF) graph.length
          (back_graph.getD p.1 []) _ hb a1
        apply ih _ _ _ _ b1
        simp only [List.length_cons] at hfuel
        dsimp only at a2
        omega

theorem bfsLoop_fuel_mono {graph back_graph : List (List edge)} (flows : FlowMap)
    (sink : Nat) (fuel fuel' : Nat) (idx : Nat) (mins : List Nat) (lasts : List (Option Nat))
    (q : List (Nat × Option Nat)) (r : SearchResult) (hle : fuel ≤ fuel')
    (hr : bfsLoop graph back_graph flows sink fuel idx mins lasts q = some r) :
    bfsLoop graph back_graph flows sink fuel' idx mins lasts q = some r := by
  induction fuel generalizing fuel' idx mins lasts q with
  | zero => simp [bfsLoop] at hr
  | succ fuel ih =>
    cases fuel' with
    | zero => omega
    | succ fuel' =>
      cases q with
      | nil => simpa [bfsLoop] using hr
      | cons p s =>
        simp only [bfsLoop] at hr ⊢
        split
        next hps => simpa [hps] using hr
        next hps =>
          rw [if_neg hps] at hr
          exact ih fuel' _ _ _ _ (by omega) hr

/-- A bound on the fuel one search needs. -/
theorem bfs_terminates {graph back_graph : List (List edge)} (flows : FlowMap)
    (source sink : Nat) (hadj : AdjWF graph back_graph) (fuel : Nat)
    (hfuel : 2 * graph.length * INF + 2 ≤ fuel) :
    ∃ r, bfs graph back_graph flows source sink fuel = some r := by
  unfold bfs
  apply bfsLoop_terminates flows sink hadj
  · simp
  · have hsum : ∀ (l : List Nat) (i x : Nat), (l.set i x).sum ≤ l.sum + x := by
      intro l i x
      by_cases h : i < l.length
      · have := sum_set_add l i x h; omega
      · rw [List.set_eq_of_length_le (not_lt.mp h)]; omega
    have h1 := hsum (List.replicate graph.length INF) source 0
    have h2 : (List.replicate graph.length INF).sum = graph.length * INF := by
      simp
    rw [h2] at h1
    simp only [List.length_singleton]
    have : 2 * graph.length * INF = 2 * (graph.length * INF) := by ring
    omega

/-! ## Walking the predecessor chain -/

theorem pushEdge_flow (flows : FlowMap) (p i : Nat) (c : Int) (a b : Nat) :
    ((pushEdge flows p i c) a b).flow =
      (flows a b).flow + (if a = p ∧ b = i then c else 0) - (if a = i ∧ b = p then c else 0) := by
  unfold pushEdge bump
  by_cases hpi : p = i
  · subst hpi
    by_cases h1 : a = p ∧ b = p
    · rw [if_pos h1, if_pos h1, if_pos h1]
      dsimp only
      omega
    · rw [if_neg h1, if_neg h1, if_neg h1]
      omega
  · by_cases h1 : a = p ∧ b = i
    · have h2 : ¬ (a = i ∧ b = p) := fun h => hpi (h1.1.symm.trans h.1)
      rw [if_neg h2, if_pos h1, if_pos h1, if_neg h2]
      dsimp only
      omega
    · by_cases h2 : a = i ∧ b = p
      · rw [if_pos h2, if_neg h1, if_neg h1, if_pos h2]
        dsimp only
        omega
      · rw [if_neg h2, if_neg h1, if_neg h1, if_neg h2]
        omega

theorem pushEdge_c_f (flows : FlowMap) (p i : Nat) (c : Int) (a b : Nat) :
    ((pushEdge flows p i c) a b).c_f =
      (flows a b).c_f - (if a = p ∧ b = i then c else 0) + (if a = i ∧ b = p then c else 0) := by
  unfold pushEdge bump
  by_cases hpi : p = i
  · subst hpi
    by_cases h1 : a = p ∧ b = p
    · rw [if_pos h1, if_pos h1, if_pos h1]
      dsimp only
      omega
    · rw [if_neg h1, if_neg h1, if_neg h1]
      omega
  · by_cases h1 : a = p ∧ b = i
    · have h2 : ¬ (a = i ∧ b = p) := fun h => hpi (h1.1.symm.trans h.1)
      rw [if_neg h2, if_pos h1, if_pos h1, if_neg h2]
      dsimp only
      omega
    · by_cases h2 : a = i ∧ b = p
      · rw [if_pos h2, if_neg h1, if_neg h1, if_pos h2]
        dsimp only
        omega
      · rw [if_neg h2, if_neg h1, if_neg h1, if_neg h2]
        omega

theorem pushEdge_netOut (n : Nat) (flows : FlowMap) (p i : Nat) (c : Int) (v : Nat)
    (hp : p < n) (hi : i < n) :
    netOut n (pushEdge flows p i c) v =
      netOut n flows v + (if v = p then c else 0) - (if v = i then c else 0) := by
  unfold netOut
  simp only [pushEdge_flow]
  rw [Finset.sum_sub_distrib, Finset.sum_add_distrib]
  have h1 : ∑ w in Finset.range n, (if v = p ∧ w = i then c else 0) = if v = p then c else 0 := by
    by_cases hv : v = p
    · simp [hv, hi]
    · simp [hv]
  have h2 : ∑ w in Finset.range n, (if v = i ∧ w = p then c else 0) = if v = i then c else 0 := by
    by_cases hv : v = i
    · simp [hv, hp]
    · simp [hv]
  rw [h1, h2]

/-- The bottleneck loop returns, with a value below the start value and below
every residual capacity on the chain, and positive when those are. -/
theorem findCfp_spec {n source : Nat} {flows : FlowMap} {mins : List Nat}
    {lasts : List (Option Nat)}
    (hlinks : ∀ v p, lasts.getD v none = some p → LinkOK n source flows mins lasts p v)
    (fuel idx : Nat) (c0 : Int) (hfuel : mins.getD idx INF < fuel) :
    ∃ c, findCfp flows lasts fuel idx c0 = some c ∧ c ≤ c0 ∧ (0 < c0 → 0 < c) ∧
      ∀ p v, OnChain lasts idx p v → c ≤ (flows p v).c_f := by
  induction fuel generalizing idx c0 with
  | zero => omega
  | succ fuel ih =>
    unfold findCfp
    cases hl : lasts.getD idx none with
    | none =>
      refine ⟨c0, rfl, le_refl _, fun h => h, ?_⟩
      intro p v hch
      cases hch with
      | here h => rw [hl] at h; simp at h
      | there h _ => rw [hl] at h; simp at h
    | some last =>
      have hk := hlinks idx last hl
      obtain ⟨c, h1, h2, h3, h4⟩ := ih last (min c0 (flows last idx).c_f)
        (by have := hk.level; omega)
      refine ⟨c, h1, h2.trans (min_le_left _ _), ?_, ?_⟩
      · intro hc0
        exact h3 (lt_min hc0 hk.pos)
      · intro p v hch
        cases hch with
        | here h =>
          rw [hl] at h
          simp only [Option.some.injEq] at h
          subst h
          exact h2.trans (min_le_right _ _)
        | there h hrest =>
          rw [hl] at h
          simp only [Option.some.injEq] at h
          subst h
          exact h4 p v hrest

theorem findCfp_fuel_mono (flows : FlowMap) (lasts : List (Option Nat))
    (fuel fuel' idx : Nat) (c0 c : Int) (hle : fuel ≤ fuel')
    (h : findCfp flows lasts fuel idx c0 = some c) :
    findCfp flows lasts fuel' idx c0 = some c := by
  induction fuel generalizing fuel' idx c0 with
  | zero => simp [findCfp] at h
  | succ fuel ih =>
    cases fuel' with
    | zero => omega
    | succ fuel' =>
      unfold findCfp at h ⊢
      cases hl : lasts.getD idx none with
      | none => rw [hl] at h; exact h
      | some last =>
        rw [hl] at h
        exact ih fuel' _ _ (by omega) h

theorem sendFlow_fuel_mono (lasts : List (Option Nat)) (c : Int)
    (fuel fuel' idx : Nat) (flows r : FlowMap) (hle : fuel ≤ fuel')
    (h : sendFlow lasts c fuel idx flows = some r) :
    sendFlow lasts c fuel' idx flows = some r := by
  induction fuel generalizing fuel' idx flows with
  | zero => simp [sendFlow] at h
  | succ fuel ih =>
    cases fuel' with
    | zero => omega
    | succ fuel' =>
      unfold sendFlow at h ⊢
      cases hl : lasts.getD idx none with
      | none => rw [hl] at h; exact h
      | some last =>
        rw [hl] at h
        exact ih fuel' _ _ (by omega) h

theorem pushEdge_other (flows : FlowMap) (p i : Nat) (c : Int) (a b : Nat)
    (h1 : ¬ (a = p ∧ b = i)) (h2 : ¬ (a = i ∧ b = p)) :
    (pushEdge flows p i c) a b = flows a b := by
  unfold pushEdge bump
  rw [if_neg h2, if_neg h1]

/-- The "send flow through" loop returns and keeps the bookkeeping facts; the
net flow changes only at the two ends of the chain. -/
theorem sendFlow_spec {n source : Nat} {flows : FlowMap} {mins : List Nat}
    {lasts : List (Option Nat)} {cap : Nat → Nat → Int}
    (hlinks : ∀ v p, lasts.getD v none = some p → LinkOK n source flows mins lasts p v)
    (c : Int) (hc0 : 0 ≤ c) (fuel idx : Nat) (cur : FlowMap)
    (hfuel : mins.getD idx INF < fuel)
    (hroot : idx = source ∨ lasts.getD idx none ≠ none)
    (hbound : ∀ p v, OnChain lasts idx p v → c ≤ (flows p v).c_f)
    (hsame : ∀ x y, mins.getD x INF ≤ mins.getD idx INF → mins.getD y INF ≤ mins.getD idx INF →
      cur x y = flows x y)
    (ha : ∀ u v, (cur u v).flow = -(cur v u).flow)
    (hr : ∀ u v, (cur u v).c_f + (cur u v).flow = cap u v)
    (hn : ∀ u v, 0 ≤ (cur u v).c_f)
    (hsup : ∀ u v, n ≤ u ∨ n ≤ v → (cur u v).flow = 0) :
    ∃ r, sendFlow lasts c fuel idx cur = some r ∧
      (∀ u v, (r u v).flow = -(r v u).flow) ∧
      (∀ u v, (r u v).c_f + (r u v).flow = cap u v) ∧
      (∀ u v, 0 ≤ (r u v).c_f) ∧
      (∀ u v, n ≤ u ∨ n ≤ v → (r u v).flow = 0) ∧
      ∀ v, netOut n r v =
        netOut n cur v + (if v = source then c else 0) - (if v = idx then c else 0) := by
  induction fuel generalizing idx cur with
  | zero => omega
  | succ fuel ih =>
    unfold sendFlow
    cases hl : lasts.getD idx none with
    | none =>
      have hidx : idx = source := by
        rcases hroot with h | h
        · exact h
        · exact absurd hl h
      refine ⟨cur, rfl, ha, hr, hn, hsup, ?_⟩
      intro v
      rw [hidx]
      omega
    | some last =>
      have hk := hlinks idx last hl
      have hlev := hk.level
      have hcb : c ≤ (cur last idx).c_f := by
        rw [hsame last idx (by omega) (le_refl _)]
        exact hbound last idx (OnChain.here hl)
      obtain ⟨r, h1, h2, h3, h4, h5, h6⟩ := ih last (pushEdge cur last idx c)
        (by omega) hk.parent
        (fun p v hch => hbound p v (OnChain.there hl hch))
        (by
          intro x y hx hy
          have hxi : x ≠ idx := by intro h; rw [h] at hx; omega
          have hyi : y ≠ idx := by intro h; rw [h] at hy; omega
          rw [pushEdge_other _ _ _ _ _ _ (fun h => hyi h.2) (fun h => hxi h.1)]
          exact hsame x y (by omega) (by omega))
        (by
          intro u v
          rw [pushEdge_flow, pushEdge_flow, ha u v]
          have e1 : (if v = last ∧ u = idx then c else 0) = (if u = idx ∧ v = last then c else 0) := by
            simp only [and_comm]
          have e2 : (if v = idx ∧ u = last then c else 0) = (if u = last ∧ v = idx then c else 0) := by
            simp only [and_comm]
          rw [e1, e2]
          omega)
        (by
          intro u v
          rw [pushEdge_flow, pushEdge_c_f]
          have := hr u v
          omega)
        (by
          intro u v
          rw [pushEdge_c_f]
          have hnuv := hn u v
          by_cases hA : u = last ∧ v = idx
          · rw [if_pos hA]
            obtain ⟨rfl, rfl⟩ := hA
            have : 0 ≤ (if u = v ∧ v = u then c else 0) := by split <;> omega
            omega
          · rw [if_neg hA]
            have : 0 ≤ (if u = idx ∧ v = last then c else 0) := by split <;> omega
            omega)
        (by
          intro u v huv
          rw [pushEdge_flow, hsup u v huv]
          have hp := hk.p_lt
          have hv := hk.v_lt
          have hA : ¬ (u = last ∧ v = idx) := by
            rintro ⟨rfl, rfl⟩; omega
          have hB : ¬ (u = idx ∧ v = last) := by
            rintro ⟨rfl, rfl⟩; omega
          rw [if_neg hA, if_neg hB]
          omega)
      refine ⟨r, h1, h2, h3, h4, h5, ?_⟩
      intro v
      rw [h6 v, pushEdge_netOut n cur last idx c v hk.p_lt hk.v_lt]
      omega

/-! ## One iteration of the outer loop -/

theorem INF_pos : 0 < INF := by unfold INF; omega

/-- With enough fuel one iteration of the outer loop either reports that the
search did not reach the sink, or augments by a positive amount and keeps the
loop invariant. -/
theorem augment_spec {graph back_graph : List (List edge)} {source sink : Nat}
    {cap : Nat → Nat → Int} (hadj : AdjWF graph back_graph)
    (hs : source < graph.length) (hst : source ≠ sink)
    (fuel : Nat) (hfuel : 2 * graph.length * INF + 2 ≤ fuel)
    (max_flow : Int) (flows : FlowMap)
    (hinv : FlowInv graph.length source sink cap max_flow flows) :
    (∃ r, bfs graph back_graph flows source sink fuel = some r ∧ r.idx ≠ sink ∧
        BfsPost graph back_graph flows source sink r ∧
        augment graph back_graph source sink fuel flows = some none) ∨
    (∃ r c flows', bfs graph back_graph flows source sink fuel = some r ∧ r.idx = sink ∧
        BfsPost graph back_graph flows source sink r ∧
        findCfp flows r.lasts fuel sink INF_CAP = some c ∧
        augment graph back_graph source sink fuel flows = some (some (c, flows')) ∧
        1 ≤ c ∧ FlowInv graph.length source sink cap (max_flow + c) flows') := by
  obtain ⟨r, hr⟩ := bfs_terminates flows source sink hadj fuel hfuel
  have hpost := bfs_post hadj hs hst fuel r hr
  by_cases hidx : r.idx = sink
  · right
    have hlast := hpost.found hidx
    have hminf : r.mins.getD sink INF < fuel := by
      cases hl : r.lasts.getD sink none with
      | none => exact absurd hl hlast
      | some p =>
        have := (hpost.links sink p hl).reached
        have h1 : 1 ≤ graph.length := by omega
        have : 2 * 1 * INF ≤ 2 * graph.length * INF :=
          Nat.mul_le_mul_right _ (Nat.mul_le_mul_left _ h1)
        omega
    obtain ⟨c, hc1, hc2, hc3, hc4⟩ := findCfp_spec hpost.links fuel sink INF_CAP hminf
    have hcpos : 0 < c := hc3 (by unfold INF_CAP; omega)
    obtain ⟨F', hF1, hF2, hF3, hF4, hF5, hF6⟩ :=
      @sendFlow_spec graph.length source flows r.mins r.lasts cap hpost.links c (le_of_lt hcpos)
        fuel sink flows hminf
        (Or.inr hlast) hc4 (fun _ _ _ _ => rfl) hinv.antisym hinv.resid hinv.nonneg hinv.support
    refine ⟨r, c, F', hr, hidx, hpost, hc1, ?_, by omega, ⟨hF2, hF3, hF4, hF5, ?_, ?_, ?_⟩⟩
    · unfold augment
      rw [hr]
      simp only [hidx, ne_eq, not_true_eq_false, if_false, hc1, hF1]
    · intro v hv hvs hvt
      rw [hF6 v, hinv.conserve v hv hvs hvt, if_neg hvs, if_neg hvt]
      omega
    · rw [hF6 source, hinv.value, if_pos rfl, if_neg hst]
      omega
    · rw [hF6 sink, hinv.sink_value, if_neg (fun h => hst h.symm), if_pos rfl]
      omega
  · left
    refine ⟨r, hr, hidx, hpost, ?_⟩
    unfold augment
    rw [hr]
    simp only [ne_eq, hidx, not_false_eq_true, if_true]

theorem augment_fuel_mono {graph back_graph : List (List edge)} {source sink : Nat}
    (fuel fuel' : Nat) (flows : FlowMap) (res : Option (Int × FlowMap)) (hle : fuel ≤ fuel')
    (h : augment graph back_graph source sink fuel flows = some res) :
    augment graph back_graph source sink fuel' flows = some res := by
  unfold augment at h ⊢
  cases hb : bfs graph back_graph flows source sink fuel with
  | none => rw [hb] at h; simp at h
  | some r =>
    rw [hb] at h
    have hb' : bfs graph back_graph flows source sink fuel' = some r :=
      bfsLoop_fuel_mono flows sink fuel fuel' _ _ _ _ r hle hb
    rw [hb']
    dsimp only at h ⊢
    by_cases hidx : r.idx ≠ sink
    · rw [if_pos hidx] at h ⊢
      exact h
    · rw [if_neg hidx] at h ⊢
      cases hc : findCfp flows r.lasts fuel sink INF_CAP with
      | none => rw [hc] at h; simp at h
      | some c =>
        rw [hc] at h
        rw [findCfp_fuel_mono flows r.lasts fuel fuel' sink INF_CAP c hle hc]
        dsimp only at h ⊢
        cases hsf : sendFlow r.lasts c fuel sink flows with
        | none => rw [hsf] at h; simp at h
        | some F' =>
          rw [hsf] at h
          rw [sendFlow_fuel_mono r.lasts c fuel fuel' sink flows F' hle hsf]
          exact h

theorem mainLoop_fuel_mono {graph back_graph : List (List edge)} {source sink : Nat}
    (inner inner' k k' : Nat) (max_flow : Int) (flows : FlowMap) (res : Int × FlowMap)
    (hi : inner ≤ inner') (hk : k ≤ k')
    (h : mainLoop graph back_graph source sink inner k max_flow flows = some res) :
    mainLoop graph back_graph source sink inner' k' max_flow flows = some res := by
  induction k generalizing k' max_flow flows with
  | zero => simp [mainLoop] at h
  | succ k ih =>
    cases k' with
    | zero => omega
    | succ k' =>
      unfold mainLoop at h ⊢
      cases ha : augment graph back_graph source sink inner flows with
      | none => rw [ha] at h; simp at h
      | some a =>
        rw [ha] at h
        rw [augment_fuel_mono inner inner' flows a hi ha]
        cases a with
        | none => exact h
        | some cf =>
          obtain ⟨c, F'⟩ := cf
          dsimp only at h ⊢
          exact ih k' _ _ (by omega) h

/-- Enlarging the fuel does not change what `MaxFlow` returns. -/
theorem MaxFlow_fuel_mono (graph : List (List edge)) (source sink : Nat) (flows : FlowMap)
    (fuel fuel' : Nat) (res : Int × FlowMap) (hle : fuel ≤ fuel')
    (h : MaxFlow graph source sink flows fuel = some res) :
    MaxFlow graph source sink flows fuel' = some res := by
  unfold MaxFlow at h ⊢
  exact mainLoop_fuel_mono fuel fuel' fuel fuel' _ _ res hle hle h

/-! ## The outer loop -/

theorem FlowInv.value_le {n s t : Nat} {cap : Nat → Nat → Int} {max_flow : Int}
    {flows : FlowMap} (h : FlowInv n s t cap max_flow flows) :
    max_flow ≤ ∑ w in Finset.range n, cap s w := by
  rw [← h.value]
  unfold netOut
  apply Finset.sum_le_sum
  intro w _
  have := h.resid s w
  have := h.nonneg s w
  omega

/-- The outer loop returns once its fuel exceeds the slack between the
capacity leaving the source and the current total; the state it returns is
reached by finitely many augmentations, satisfies the loop invariant, and the
search on it does not reach the sink. -/
theorem mainLoop_spec {graph back_graph : List (List edge)} {source sink : Nat}
    {cap : Nat → Nat → Int} (hadj : AdjWF graph back_graph)
    (hs : source < graph.length) (hst : source ≠ sink)
    (inner : Nat) (hinner : 2 * graph.length * INF + 2 ≤ inner)
    (k : Nat) (max_flow : Int) (flows : FlowMap)
    (hinv : FlowInv graph.length source sink cap max_flow flows)
    (hk : (∑ w in Finset.range graph.length, cap source w - max_flow).toNat < k) :
    ∃ mf' flows' j r,
      mainLoop graph back_graph source sink inner k max_flow flows = some (mf', flows') ∧
      afterAugmentations graph back_graph source sink inner j (max_flow, flows)
        = some (mf', flows') ∧
      augment graph back_graph source sink inner flows' = some none ∧
      FlowInv graph.length source sink cap mf' flows' ∧
      bfs graph back_graph flows' source sink inner = some r ∧ r.idx ≠ sink ∧
      BfsPost graph back_graph flows' source sink r := by
  induction k generalizing max_flow flows with
  | zero => omega
  | succ k ih =>
    rcases augment_spec hadj hs hst inner hinner max_flow flows hinv with
      ⟨r, hr, hidx, hpost, haug⟩ | ⟨r, c, F', hr, hidx, hpost, hcfp, haug, hc, hinv'⟩
    · refine ⟨max_flow, flows, 0, r, ?_, rfl, haug, hinv, hr, hidx, hpost⟩
      unfold mainLoop
      rw [haug]
    · have hle := hinv'.value_le
      obtain ⟨mf', F'', j, r', h1, h2, h3, h4, h5, h6, h7⟩ := ih (max_flow + c) F' hinv'
        (by omega)
      refine ⟨mf', F'', j + 1, r', ?_, ?_, h3, h4, h5, h6, h7⟩
      · unfold mainLoop
        rw [haug]
        exact h1
      · unfold afterAugmentations
        rw [haug]
        exact h2

theorem initRow_back_only (P : Nat → edge → Prop) (frm : Nat) (row : List edge)
    (st : List (List edge) × FlowMap)
    (hst : ∀ v, ∀ x ∈ st.1.getD v [], P v x)
    (hrow : ∀ e ∈ row, P e.to_ ⟨frm, 0⟩) :
    ∀ v, ∀ x ∈ (row.foldl (initEdge frm) st).1.getD v [], P v x := by
  induction row generalizing st with
  | nil => exact hst
  | cons e rest ih =>
    rw [List.foldl_cons]
    apply ih
    · intro v x hx
      rw [initEdge_fst] at hx
      by_cases hv : e.to_ = v
      · subst hv
        by_cases hl : e.to_ < st.1.length
        · rw [getD_set_eq _ _ _ _ hl] at hx
          rcases List.mem_append.mp hx with hx | hx
          · exact hst _ x hx
          · simp only [List.mem_singleton] at hx
            rw [hx]
            exact hrow e (List.mem_cons_self _ _)
        · rw [List.set_eq_of_length_le (not_lt.mp hl)] at hx
          exact hst _ x hx
      · rw [getD_set_ne _ _ _ _ _ hv] at hx
        exact hst v x hx
    · exact fun e' he' => hrow e' (List.mem_cons_of_mem _ he')

theorem initRows_back_only (graph : List (List edge)) (P : Nat → edge → Prop) (L : List Nat)
    (st : List (List edge) × FlowMap)
    (hst : ∀ v, ∀ x ∈ st.1.getD v [], P v x)
    (hL : ∀ u ∈ L, ∀ e ∈ graph.getD u [], P e.to_ ⟨u, 0⟩) :
    ∀ v, ∀ x ∈ (L.foldl (fun st frm => (graph.getD frm []).foldl (initEdge frm) st) st).1.getD v [],
      P v x := by
  induction L generalizing st with
  | nil => exact hst
  | cons u rest ih =>
    rw [List.foldl_cons]
    apply ih
    · exact initRow_back_only P u _ st hst (hL u (List.mem_cons_self _ _))
    · exact fun u' hu' => hL u' (List.mem_cons_of_mem _ hu')

/-- Every entry of `back_graph[v]` is the reverse of an edge of the graph into `v`. -/
theorem initFlow_back_only (graph : List (List edge)) (flows : FlowMap) (v : Nat) (x : edge)
    (hx : x ∈ (initFlow graph flows).1.getD v []) :
    x.to_ < graph.length ∧ ∃ e ∈ graph.getD x.to_ [], e.to_ = v := by
  unfold initFlow initFlowWith at hx
  refine initRows_back_only graph
    (fun v x => x.to_ < graph.length ∧ ∃ e ∈ graph.getD x.to_ [], e.to_ = v)
    _ _ ?_ ?_ v x hx
  · intro v x hx
    rw [getD_replicate_self] at hx
    simp at hx
  · intro u hu e he
    exact ⟨List.mem_range.mp hu, e, he, rfl⟩

theorem initFlow_adjWF (graph : List (List edge)) (flows : FlowMap) (hwf : GraphWF graph) :
    AdjWF graph (initFlow graph flows).1 := by
  refine ⟨initFlow_back_length graph flows, ?_⟩
  intro u e he
  rcases List.mem_append.mp he with he | he
  · by_cases hu : u < graph.length
    · exact hwf _ (getD_mem _ _ _ hu) e he
    · rw [getD_of_le _ _ _ (not_lt.mp hu)] at he
      simp at he
  · exact (initFlow_back_only graph flows u e he).1

theorem lastCap_nonneg (graph : List (List edge)) (hnn : NonNegCaps graph) (u v : Nat) :
    0 ≤ lastCap graph u v := by
  unfold lastCap
  cases h : (edgesTo graph u v).getLast? with
  | none => exact le_refl _
  | some e =>
    have hmem : e ∈ edgesTo graph u v := List.mem_of_getLast?_eq_some h
    unfold edgesTo at hmem
    have hmem' := (List.mem_filter.mp hmem).1
    by_cases hu : u < graph.length
    · exact hnn _ (getD_mem _ _ _ hu) e hmem'
    · rw [getD_of_le _ _ _ (not_lt.mp hu)] at hmem'
      simp at hmem'

theorem lastCap_eq_zero_of_no_edge (graph : List (List edge)) (u v : Nat)
    (h : ∀ e ∈ graph.getD u [], e.to_ ≠ v) : lastCap graph u v = 0 := by
  unfold lastCap
  have : edgesTo graph u v = [] := by
    unfold edgesTo
    rw [List.filter_eq_nil_iff]
    intro e he
    simpa using h e he
  rw [this]
  rfl

/-- The initialised flow map satisfies the loop invariant with total `0`. -/
theorem initFlow_inv (graph : List (List edge)) (s t : Nat) (hnn : NonNegCaps graph) :
    FlowInv graph.length s t (lastCap graph) 0 (initFlow graph emptyFlows).2 := by
  have h0 : ∀ v, netOut graph.length (initFlow graph emptyFlows).2 v = 0 := by
    intro v
    unfold netOut
    apply Finset.sum_eq_zero
    intro w _
    rw [initFlow_eq]
  refine ⟨?_, ?_, ?_, ?_, fun v _ _ _ => h0 v, h0 s, by rw [h0 t]; rfl⟩
  · intro u v; rw [initFlow_eq, initFlow_eq]; rfl
  · intro u v; rw [initFlow_eq]; simp
  · intro u v; rw [initFlow_eq]; exact lastCap_nonneg graph hnn u v
  · intro u v _; rw [initFlow_eq]

/-! ## Flows and cuts -/

theorem sum_inside_zero (n : Nat) (g : Nat → Nat → Int) (S : Nat → Bool)
    (anti : ∀ u v, g u v = -g v u) :
    ∑ u in Finset.range n, ∑ v in Finset.range n,
      (if S u = true ∧ S v = true then g u v else 0) = 0 := by
  have h : ∑ u in Finset.range n, ∑ v in Finset.range n,
        (if S u = true ∧ S v = true then g u v else 0)
      = -∑ u in Finset.range n, ∑ v in Finset.range n,
        (if S u = true ∧ S v = true then g u v else 0) := by
    conv_lhs => rw [Finset.sum_comm]
    rw [← Finset.sum_neg_distrib]
    apply Finset.sum_congr rfl
    intro u _
    rw [← Finset.sum_neg_distrib]
    apply Finset.sum_congr rfl
    intro v _
    by_cases h1 : S u = true ∧ S v = true
    · rw [if_pos h1, if_pos ⟨h1.2, h1.1⟩, anti v u]
    · rw [if_neg h1, if_neg (fun h => h1 ⟨h.2, h.1⟩)]
      rfl
  omega

/-- What leaves the source equals what crosses any cut, for an antisymmetric
conserved pair function. -/
theorem cut_sum (n s t : Nat) (g : Nat → Nat → Int) (S : Nat → Bool)
    (hs : s < n) (hS : S s = true) (hT : S t = false)
    (anti : ∀ u v, g u v = -g v u)
    (cons : ∀ v, v < n → v ≠ s → v ≠ t → ∑ w in Finset.range n, g v w = 0) :
    ∑ w in Finset.range n, g s w =
      ∑ u in Finset.range n, ∑ v in Finset.range n,
        if S u = true ∧ S v = false then g u v else 0 := by
  have step1 : ∑ u in Finset.range n, (if S u = true then ∑ w in Finset.range n, g u w else 0)
      = ∑ w in Finset.range n, g s w := by
    rw [Finset.sum_eq_single s]
    · rw [if_pos hS]
    · intro u hu hus
      by_cases hSu : S u = true
      · rw [if_pos hSu]
        apply cons u (Finset.mem_range.mp hu) hus
        intro hut
        rw [hut, hT] at hSu
        exact Bool.noConfusion hSu
      · rw [if_neg hSu]
    · intro h
      exact absurd (Finset.mem_range.mpr hs) h
  have step2 : ∑ u in Finset.range n, (if S u = true then ∑ w in Finset.range n, g u w else 0)
      = ∑ u in Finset.range n, ∑ v in Finset.range n,
          ((if S u = true ∧ S v = true then g u v else 0)
            + (if S u = true ∧ S v = false then g u v else 0)) := by
    apply Finset.sum_congr rfl
    intro u _
    by_cases hSu : S u = true
    · rw [if_pos hSu]
      apply Finset.sum_congr rfl
      intro v _
      cases hv : S v <;> simp [hSu]
    · rw [if_neg hSu]
      symm
      apply Finset.sum_eq_zero
      intro v _
      simp [hSu]
  rw [← step1, step2]
  simp only [Finset.sum_add_distrib]
  rw [sum_inside_zero n g S anti, zero_add]

/-- Weak duality: no feasible flow is worth more than a separating cut. -/
theorem weak_duality (cap : Nat → Nat → Int) (n s t : Nat) (f : Nat → Nat → Int)
    (S : Nat → Bool) (hs : s < n) (hS : S s = true) (hT : S t = false)
    (hf : IsFeasibleFlowOf cap n s t f) :
    flowValueOf n s f ≤ cutCapacityOf cap n S := by
  have hsum := cut_sum n s t (fun u v => f u v - f v u) S hs hS hT
    (fun u v => by ring)
    (fun v hv hvs hvt => by
      rw [Finset.sum_sub_distrib, hf.2 v hv hvs hvt]
      ring)
  rw [Finset.sum_sub_distrib] at hsum
  unfold flowValueOf cutCapacityOf
  rw [hsum]
  apply Finset.sum_le_sum
  intro u _
  apply Finset.sum_le_sum
  intro v _
  split
  · have h1 := (hf.1 u v).2
    have h2 := (hf.1 v u).1
    beta_reduce
    omega
  · exact le_refl _

/-- Every level a search assigns is below the number of vertices. -/
theorem BfsPost.level_lt {graph back_graph : List (List edge)} {flows : FlowMap}
    {source sink : Nat} {r : SearchResult}
    (h : BfsPost graph back_graph flows source sink r) (v : Nat)
    (hv : r.mins.getD v INF < INF) : r.mins.getD v INF < graph.length := by
  have hsub : Finset.range (r.mins.getD v INF + 1)
      ⊆ (Finset.range graph.length).image (fun w => r.mins.getD w INF) := by
    intro k hk
    obtain ⟨w, hw1, hw2⟩ := h.levels v hv k (by have := Finset.mem_range.mp hk; omega)
    exact Finset.mem_image.mpr ⟨w, Finset.mem_range.mpr hw1, hw2⟩
  have h1 := Finset.card_le_card hsub
  have h2 : ((Finset.range graph.length).image (fun w => r.mins.getD w INF)).card
      ≤ (Finset.range graph.length).card := Finset.card_image_le
  simp only [Finset.card_range] at h1 h2
  omega

/-- When a search fails to reach the sink, the vertices it reached form a cut
that the flow saturates. -/
theorem closed_cut {graph back_graph : List (List edge)} {flows : FlowMap}
    {s t : Nat} {max_flow : Int} {r : SearchResult}
    (hN : graph.length < INF)
    (hback : ∀ u, u < graph.length → ∀ e ∈ graph.getD u [],
      ∃ x ∈ back_graph.getD e.to_ [], x.to_ = u)
    (hinv : FlowInv graph.length s t (lastCap graph) max_flow flows)
    (hpost : BfsPost graph back_graph flows s t r) (hidx : r.idx ≠ t) :
    reachedSet r s = true ∧ reachedSet r t = false ∧
    ∀ u v, reachedSet r u = true → reachedSet r v = false →
      (flows u v).flow = lastCap graph u v := by
  unfold reachedSet
  refine ⟨?_, ?_, ?_⟩
  · rw [hpost.src_min]
    simp [INF]
  · simp only [decide_eq_false_iff_not]
    intro h
    exact (hpost.closed hidx t h).1 rfl
  · intro u v hu hv
    simp only [decide_eq_true_eq] at hu
    simp only [decide_eq_false_iff_not] at hv
    have hlt := hpost.level_lt u hu
    have hexp := (hpost.closed hidx u hu).2
    have hcf0 : ∀ e ∈ graph.getD u [] ++ back_graph.getD u [], e.to_ = v →
        (flows u v).c_f = 0 := by
      intro e he hev
      rcases hexp e he with h1 | h1
      · rw [hev] at h1; omega
      · rw [hev] at h1
        have := hinv.nonneg u v
        omega
    have hres := hinv.resid u v
    by_cases hA : ∃ e ∈ graph.getD u [], e.to_ = v
    · obtain ⟨e, he, hev⟩ := hA
      have := hcf0 e (List.mem_append_left _ he) hev
      omega
    · have hcap : lastCap graph u v = 0 :=
        lastCap_eq_zero_of_no_edge graph u v (fun e he hev => hA ⟨e, he, hev⟩)
      by_cases hB : ∃ e ∈ graph.getD v [], e.to_ = u
      · obtain ⟨e, he, hev⟩ := hB
        have hvlt : v < graph.length := by
          by_contra hge
          rw [getD_of_le _ _ _ (not_lt.mp hge)] at he
          simp at he
        obtain ⟨x, hx, hxv⟩ := hback v hvlt e he
        rw [hev] at hx
        have := hcf0 x (List.mem_append_right _ hx) hxv
        omega
      · have hcap' : lastCap graph v u = 0 :=
          lastCap_eq_zero_of_no_edge graph v u (fun e he hev => hB ⟨e, he, hev⟩)
        have h1 := hinv.resid v u
        have h2 := hinv.nonneg v u
        have h3 := hinv.nonneg u v
        have h4 := hinv.antisym u v
        omega

/-- The total of a saturated cut is the capacity of the cut. -/
theorem FlowInv.value_eq_cut {n s t : Nat} {cap : Nat → Nat → Int} {max_flow : Int}
    {flows : FlowMap} (h : FlowInv n s t cap max_flow flows) (S : Nat → Bool)
    (hs : s < n) (hS : S s = true) (hT : S t = false)
    (hsat : ∀ u v, S u = true → S v = false → (flows u v).flow = cap u v) :
    max_flow = cutCapacityOf cap n S := by
  rw [← h.value]
  unfold netOut cutCapacityOf
  rw [cut_sum n s t (fun u v => (flows u v).flow) S hs hS hT h.antisym h.conserve]
  apply Finset.sum_congr rfl
  intro u _
  apply Finset.sum_congr rfl
  intro v _
  by_cases hc : S u = true ∧ S v = false
  · rw [if_pos hc, if_pos hc]
    exact hsat u v hc.1 hc.2
  · rw [if_neg hc, if_neg hc]

/-- The flow map of the loop invariant stands for a feasible flow whose value
is the running total. -/
theorem FlowInv.feasible {n s t : Nat} {cap : Nat → Nat → Int} {max_flow : Int}
    {flows : FlowMap} (h : FlowInv n s t cap max_flow flows) (hcap : ∀ u v, 0 ≤ cap u v) :
    IsFeasibleFlowOf cap n s t (pairFlow flows) ∧ flowValueOf n s (pairFlow flows) = max_flow := by
  have hdiff : ∀ v, ∑ w in Finset.range n, pairFlow flows v w
      - ∑ w in Finset.range n, pairFlow flows w v = netOut n flows v := by
    intro v
    rw [← Finset.sum_sub_distrib]
    unfold netOut
    apply Finset.sum_congr rfl
    intro w _
    unfold pairFlow
    have := h.antisym v w
    omega
  refine ⟨⟨?_, ?_⟩, ?_⟩
  · intro u v
    unfold pairFlow
    have h1 := h.resid u v
    have h2 := h.nonneg u v
    have h3 := hcap u v
    omega
  · intro v hv hvs hvt
    have := hdiff v
    rw [h.conserve v hv hvs hvt] at this
    omega
  · unfold flowValueOf
    rw [hdiff s, h.value]

theorem capOf_eq_lastCap (graph : List (List edge)) (hnp : NoParallel graph) (u v : Nat) :
    capOf graph u v = lastCap graph u v := by
  unfold capOf lastCap
  have hlen : (edgesTo graph u v).length ≤ 1 := by
    by_cases hu : u < graph.length
    · have hnd : ((graph.getD u []).map edge.to_).Nodup := hnp _ (getD_mem _ _ _ hu)
      have hsub : ((edgesTo graph u v).map edge.to_).Nodup := by
        unfold edgesTo
        exact hnd.sublist (List.Sublist.map _ (List.filter_sublist _))
      have hrep : (edgesTo graph u v).map edge.to_
          = List.replicate (edgesTo graph u v).length v := by
        rw [List.eq_replicate_iff]
        refine ⟨by simp, ?_⟩
        intro b hb
        obtain ⟨e, he, rfl⟩ := List.mem_map.mp hb
        unfold edgesTo at he
        simpa using (List.mem_filter.mp he).2
      rw [hrep] at hsub
      exact List.nodup_replicate.mp hsub
    · unfold edgesTo
      rw [getD_of_le _ _ _ (not_lt.mp hu)]
      simp
  match hl : edgesTo graph u v with
  | [] => rfl
  | [e] => simp
  | _ :: _ :: _ => rw [hl] at hlen; simp at hlen

/-! ## The solver as a whole -/

/-- `MaxFlow` of 820.cpp / 753.cpp on an empty flow map: with enough fuel it
returns; the state it returns is reached by finitely many augmentations from
the initialised map, satisfies the loop invariant, and the last search on it
ends without reaching the sink. -/
theorem MaxFlow_spec (graph : List (List edge)) (s t : Nat)
    (hwf : GraphWF graph) (hnn : NonNegCaps graph) (hs : s < graph.length) (hst : s ≠ t) :
    ∃ mf flows' j r,
      (∀ fuel, fuelBound graph s ≤ fuel →
        MaxFlow graph s t emptyFlows fuel = some (mf, flows')) ∧
      afterAugmentations graph (initFlow graph emptyFlows).1 s t (fuelBound graph s) j
        (0, (initFlow graph emptyFlows).2) = some (mf, flows') ∧
      augment graph (initFlow graph emptyFlows).1 s t (fuelBound graph s) flows' = some none ∧
      FlowInv graph.length s t (lastCap graph) mf flows' ∧
      bfs graph (initFlow graph emptyFlows).1 flows' s t (fuelBound graph s) = some r ∧
      r.idx ≠ t ∧ BfsPost graph (initFlow graph emptyFlows).1 flows' s t r := by
  have hadj := initFlow_adjWF graph emptyFlows hwf
  have hinv := initFlow_inv graph s t hnn
  obtain ⟨mf, F', j, r, h1, h2, h3, h4, h5, h6, h7⟩ :=
    mainLoop_spec hadj hs hst (fuelBound graph s) (by unfold fuelBound; omega)
      (fuelBound graph s) 0 _ hinv (by unfold fuelBound; simp only [sub_zero]; omega)
  refine ⟨mf, F', j, r, ?_, h2, h3, h4, h5, h6, h7⟩
  intro fuel hfuel
  exact MaxFlow_fuel_mono graph s t emptyFlows (fuelBound graph s) fuel _ hfuel h1

/-- The total returned by `MaxFlow` is the capacity of a separating cut and the
value of a feasible flow, both taken with the last-listed capacity of each
ordered pair. -/
theorem MaxFlow_optimal (graph : List (List edge)) (s t : Nat)
    (hwf : GraphWF graph) (hnn : NonNegCaps graph) (hN : graph.length < INF)
    (hs : s < graph.length) (hst : s ≠ t) :
    ∃ mf flows',
      (∀ fuel, fuelBound graph s ≤ fuel →
        MaxFlow graph s t emptyFlows fuel = some (mf, flows')) ∧
      IsMinCutOf (lastCap graph) graph.length s t mf ∧
      IsMaxFlowOf (lastCap graph) graph.length s t mf := by
  obtain ⟨mf, F', j, r, h1, _, _, h4, _, h6, h7⟩ := MaxFlow_spec graph s t hwf hnn hs hst
  have hback : ∀ u, u < graph.length → ∀ e ∈ graph.getD u [],
      ∃ x ∈ (initFlow graph emptyFlows).1.getD e.to_ [], x.to_ = u :=
    fun u hu e he => ⟨⟨u, 0⟩, initFlow_back_mem graph emptyFlows hwf u hu e he, rfl⟩
  obtain ⟨c1, c2, c3⟩ := closed_cut hN hback h4 h7 h6
  have hcut := h4.value_eq_cut (reachedSet r) hs c1 c2 c3
  obtain ⟨f1, f2⟩ := h4.feasible (lastCap_nonneg graph hnn)
  refine ⟨mf, F', h1, ⟨⟨reachedSet r, c1, c2, hcut.symm⟩, ?_⟩, ⟨⟨pairFlow F', f1, f2⟩, ?_⟩⟩
  · intro S hS hT
    rw [← f2]
    exact weak_duality _ _ s t _ S hs hS hT f1
  · intro f hf
    rw [hcut]
    exact weak_duality _ _ s t f _ hs c1 c2 hf

/-! ## Properties kept by every single update -/

theorem pushEdge_antisym (flows : FlowMap) (last idx : Nat) (c : Int)
    (h : ∀ u v, (flows u v).flow = -(flows v u).flow) :
    ∀ u v, ((pushEdge flows last idx c) u v).flow = -((pushEdge flows last idx c) v u).flow := by
  intro u v
  rw [pushEdge_flow, pushEdge_flow, h u v]
  have e1 : (if v = last ∧ u = idx then c else 0) = (if u = idx ∧ v = last then c else 0) := by
    simp only [and_comm]
  have e2 : (if v = idx ∧ u = last then c else 0) = (if u = last ∧ v = idx then c else 0) := by
    simp only [and_comm]
  rw [e1, e2]
  omega

/-- Every state the outer loop reaches from a state with the loop invariant
has the invariant, and its total has grown by at least one per augmentation. -/
theorem afterAugmentations_inv {graph back_graph : List (List edge)} {source sink : Nat}
    {cap : Nat → Nat → Int} (hadj : AdjWF graph back_graph)
    (hs : source < graph.length) (hst : source ≠ sink)
    (inner j : Nat) (max_flow : Int) (flows : FlowMap) (st : Int × FlowMap)
    (hinv : FlowInv graph.length source sink cap max_flow flows)
    (h : afterAugmentations graph back_graph source sink inner j (max_flow, flows) = some st) :
    FlowInv graph.length source sink cap st.1 st.2 ∧ max_flow + j ≤ st.1 := by
  induction j generalizing max_flow flows with
  | zero =>
    simp only [afterAugmentations, Option.some.injEq] at h
    rw [← h]
    exact ⟨hinv, by simp⟩
  | succ j ih =>
    unfold afterAugmentations at h
    cases ha : augment graph back_graph source sink inner flows with
    | none => rw [ha] at h; simp at h
    | some a =>
      cases a with
      | none => rw [ha] at h; simp at h
      | some cf =>
        obtain ⟨c, F'⟩ := cf
        rw [ha] at h
        dsimp only at h
        have hbig := augment_fuel_mono inner (max inner (2 * graph.length * INF + 2)) flows _
          (le_max_left _ _) ha
        rcases augment_spec hadj hs hst (max inner (2 * graph.length * INF + 2))
            (le_max_right _ _) max_flow flows hinv with
          ⟨_, _, _, _, haug⟩ | ⟨_, c', F'', _, _, _, _, haug, hc, hinv'⟩
        · rw [haug] at hbig; simp at hbig
        · rw [haug] at hbig
          simp only [Option.some.injEq, Prod.mk.injEq] at hbig
          obtain ⟨rfl, rfl⟩ := hbig
          obtain ⟨i1, i2⟩ := ih (max_flow + c') F'' hinv' h
          refine ⟨i1, ?_⟩
          push_cast
          omega

/-! ## Unreachable sink -/

theorem links_reach {graph : List (List edge)} {n source : Nat} {flows : FlowMap}
    {mins : List Nat} {lasts : List (Option Nat)}
    (hlinks : ∀ v p, lasts.getD v none = some p → LinkOK n source flows mins lasts p v)
    (hedge : ∀ p v, 0 < (flows p v).c_f → ∃ e ∈ graph.getD p [], e.to_ = v)
    (k v : Nat) (hk : mins.getD v INF ≤ k)
    (hv : v = source ∨ lasts.getD v none ≠ none) : Reach graph source v := by
  induction k generalizing v with
  | zero =>
    cases hl : lasts.getD v none with
    | none =>
      rcases hv with h | h
      · rw [h]; exact Reach.refl _
      · exact absurd hl h
    | some p =>
      have := (hlinks v p hl).level
      omega
  | succ k ih =>
    cases hl : lasts.getD v none with
    | none =>
      rcases hv with h | h
      · rw [h]; exact Reach.refl _
      · exact absurd hl h
    | some p =>
      have hk' := hlinks v p hl
      have := hk'.level
      exact Reach.step (ih p (by omega) hk'.parent) (hedge p v hk'.pos)

theorem initFlow_pos_edge (graph : List (List edge)) (p v : Nat)
    (h : 0 < ((initFlow graph emptyFlows).2 p v).c_f) : ∃ e ∈ graph.getD p [], e.to_ = v := by
  by_contra hno
  have : lastCap graph p v = 0 :=
    lastCap_eq_zero_of_no_edge graph p v (fun e he hev => hno ⟨e, he, hev⟩)
  rw [initFlow_eq] at h
  simp only at h
  omega

theorem MaxFlowValue_of_MaxFlow (graph : List (List edge)) (s t fuel : Nat)
    (mf : Int) (flows : FlowMap) (h : MaxFlow graph s t emptyFlows fuel = some (mf, flows)) :
    MaxFlowValue graph s t fuel = some mf := by
  unfold MaxFlowValue
  rw [h]
  rfl

theorem first_search_fails (graph : List (List edge)) (s t : Nat)
    (hwf : GraphWF graph) (hs : s < graph.length) (hst : s ≠ t)
    (hun : ¬ Reach graph s t) (fuel : Nat) (hfuel : 2 * graph.length * INF + 2 ≤ fuel) :
    augment graph (initFlow graph emptyFlows).1 s t fuel (initFlow graph emptyFlows).2
      = some none := by
  have hadj := initFlow_adjWF graph emptyFlows hwf
  obtain ⟨r, hr⟩ := bfs_terminates (initFlow graph emptyFlows).2 s t hadj fuel hfuel
  have hpost := bfs_post hadj hs hst fuel r hr
  have hidx : r.idx ≠ t := by
    intro hEq
    apply hun
    exact links_reach hpost.links (initFlow_pos_edge graph) _ t (le_refl _)
      (Or.inr (hpost.found hEq))
  unfold augment
  rw [hr]
  simp only [ne_eq, hidx, not_false_eq_true, if_true]

theorem MaxFlowValue_fuel_mono (graph : List (List edge)) (s t fuel fuel' : Nat) (mf : Int)
    (hle : fuel ≤ fuel') (h : MaxFlowValue graph s t fuel = some mf) :
    MaxFlowValue graph s t fuel' = some mf := by
  unfold MaxFlowValue at h ⊢
  cases hm : MaxFlow graph s t emptyFlows fuel with
  | none => rw [hm] at h; simp at h
  | some res =>
    rw [hm] at h
    rw [MaxFlow_fuel_mono graph s t emptyFlows fuel fuel' res hle hm]
    exact h

/-- Whatever fuel lets `MaxFlow` return, the total is the same. -/
theorem MaxFlowValue_unique (graph : List (List edge)) (s t fuel fuel' : Nat) (a b : Int)
    (ha : MaxFlowValue graph s t fuel = some a) (hb : MaxFlowValue graph s t fuel' = some b) :
    a = b := by
  rcases Nat.le_total fuel fuel' with h | h
  · have := MaxFlowValue_fuel_mono graph s t fuel fuel' a h ha
    rw [this] at hb
    exact Option.some.inj hb
  · have := MaxFlowValue_fuel_mono graph s t fuel' fuel b h hb
    rw [this] at ha
    exact (Option.some.inj ha).symm

theorem MaxFlowValue563_fuel_mono (graph : List (List edge)) (s t fuel fuel' : Nat) (mf : Int)
    (hle : fuel ≤ fuel') (h : MaxFlowValue563 graph s t fuel = some mf) :
    MaxFlowValue563 graph s t fuel' = some mf := by
  unfold MaxFlowValue563 at h ⊢
  cases hm : MaxFlow563 graph s t emptyFlows fuel with
  | none => rw [hm] at h; simp at h
  | some res =>
    rw [hm] at h
    have : MaxFlow563 graph s t emptyFlows fuel' = some res := by
      unfold MaxFlow563 at hm ⊢
      exact mainLoop_fuel_mono fuel fuel' fuel fuel' _ _ res hle hle hm
    rw [this]
    exact h

theorem MaxFlowValue563_unique (graph : List (List edge)) (s t fuel fuel' : Nat) (a b : Int)
    (ha : MaxFlowValue563 graph s t fuel = some a)
    (hb : MaxFlowValue563 graph s t fuel' = some b) : a = b := by
  rcases Nat.le_total fuel fuel' with h | h
  · have := MaxFlowValue563_fuel_mono graph s t fuel fuel' a h ha
    rw [this] at hb
    exact Option.some.inj hb
  · have := MaxFlowValue563_fuel_mono graph s t fuel' fuel b h hb
    rw [this] at ha
    exact (Option.some.inj ha).symm

theorem isMinCutValue_of_lastCap (graph : List (List edge)) (hnp : NoParallel graph)
    (s t : Nat) (c : Int) (h : IsMinCutOf (lastCap graph) graph.length s t c) :
    IsMinCutValue graph s t c := by
  have : capOf graph = lastCap graph := by
    funext u v
    exact capOf_eq_lastCap graph hnp u v
  unfold IsMinCutValue
  rw [this]
  exact h

theorem isMaxFlowValue_of_lastCap (graph : List (List edge)) (hnp : NoParallel graph)
    (s t : Nat) (c : Int) (h : IsMaxFlowOf (lastCap graph) graph.length s t c) :
    IsMaxFlowValue graph s t c := by
  have : capOf graph = lastCap graph := by
    funext u v
    exact capOf_eq_lastCap graph hnp u v
  unfold IsMaxFlowValue IsFeasibleFlow flowValue
  rw [this]
  exact h

/-! ## The claims -/

theorem lastCap_of_last (graph : List (List edge)) (u : Nat) (pre post : List edge) (e : edge)
    (h : graph.getD u [] = pre ++ e :: post) (hpost : ∀ e' ∈ post, e'.to_ ≠ e.to_) :
    lastCap graph u e.to_ = e.capacity := by
  unfold lastCap edgesTo
  rw [h]
  have hf : List.filter (fun e' => decide (e'.to_ = e.to_)) post = [] := by
    rw [List.filter_eq_nil_iff]
    intro e' he'
    simpa using hpost e' he'
  have : List.filter (fun e' => decide (e'.to_ = e.to_)) (pre ++ e :: post)
      = List.filter (fun e' => decide (e'.to_ = e.to_)) pre ++ [e] := by
    rw [List.filter_append, List.filter_cons_of_pos (by simp), hf]
  rw [this, List.getLast?_concat]

/-- C7: for every well-formed graph and distinct source and sink such that the
sink is not reachable from the source along directed edges of the graph,
`MaxFlow` returns total `0` together with the flow map exactly as initialised:
the first search already fails, so no augmentation is performed. -/
theorem maxFlow_unreachable_sink (graph : List (List edge)) (s t : Nat)
    (hwf : GraphWF graph) (hs : s < graph.length) (hst : s ≠ t)
    (hun : ¬ Reach graph s t) :
    ∀ fuel, 2 * graph.length * INF + 2 ≤ fuel →
      MaxFlow graph s t emptyFlows fuel = some (0, (initFlow graph emptyFlows).2) ∧
      MaxFlowValue graph s t fuel = some 0 ∧
      augment graph (initFlow graph emptyFlows).1 s t fuel (initFlow graph emptyFlows).2
        = some none ∧
      afterAugmentations graph (initFlow graph emptyFlows).1 s t fuel 1
        (0, (initFlow graph emptyFlows).2) = none := by
  intro fuel hfuel
  have haug := first_search_fails graph s t hwf hs hst hun fuel hfuel
  have hmf : MaxFlow graph s t emptyFlows fuel = some (0, (initFlow graph emptyFlows).2) := by
    unfold MaxFlow
    cases fuel with
    | zero => omega
    | succ k =>
      dsimp only
      unfold mainLoop
      rw [haug]
  refine ⟨hmf, MaxFlowValue_of_MaxFlow graph s t fuel 0 _ hmf, haug, ?_⟩
  unfold afterAugmentations
  rw [haug]

/-- Witness for C7: edges `0 → 1` and `2 → 1`, source `0`, sink `2`. -/
theorem maxFlow_unreachable_sink_witness :
    MaxFlow unreachableSinkGraph 0 2 emptyFlows (2 * unreachableSinkGraph.length * INF + 2)
      = some (0, (initFlow unreachableSinkGraph emptyFlows).2) ∧
    MaxFlowValue unreachableSinkGraph 0 2 (2 * unreachableSinkGraph.length * INF + 2) = some 0 ∧
    augment unreachableSinkGraph (initFlow unreachableSinkGraph emptyFlows).1 0 2
      (2 * unreachableSinkGraph.length * INF + 2)
      (initFlow unreachableSinkGraph emptyFlows).2 = some none ∧
    afterAugmentations unreachableSinkGraph (initFlow unreachableSinkGraph emptyFlows).1 0 2
      (2 * unreachableSinkGraph.length * INF + 2) 1
      (0, (initFlow unreachableSinkGraph emptyFlows).2) = none :=
  maxFlow_unreachable_sink unreachableSinkGraph 0 2 (by decide) (by decide) (by decide)
    (by
      have key : ∀ v, Reach unreachableSinkGraph 0 v → v = 0 ∨ v = 1 := by
        intro v h
        induction h with
        | refl => exact Or.inl rfl
        | step _ he ih =>
          obtain ⟨e, he, rfl⟩ := he
          rcases ih with rfl | rfl
          · right
            simp [unreachableSinkGraph] at he
            rw [he]
          · simp [unreachableSinkGraph] at he
      intro h
      rcases key 2 h with h2 | h2 <;> omega)
    (2 * unreachableSinkGraph.length * INF + 2) (le_refl _)

/-- C8 (as stated, refuted): on the self-test graph the solver of 563.cpp
returns `3`, and no fuel makes it return `4`. -/
theorem selfTest_not_four :
    MaxFlowValue563 selfTestGraph 0 6 100 = some 3 ∧
    ¬ ∃ fuel, MaxFlowValue563 selfTestGraph 0 6 fuel = some 4 := by
  have h : MaxFlowValue563 selfTestGraph 0 6 100 = some 3 := by decide
  refine ⟨h, ?_⟩
  rintro ⟨fuel, hf⟩
  have := MaxFlowValue563_unique selfTestGraph 0 6 fuel 100 4 3 hf h
  omega

/-- C8 (amended): on the 7-vertex self-test graph, with the edges pushed in the
stated order, `MaxFlow(x, y)` of 563.cpp returns `3` for every fuel from `100`
on, and `3` is the maximum value of a feasible flow from `x` to `y`. -/
theorem selfTest_returns_three :
    (∀ k, MaxFlowValue563 selfTestGraph 0 6 (100 + k) = some 3) ∧
    IsMaxFlowValue selfTestGraph 0 6 3 := by
  constructor
  · intro k
    exact MaxFlowValue563_fuel_mono selfTestGraph 0 6 100 (100 + k) 3 (by omega) (by decide)
  · obtain ⟨mf, F', h1, _, h3⟩ := MaxFlow_optimal selfTestGraph 0 6 (by decide) (by decide)
      (by decide) (by decide) (by decide)
    have h820 : MaxFlowValue selfTestGraph 0 6 100 = some 3 := by decide
    have hmf := MaxFlowValue_of_MaxFlow selfTestGraph 0 6 _ mf F'
      (h1 (fuelBound selfTestGraph 0) (le_refl _))
    have : mf = 3 := MaxFlowValue_unique selfTestGraph 0 6 _ 100 mf 3 hmf h820
    rw [this] at h3
    exact isMaxFlowValue_of_lastCap selfTestGraph (by decide) 0 6 3 h3

/-- C10 (as stated, refuted): with parallel edges `0 → 1` of capacities `2` and
`3`, the initialisation leaves `flows[0][1].c_f = 3`, not the sum `5`. -/
theorem initFlow_parallel_not_sum :
    ((initFlow parallelGraph23 emptyFlows).2 0 1).c_f = 3 ∧
    capOf parallelGraph23 0 1 = 5 ∧
    ((initFlow parallelGraph23 emptyFlows).2 0 1).c_f ≠ capOf parallelGraph23 0 1 := by
  decide

/-- C10 (amended): when the graph contains several parallel edges from `u` to
`v`, the initialisation leaves in the single keyed entry `flows[u][v].c_f` the
capacity of the last-listed of those edges (each assignment overwrites the
previous one). -/
theorem initFlow_keeps_last_parallel (graph : List (List edge)) (flows : FlowMap) (u : Nat)
    (pre post : List edge) (e : edge)
    (h : graph.getD u [] = pre ++ e :: post) (hpost : ∀ e' ∈ post, e'.to_ ≠ e.to_) :
    ((initFlow graph flows).2 u e.to_).c_f = e.capacity := by
  have hu : u < graph.length := by
    by_contra hge
    rw [getD_of_le _ _ _ (not_lt.mp hge)] at h
    simp at h
  have hlast := lastCap_of_last graph u pre post e h hpost
  unfold lastCap at hlast
  unfold initFlow initFlowWith
  rw [initRows_c_f, if_pos (List.mem_range.mpr hu)]
  cases hl : (edgesTo graph u e.to_).getLast? with
  | none =>
    exfalso
    have hmem : e ∈ edgesTo graph u e.to_ := by
      unfold edgesTo
      rw [h]
      simp
    rw [List.getLast?_eq_none_iff] at hl
    rw [hl] at hmem
    simp at hmem
  | some e' =>
    rw [hl] at hlast
    exact hlast

/-- Witness for C10 (amended): capacities `2` then `3` on the pair `(0, 1)`. -/
theorem initFlow_keeps_last_parallel_witness :
    ((initFlow parallelGraph23 emptyFlows).2 0 (⟨1, 3⟩ : edge).to_).c_f
      = (⟨1, 3⟩ : edge).capacity :=
  initFlow_keeps_last_parallel parallelGraph23 emptyFlows 0 [⟨1, 2⟩] [] ⟨1, 3⟩ rfl
    (by intro e' he'; simp at he')

/-! ## The path graph -/

theorem pathGraph_length (caps : List Int) : (pathGraph caps).length = caps.length + 1 := by
  simp [pathGraph]

theorem pathGraph_getD (caps : List Int) (u : Nat) :
    (pathGraph caps).getD u [] =
      if u < caps.length then [(⟨u + 1, caps.getD u 0⟩ : edge)] else [] := by
  unfold pathGraph
  by_cases h : u < caps.length
  · rw [if_pos h, List.getD_append _ _ _ _ (by simpa using h)]
    simp [List.getD_eq_getElem?_getD, h]
  · rw [if_neg h]
    rcases Nat.lt_or_ge caps.length u with h1 | h1
    · apply getD_of_le
      simp
      omega
    · have : u = caps.length := by omega
      subst this
      simp [List.getD_eq_getElem?_getD, List.getElem?_append_right]

theorem pathGraph_lastCap (caps : List Int) (u v : Nat) :
    lastCap (pathGraph caps) u v =
      if u < caps.length ∧ v = u + 1 then caps.getD u 0 else 0 := by
  unfold lastCap edgesTo
  rw [pathGraph_getD]
  by_cases h : u < caps.length
  · by_cases hv : v = u + 1
    · subst hv
      simp [h]
    · have hv' : ¬ u + 1 = v := fun h' => hv h'.symm
      simp [h, hv, hv']
  · simp [h]

theorem pathGraph_wf (caps : List Int) : GraphWF (pathGraph caps) := by
  intro row hrow e he
  rw [pathGraph_length]
  unfold pathGraph at hrow
  rcases List.mem_append.mp hrow with h | h
  · obtain ⟨i, hi, rfl⟩ := List.mem_map.mp h
    simp only [List.mem_singleton] at he
    rw [he]
    have := List.mem_range.mp hi
    show i + 1 < caps.length + 1
    omega
  · simp only [List.mem_singleton] at h
    rw [h] at he
    simp at he

theorem pathGraph_nonneg (caps : List Int) (hnn : ∀ c ∈ caps, 0 ≤ c) :
    NonNegCaps (pathGraph caps) := by
  intro row hrow e he
  unfold pathGraph at hrow
  rcases List.mem_append.mp hrow with h | h
  · obtain ⟨i, hi, rfl⟩ := List.mem_map.mp h
    simp only [List.mem_singleton] at he
    rw [he]
    exact hnn _ (getD_mem _ _ _ (List.mem_range.mp hi))
  · simp only [List.mem_singleton] at h
    rw [h] at he
    simp at he

theorem pathGraph_cut (caps : List Int) (i : Nat) (hi : i < caps.length) :
    cutCapacityOf (lastCap (pathGraph caps)) (caps.length + 1) (fun v => decide (v ≤ i))
      = caps.getD i 0 := by
  unfold cutCapacityOf
  rw [Finset.sum_eq_single_of_mem i (Finset.mem_range.mpr (by omega))]
  · rw [Finset.sum_eq_single_of_mem (i + 1) (Finset.mem_range.mpr (by omega))]
    · rw [pathGraph_lastCap]
      simp [hi]
    · intro v _ hv
      rw [pathGraph_lastCap]
      have : ¬ (i < caps.length ∧ v = i + 1) := fun h => hv h.2
      simp [this]
  · intro u _ hu
    apply Finset.sum_eq_zero
    intro v _
    rw [pathGraph_lastCap]
    by_cases hc : u < caps.length ∧ v = u + 1
    · have : ¬ (decide (u ≤ i) = true ∧ decide (v ≤ i) = false) := by
        simp only [decide_eq_true_eq, decide_eq_false_iff_not]
        omega
      rw [if_neg this]
    · simp [hc]

theorem pathGraph_flow (caps : List Int) (m : Int) (hm0 : 0 ≤ m)
    (hn : 0 < caps.length) (hmin : ∀ j, j < caps.length → m ≤ caps.getD j 0) :
    IsFeasibleFlowOf (lastCap (pathGraph caps)) (caps.length + 1) 0 caps.length
        (fun u v => if u < caps.length ∧ v = u + 1 then m else 0) ∧
      flowValueOf (caps.length + 1) 0
        (fun u v => if u < caps.length ∧ v = u + 1 then m else 0) = m := by
  refine ⟨⟨?_, ?_⟩, ?_⟩
  · intro u v
    rw [pathGraph_lastCap]
    by_cases hc : u < caps.length ∧ v = u + 1
    · simp only [hc, and_self, if_true]
      exact ⟨hm0, hmin u hc.1⟩
    · simp [hc]
  · intro v hv hv0 hvn
    rw [Finset.sum_eq_single_of_mem (v - 1) (Finset.mem_range.mpr (by omega)),
      Finset.sum_eq_single_of_mem (v + 1) (Finset.mem_range.mpr (by omega))]
    · have h1 : v - 1 < caps.length ∧ v = v - 1 + 1 := by omega
      have h2 : v < caps.length ∧ v + 1 = v + 1 := by omega
      beta_reduce
      rw [if_pos h1, if_pos h2]
    · intro w _ hw
      have : ¬ (v < caps.length ∧ w = v + 1) := fun h => hw h.2
      beta_reduce
      rw [if_neg this]
    · intro w _ hw
      have : ¬ (w < caps.length ∧ v = w + 1) := by omega
      beta_reduce
      rw [if_neg this]
  · unfold flowValueOf
    rw [Finset.sum_eq_single_of_mem 1 (Finset.mem_range.mpr (by omega))]
    · have h0 : ∑ w in Finset.range (caps.length + 1),
          (if w < caps.length ∧ 0 = w + 1 then m else 0) = 0 := by
        apply Finset.sum_eq_zero
        intro w _
        have : ¬ (w < caps.length ∧ 0 = w + 1) := by omega
        rw [if_neg this]
      rw [h0]
      have h1 : 0 < caps.length ∧ 1 = 0 + 1 := by omega
      beta_reduce
      rw [if_pos h1]
      omega
    · intro w _ hw
      have : ¬ (0 < caps.length ∧ w = 0 + 1) := by omega
      beta_reduce
      rw [if_neg this]

/-- The path graph over the integers: for every non-empty list of non-negative
capacities `c_1..c_n` with `n + 1 < 999999999`, on the path graph
`0 → 1 → ... → n` whose `i`-th edge has capacity `c_i`, the solver over the
integers returns the minimum of the capacities. -/
theorem pathGraph_maxFlow (caps : List Int) (hne : caps ≠ []) (hnn : ∀ c ∈ caps, 0 ≤ c)
    (hN : caps.length + 1 < INF) :
    ∃ m, m ∈ caps ∧ (∀ c ∈ caps, m ≤ c) ∧
      ∀ fuel, fuelBound (pathGraph caps) 0 ≤ fuel →
        MaxFlowValue (pathGraph caps) 0 caps.length fuel = some m := by
  have hn : 0 < caps.length := List.length_pos.mpr hne
  obtain ⟨i, hi, hmin⟩ := Finset.exists_min_image (Finset.range caps.length)
    (fun j => caps.getD j 0) ⟨0, Finset.mem_range.mpr hn⟩
  have hi' := Finset.mem_range.mp hi
  have hmin' : ∀ j, j < caps.length → caps.getD i 0 ≤ caps.getD j 0 :=
    fun j hj => hmin j (Finset.mem_range.mpr hj)
  have hmem : caps.getD i 0 ∈ caps := getD_mem _ _ _ hi'
  have hlen := pathGraph_length caps
  obtain ⟨mf, F', h1, hcut, hflow⟩ := MaxFlow_optimal (pathGraph caps) 0 caps.length
    (pathGraph_wf caps) (pathGraph_nonneg caps hnn) (by rw [hlen]; exact hN)
    (by rw [hlen]; omega) (by omega)
  rw [hlen] at hcut hflow
  have hle : mf ≤ caps.getD i 0 := by
    have := hcut.2 (fun v => decide (v ≤ i)) (by simp) (by simp; omega)
    rw [pathGraph_cut caps i hi'] at this
    exact this
  have hge : caps.getD i 0 ≤ mf := by
    obtain ⟨f1, f2⟩ := pathGraph_flow caps (caps.getD i 0) (hnn _ hmem) hn hmin'
    have := hflow.2 _ f1
    rw [f2] at this
    exact this
  have hEq : mf = caps.getD i 0 := le_antisymm hle hge
  refine ⟨caps.getD i 0, hmem, ?_, ?_⟩
  · intro c hc
    obtain ⟨j, hj, rfl⟩ := List.getElem_of_mem hc
    have := hmin' j hj
    rw [List.getD_eq_getElem _ _ hj] at this
    exact this
  · intro fuel hfuel
    rw [← hEq]
    exact MaxFlowValue_of_MaxFlow _ _ _ fuel mf F' (h1 fuel hfuel)

/-! ## The copy of 563.cpp -/

/-- C11 (code at the failing input): on the graph with edges `0 → 1` of
capacity `5` and `1 → 0` of capacity `3` the solver of 563.cpp returns `0`
while the solver of 820.cpp / 753.cpp returns `5`, the maximum flow value; no
choice of fuels makes the two agree. -/
theorem solver563_differs_on_antiparallel :
    NonNegCaps antiparallelGraph ∧
    MaxFlowValue563 antiparallelGraph 0 1 100 = some 0 ∧
    MaxFlowValue antiparallelGraph 0 1 100 = some 5 ∧
    IsMaxFlowValue antiparallelGraph 0 1 5 ∧
    ¬ ∃ fuel fuel' mf, MaxFlowValue563 antiparallelGraph 0 1 fuel = some mf ∧
        MaxFlowValue antiparallelGraph 0 1 fuel' = some mf := by
  have h563 : MaxFlowValue563 antiparallelGraph 0 1 100 = some 0 := by decide
  have h820 : MaxFlowValue antiparallelGraph 0 1 100 = some 5 := by decide
  refine ⟨by decide, h563, h820, ?_, ?_⟩
  · obtain ⟨mf, F', h1, _, h3⟩ := MaxFlow_optimal antiparallelGraph 0 1 (by decide) (by decide)
      (by decide) (by decide) (by decide)
    have hmf := MaxFlowValue_of_MaxFlow antiparallelGraph 0 1 _ mf F'
      (h1 (fuelBound antiparallelGraph 0) (le_refl _))
    have : mf = 5 := MaxFlowValue_unique antiparallelGraph 0 1 _ 100 mf 5 hmf h820
    rw [this] at h3
    exact isMaxFlowValue_of_lastCap antiparallelGraph (by decide) 0 1 5 h3
  · rintro ⟨fuel, fuel', mf, ha, hb⟩
    have e1 := MaxFlowValue563_unique antiparallelGraph 0 1 fuel 100 mf 0 ha h563
    have e2 := MaxFlowValue_unique antiparallelGraph 0 1 fuel' 100 mf 5 hb h820
    omega

/-- C16 (code at the failing input): the graph has one edge per ordered pair,
`0 → 1` of capacity `5` and `1 → 0` of capacity `3`; after the initialisation
loop of 563.cpp the entry of the edge `(0, 1, 5)` has `c_f = 0`, not `5`,
whereas the loop of 820.cpp / 753.cpp leaves `5`. -/
theorem initFlow563_resets_antiparallel :
    NoParallel antiparallelGraph ∧
    (⟨1, 5⟩ : edge) ∈ antiparallelGraph.getD 0 [] ∧
    (⟨0, 3⟩ : edge) ∈ antiparallelGraph.getD 1 [] ∧
    ((initFlow563 antiparallelGraph emptyFlows).2 0 1).c_f = 0 ∧
    ((initFlow563 antiparallelGraph emptyFlows).2 1 0).c_f = 3 ∧
    ((initFlow antiparallelGraph emptyFlows).2 0 1).c_f = 5 ∧
    ((initFlow antiparallelGraph emptyFlows).2 1 0).c_f = 3 := by
  decide

/-! ## Residual bookkeeping -/

theorem pushEdge_pair_sum (flows : FlowMap) (last idx : Nat) (c : Int) (u v : Nat) :
    ((pushEdge flows last idx c) u v).c_f + ((pushEdge flows last idx c) v u).c_f
      = (flows u v).c_f + (flows v u).c_f := by
  rw [pushEdge_c_f, pushEdge_c_f]
  have e1 : (if v = last ∧ u = idx then c else 0) = (if u = idx ∧ v = last then c else 0) := by
    simp only [and_comm]
  have e2 : (if v = idx ∧ u = last then c else 0) = (if u = last ∧ v = idx then c else 0) := by
    simp only [and_comm]
  rw [e1, e2]
  omega

theorem maxFlow_of_first_fail (graph : List (List edge)) (s t fuel : Nat) (hfuel : 0 < fuel)
    (haug : augment graph (initFlow graph emptyFlows).1 s t fuel (initFlow graph emptyFlows).2
      = some none) :
    MaxFlow graph s t emptyFlows fuel = some (0, (initFlow graph emptyFlows).2) := by
  unfold MaxFlow
  cases fuel with
  | zero => omega
  | succ k =>
    dsimp only
    unfold mainLoop
    rw [haug]

theorem lastCap_allZero (graph : List (List edge)) (hz : AllZeroCaps graph) (u v : Nat) :
    lastCap graph u v = 0 := by
  unfold lastCap
  cases h : (edgesTo graph u v).getLast? with
  | none => rfl
  | some e =>
    have hmem : e ∈ edgesTo graph u v := List.mem_of_getLast?_eq_some h
    unfold edgesTo at hmem
    have hmem' := (List.mem_filter.mp hmem).1
    by_cases hu : u < graph.length
    · exact hz _ (getD_mem _ _ _ hu) e hmem'
    · rw [getD_of_le _ _ _ (not_lt.mp hu)] at hmem'
      simp at hmem'

/-- C13: for every well-formed graph in which every edge has capacity `0`, and
distinct source and sink, `MaxFlow` returns `0`: the first search already
fails and the flow map stays as initialised. -/
theorem maxFlow_allZero (graph : List (List edge)) (s t : Nat)
    (hwf : GraphWF graph) (hz : AllZeroCaps graph) (hs : s < graph.length) (hst : s ≠ t) :
    ∀ fuel, 2 * graph.length * INF + 2 ≤ fuel →
      MaxFlowValue graph s t fuel = some 0 ∧
      MaxFlow graph s t emptyFlows fuel = some (0, (initFlow graph emptyFlows).2) := by
  intro fuel hfuel
  have hadj := initFlow_adjWF graph emptyFlows hwf
  obtain ⟨r, hr⟩ := bfs_terminates (initFlow graph emptyFlows).2 s t hadj fuel hfuel
  have hpost := bfs_post hadj hs hst fuel r hr
  have hidx : r.idx ≠ t := by
    intro hEq
    have hlast := hpost.found hEq
    cases hl : r.lasts.getD t none with
    | none => exact hlast hl
    | some p =>
      have hpos := (hpost.links t p hl).pos
      rw [initFlow_eq] at hpos
      simp only at hpos
      rw [lastCap_allZero graph hz] at hpos
      omega
  have haug : augment graph (initFlow graph emptyFlows).1 s t fuel (initFlow graph emptyFlows).2
      = some none := by
    unfold augment
    rw [hr]
    simp only [ne_eq, hidx, not_false_eq_true, if_true]
  have hmf := maxFlow_of_first_fail graph s t fuel (by omega) haug
  exact ⟨MaxFlowValue_of_MaxFlow graph s t fuel 0 _ hmf, hmf⟩

/-- Instance of C13: two zero-capacity edges `0 → 1 → 2`. -/
theorem maxFlow_allZero_witness :
    MaxFlowValue zeroGraph 0 2 (2 * zeroGraph.length * INF + 2) = some 0 ∧
    MaxFlow zeroGraph 0 2 emptyFlows (2 * zeroGraph.length * INF + 2)
      = some (0, (initFlow zeroGraph emptyFlows).2) :=
  maxFlow_allZero zeroGraph 0 2 (by decide) (by decide) (by decide) (by decide)
    (2 * zeroGraph.length * INF + 2) (le_refl _)

theorem OnChain.last_eq {lasts : List (Option Nat)} {idx p v : Nat}
    (h : OnChain lasts idx p v) : lasts.getD v none = some p := by
  induction h with
  | here h => exact h
  | there _ _ ih => exact ih

theorem findCfp_min (flows : FlowMap) (lasts : List (Option Nat)) (fuel idx : Nat) (c0 c : Int)
    (h : findCfp flows lasts fuel idx c0 = some c) :
    c ≤ c0 ∧ (∀ p v, OnChain lasts idx p v → c ≤ (flows p v).c_f) ∧
      (c = c0 ∨ ∃ p v, OnChain lasts idx p v ∧ c = (flows p v).c_f) := by
  induction fuel generalizing idx c0 with
  | zero => simp [findCfp] at h
  | succ fuel ih =>
    unfold findCfp at h
    cases hl : lasts.getD idx none with
    | none =>
      rw [hl] at h
      simp only [Option.some.injEq] at h
      refine ⟨le_of_eq h.symm, ?_, Or.inl h.symm⟩
      intro p v hch
      cases hch with
      | here h' => rw [hl] at h'; simp at h'
      | there h' _ => rw [hl] at h'; simp at h'
    | some last =>
      rw [hl] at h
      obtain ⟨h1, h2, h3⟩ := ih last _ h
      refine ⟨h1.trans (min_le_left _ _), ?_, ?_⟩
      · intro p v hch
        cases hch with
        | here h' =>
          rw [hl] at h'
          simp only [Option.some.injEq] at h'
          subst h'
          exact h1.trans (min_le_right _ _)
        | there h' hrest =>
          rw [hl] at h'
          simp only [Option.some.injEq] at h'
          subst h'
          exact h2 p v hrest
      · rcases h3 with h3 | ⟨p, v, hch, hEq⟩
        · rcases min_choice c0 (flows last idx).c_f with hm | hm
          · left; rw [h3, hm]
          · right
            exact ⟨last, idx, OnChain.here hl, by rw [h3, hm]⟩
        · right
          exact ⟨p, v, OnChain.there hl hch, hEq⟩

theorem augment_some_inv {graph back_graph : List (List edge)} {source sink fuel : Nat}
    {flows flows' : FlowMap} {c : Int}
    (h : augment graph back_graph source sink fuel flows = some (some (c, flows'))) :
    ∃ r, bfs graph back_graph flows source sink fuel = some r ∧ r.idx = sink ∧
      findCfp flows r.lasts fuel sink INF_CAP = some c ∧
      sendFlow r.lasts c fuel sink flows = some flows' := by
  unfold augment at h
  cases hb : bfs graph back_graph flows source sink fuel with
  | none => rw [hb] at h; simp at h
  | some r =>
    rw [hb] at h
    dsimp only at h
    by_cases hidx : r.idx ≠ sink
    · rw [if_pos hidx] at h; simp at h
    · rw [if_neg hidx] at h
      cases hc : findCfp flows r.lasts fuel sink INF_CAP with
      | none => rw [hc] at h; simp at h
      | some c' =>
        rw [hc] at h
        dsimp only at h
        cases hsf : sendFlow r.lasts c' fuel sink flows with
        | none => rw [hsf] at h; simp at h
        | some F' =>
          rw [hsf] at h
          simp only [Option.some.injEq, Prod.mk.injEq] at h
          obtain ⟨rfl, rfl⟩ := h
          exact ⟨r, rfl, not_not.mp hidx, hc, hsf⟩

/-- C19 (the code at the failing input): on the graph with the single edge
`0 → 1` of capacity `2000000000` the first search finds the path `0 → 1`, whose
only residual capacity is `2000000000`, but the amount pushed is `999999999`,
the value `c_f_p` starts with, and not the minimum of `c_f` along the path;
nothing overflows, and the total returned in the end is still `2000000000`. -/
theorem bottleneck_not_min_bigEdge :
    NonNegCaps bigEdgeGraph ∧
    (bfs bigEdgeGraph (initFlow bigEdgeGraph emptyFlows).1 (initFlow bigEdgeGraph emptyFlows).2
      0 1 100).map (fun r => (r.idx, r.lasts)) = some (1, [none, some 0]) ∧
    ((initFlow bigEdgeGraph emptyFlows).2 0 1).c_f = 2000000000 ∧
    (augment bigEdgeGraph (initFlow bigEdgeGraph emptyFlows).1 0 1 100
      (initFlow bigEdgeGraph emptyFlows).2).map (Option.map Prod.fst)
        = some (some 999999999) ∧
    (augment32 bigEdgeGraph (initFlow bigEdgeGraph emptyFlows).1 0 1 100
      (initFlow bigEdgeGraph emptyFlows).2).map (Option.map Prod.fst)
        = some (some 999999999) ∧
    MaxFlowValue bigEdgeGraph 0 1 100 = some 2000000000 ∧
    MaxFlowValue32 bigEdgeGraph 0 1 100 = some 2000000000 := by
  decide

/-! ## Residual paths -/

/-- Under the loop invariant a pair with positive residual capacity is joined
by an entry of `_graph[u]` or of `back_graph[u]`. -/
theorem residual_adjacent {graph : List (List edge)} {s t : Nat} {max_flow : Int}
    {flows : FlowMap} (hwf : GraphWF graph)
    (hinv : FlowInv graph.length s t (lastCap graph) max_flow flows) (u v : Nat)
    (h : 0 < (flows u v).c_f) :
    ∃ e ∈ graph.getD u [] ++ (initFlow graph emptyFlows).1.getD u [], e.to_ = v := by
  by_cases hA : ∃ e ∈ graph.getD u [], e.to_ = v
  · obtain ⟨e, he, hev⟩ := hA
    exact ⟨e, List.mem_append_left _ he, hev⟩
  · have hcap : lastCap graph u v = 0 :=
      lastCap_eq_zero_of_no_edge graph u v (fun e he hev => hA ⟨e, he, hev⟩)
    have h1 := hinv.resid u v
    have h2 := hinv.antisym u v
    have h3 := hinv.resid v u
    have h4 := hinv.nonneg v u
    have hpos : 0 < lastCap graph v u := by omega
    have hB : ∃ e ∈ graph.getD v [], e.to_ = u := by
      by_contra hno
      have := lastCap_eq_zero_of_no_edge graph v u (fun e he hev => hno ⟨e, he, hev⟩)
      omega
    obtain ⟨e, he, hev⟩ := hB
    have hvlt : v < graph.length := by
      by_contra hge
      rw [getD_of_le _ _ _ (not_lt.mp hge)] at he
      simp at he
    have hmem := initFlow_back_mem graph emptyFlows hwf v hvlt e he
    rw [hev] at hmem
    exact ⟨⟨v, 0⟩, List.mem_append_right _ hmem, rfl⟩

/-- After a failed search every residual path that starts in the reached set
stays in the reached set. -/
theorem residual_path_stays {graph : List (List edge)} {s t : Nat} {max_flow : Int}
    {flows : FlowMap} {r : SearchResult} (hwf : GraphWF graph) (hN : graph.length < INF)
    (hinv : FlowInv graph.length s t (lastCap graph) max_flow flows)
    (hpost : BfsPost graph (initFlow graph emptyFlows).1 flows s t r) (hidx : r.idx ≠ t)
    (path : List Nat) (hpath : IsResidualPath flows path) (u : Nat)
    (hu : path.head? = some u) (hreach : reachedSet r u = true) :
    ∀ v ∈ path, reachedSet r v = true := by
  induction path generalizing u with
  | nil => intro v hv; simp at hv
  | cons a rest ih =>
    simp only [List.head?_cons, Option.some.injEq] at hu
    subst hu
    intro v hv
    rcases List.mem_cons.mp hv with rfl | hv'
    · exact hreach
    · cases rest with
      | nil => simp at hv'
      | cons b rest' =>
        unfold IsResidualPath at hpath
        rw [List.chain'_cons] at hpath
        have hb : reachedSet r b = true := by
          unfold reachedSet at hreach ⊢
          simp only [decide_eq_true_eq] at hreach ⊢
          obtain ⟨e, he, heb⟩ := residual_adjacent hwf hinv a b hpath.1
          have hlt := hpost.level_lt a hreach
          rcases (hpost.closed hidx a hreach).2 e he with h1 | h1
          · rw [heb] at h1; omega
          · rw [heb] at h1
            have := hpath.1
            omega
        exact ih hpath.2 b rfl hb v hv'

/-- No augmenting path is left, over the integers: for every well-formed graph
with non-negative capacities, fewer than `999999999` vertices and distinct
source and sink, in the flow map `MaxFlow`
returns no sequence of vertices leads from source to sink through pairs of
positive residual capacity; and whenever a search of a reachable state fails
to reach the sink, that state has no such sequence. -/
theorem no_augmenting_path_left (graph : List (List edge)) (s t : Nat)
    (hwf : GraphWF graph) (hnn : NonNegCaps graph) (hN : graph.length < INF)
    (hs : s < graph.length) (hst : s ≠ t) :
    (∃ mf flows,
      (∀ fuel, fuelBound graph s ≤ fuel →
        MaxFlow graph s t emptyFlows fuel = some (mf, flows)) ∧
      ¬ ∃ path : List Nat, path.head? = some s ∧ path.getLast? = some t ∧
          IsResidualPath flows path) ∧
    (∀ fuel j mf flows,
      afterAugmentations graph (initFlow graph emptyFlows).1 s t fuel j
        (0, (initFlow graph emptyFlows).2) = some (mf, flows) →
      ∀ fuel' r, bfs graph (initFlow graph emptyFlows).1 flows s t fuel' = some r →
        r.idx ≠ t →
        ¬ ∃ path : List Nat, path.head? = some s ∧ path.getLast? = some t ∧
            IsResidualPath flows path) := by
  have hadj := initFlow_adjWF graph emptyFlows hwf
  have key : ∀ (mf : Int) (flows : FlowMap) (r : SearchResult),
      FlowInv graph.length s t (lastCap graph) mf flows →
      BfsPost graph (initFlow graph emptyFlows).1 flows s t r → r.idx ≠ t →
      ¬ ∃ path : List Nat, path.head? = some s ∧ path.getLast? = some t ∧
          IsResidualPath flows path := by
    intro mf flows r hinv hpost hidx
    rintro ⟨path, hhead, hlast, hpath⟩
    have hsrc : reachedSet r s = true := by
      unfold reachedSet
      rw [hpost.src_min]
      simp [INF]
    have hall := residual_path_stays hwf hN hinv hpost hidx path hpath s hhead hsrc
    have ht := hall t (List.mem_of_getLast?_eq_some hlast)
    unfold reachedSet at ht
    simp only [decide_eq_true_eq] at ht
    exact (hpost.closed hidx t ht).1 rfl
  constructor
  · obtain ⟨mf, F', _, r, h1, _, _, h4, _, h6, h7⟩ := MaxFlow_spec graph s t hwf hnn hs hst
    exact ⟨mf, F', h1, key mf F' r h4 h7 h6⟩
  · intro fuel j mf flows h fuel' r hr hidx
    have hinv := (afterAugmentations_inv hadj hs hst fuel j 0 _ (mf, flows)
      (initFlow_inv graph s t hnn) h).1
    exact key mf flows r hinv (bfs_post hadj hs hst fuel' r hr) hidx

/-! ## Shortest augmenting paths -/

theorem BfsInv.next {graph back_graph : List (List edge)} {flows : FlowMap}
    {source sink c : Nat} {mins : List Nat} {lasts : List (Option Nat)}
    {p : Nat × Option Nat} {s : List (Nat × Option Nat)}
    (hadj : AdjWF graph back_graph) (hps : p.1 ≠ sink)
    (h : BfsInv graph back_graph flows source sink c none mins lasts (p :: s)) :
    BfsInv graph back_graph flows source sink (mins.getD p.1 INF) none
      (tryEdges flows p.1 (mins.getD p.1 INF) (back_graph.getD p.1 [])
        (tryEdges flows p.1 (mins.getD p.1 INF) (graph.getD p.1 []) (mins, s))).1
      (lasts.set p.1 p.2)
      (tryEdges flows p.1 (mins.getD p.1 INF) (back_graph.getD p.1 [])
        (tryEdges flows p.1 (mins.getD p.1 INF) (graph.getD p.1 []) (mins, s))).2 := by
  obtain ⟨hinv, hplt, hpI, hpar, _⟩ := h.pop
  have hg : ∀ e ∈ graph.getD p.1 [], e.to_ < graph.length :=
    fun e he => hadj.2 p.1 e (List.mem_append_left _ he)
  have hb : ∀ e ∈ back_graph.getD p.1 [], e.to_ < graph.length :=
    fun e he => hadj.2 p.1 e (List.mem_append_right _ he)
  obtain ⟨a1, a2, _, a4⟩ := tryEdges_inv (graph.getD p.1 []) (mins, s) hg hplt rfl hpI hpar hinv
  have hc' : (tryEdges flows p.1 (mins.getD p.1 INF) (graph.getD p.1 []) (mins, s)).1.getD p.1 INF
      = mins.getD p.1 INF := a2 p.1 hpI
  obtain ⟨b1, b2, b3, b4⟩ := tryEdges_inv (back_graph.getD p.1 []) _ hb hplt hc' hpI hpar a1
  have hfin : ∀ w, mins.getD w INF < INF →
      (tryEdges flows p.1 (mins.getD p.1 INF) (back_graph.getD p.1 [])
        (tryEdges flows p.1 (mins.getD p.1 INF) (graph.getD p.1 []) (mins, s))).1.getD w INF
        = mins.getD w INF := by
    intro w hw
    rw [b2 w (by rw [a2 w hw]; exact hw), a2 w hw]
  refine ⟨b1.len_mins, b1.len_lasts, b1.src_lt, b1.src_min, b1.src_last, b1.links,
    b1.queue, b1.level, b1.q_ge, b1.q_sorted, ?_, b1.levels⟩
  intro u hu
  rcases b1.expanded u hu with hx | hcur | hexp
  · exact Or.inl hx
  · right; right
    simp only [Option.some.injEq] at hcur
    subst hcur
    refine ⟨hps, fun e he => ?_⟩
    rw [hfin p.1 hpI]
    rcases List.mem_append.mp he with he | he
    · rcases a4 e he with h1 | h1
      · exact Or.inl ((b3 _).trans h1)
      · exact Or.inr h1
    · exact b4 e he
  · exact Or.inr (Or.inr hexp)

theorem MaxFlow563_fuel_mono (graph : List (List edge)) (source sink : Nat) (flows : FlowMap)
    (fuel fuel' : Nat) (res : Int × FlowMap) (hle : fuel ≤ fuel')
    (h : MaxFlow563 graph source sink flows fuel = some res) :
    MaxFlow563 graph source sink flows fuel' = some res := by
  unfold MaxFlow563 at h ⊢
  exact mainLoop_fuel_mono fuel fuel' fuel fuel' _ _ res hle hle h

/-- C15: on the 2x2 grid with a single bank at any one of the four cells, the
network built by `Crimewave::Solve` has `MaxFlow(SOURCE_IDX, SINK_IDX) = 1`,
`Solve` returns `"possible"`, and in the resulting flow exactly one cell's
in-vertex to out-vertex edge carries non-zero flow. -/
theorem scenarioC_single_bank (b : Int × Int)
    (hb : b ∈ [((1 : Int), (1 : Int)), (1, 2), (2, 1), (2, 2)]) :
    ∃ mf flows,
      (∀ k, MaxFlow563 (crimewaveGraph 2 2 [b]) SOURCE_IDX SINK_IDX emptyFlows (100 + k)
        = some (mf, flows)) ∧
      mf = 1 ∧ cellsUsed 2 2 flows = 1 ∧
      ∀ k, Solve 2 2 [b] (100 + k) = some "possible" := by
  have hall : ∀ b ∈ [((1 : Int), (1 : Int)), (1, 2), (2, 1), (2, 2)],
      (MaxFlow563 (crimewaveGraph 2 2 [b]) SOURCE_IDX SINK_IDX emptyFlows 100).map
        (fun r => (r.1, cellsUsed 2 2 r.2)) = some (1, 1) := by decide
  have h := hall b hb
  cases hm : MaxFlow563 (crimewaveGraph 2 2 [b]) SOURCE_IDX SINK_IDX emptyFlows 100 with
  | none => rw [hm] at h; simp at h
  | some r =>
    rw [hm] at h
    simp only [Option.map_some', Option.some.injEq, Prod.mk.injEq] at h
    have hmono : ∀ k, MaxFlow563 (crimewaveGraph 2 2 [b]) SOURCE_IDX SINK_IDX emptyFlows
        (100 + k) = some (r.1, r.2) :=
      fun k => MaxFlow563_fuel_mono _ _ _ _ 100 (100 + k) r (by omega) hm
    have hgrid : ∀ b ∈ [((1 : Int), (1 : Int)), (1, 2), (2, 1), (2, 2)],
        banksOnGrid 2 2 [b] = true := by decide
    refine ⟨r.1, r.2, hmono, h.1, h.2, ?_⟩
    intro k
    unfold Solve MaxFlowValue563
    rw [if_pos (hgrid b hb), hmono k, h.1]
    rfl

/-- Instance of C15: the bank at the cell `(1, 1)`. -/
theorem scenarioC_single_bank_witness :
    ∃ mf flows,
      (∀ k, MaxFlow563 (crimewaveGraph 2 2 [(1, 1)]) SOURCE_IDX SINK_IDX emptyFlows (100 + k)
        = some (mf, flows)) ∧
      mf = 1 ∧ cellsUsed 2 2 flows = 1 ∧
      ∀ k, Solve 2 2 [(1, 1)] (100 + k) = some "possible" :=
  scenarioC_single_bank (1, 1) (by decide)

/-! ## The returned total -/

/-- The "send flow through" loop changes the net flow only at the two ends of
the chain and touches no entry outside the vertex range. -/
theorem sendFlow_netOut {n source : Nat} {flows0 : FlowMap} {mins : List Nat}
    {lasts : List (Option Nat)}
    (hlinks : ∀ v p, lasts.getD v none = some p → LinkOK n source flows0 mins lasts p v)
    (c : Int) (fuel idx : Nat) (cur r : FlowMap)
    (hroot : idx = source ∨ lasts.getD idx none ≠ none)
    (h : sendFlow lasts c fuel idx cur = some r)
    (hsup : ∀ u v, n ≤ u ∨ n ≤ v → (cur u v).flow = 0) :
    (∀ u v, n ≤ u ∨ n ≤ v → (r u v).flow = 0) ∧
    ∀ v, netOut n r v =
      netOut n cur v + (if v = source then c else 0) - (if v = idx then c else 0) := by
  induction fuel generalizing idx cur with
  | zero => simp [sendFlow] at h
  | succ fuel ih =>
    unfold sendFlow at h
    cases hl : lasts.getD idx none with
    | none =>
      rw [hl] at h
      simp only [Option.some.injEq] at h
      subst h
      have hidx : idx = source := by
        rcases hroot with h' | h'
        · exact h'
        · exact absurd hl h'
      refine ⟨hsup, ?_⟩
      intro v
      rw [hidx]
      omega
    | some last =>
      rw [hl] at h
      have hk := hlinks idx last hl
      have hsup' : ∀ u v, n ≤ u ∨ n ≤ v → ((pushEdge cur last idx c) u v).flow = 0 := by
        intro u v huv
        rw [pushEdge_flow, hsup u v huv]
        have hp := hk.p_lt
        have hv := hk.v_lt
        have hA : ¬ (u = last ∧ v = idx) := by
          rintro ⟨rfl, rfl⟩; omega
        have hB : ¬ (u = idx ∧ v = last) := by
          rintro ⟨rfl, rfl⟩; omega
        rw [if_neg hA, if_neg hB]
        omega
      obtain ⟨i1, i2⟩ := ih last (pushEdge cur last idx c) hk.parent h hsup'
      refine ⟨i1, ?_⟩
      intro v
      rw [i2 v, pushEdge_netOut n cur last idx c v hk.p_lt hk.v_lt]
      omega

theorem mainLoop_value {graph back_graph : List (List edge)} {source sink : Nat}
    (hadj : AdjWF graph back_graph) (hs : source < graph.length) (hst : source ≠ sink)
    (inner k : Nat) (max_flow : Int) (flows : FlowMap) (res : Int × FlowMap)
    (hsup : ∀ u v, graph.length ≤ u ∨ graph.length ≤ v → (flows u v).flow = 0)
    (hval : netOut graph.length flows source = max_flow)
    (hsink : netOut graph.length flows sink = -max_flow)
    (h : mainLoop graph back_graph source sink inner k max_flow flows = some res) :
    (∀ u v, graph.length ≤ u ∨ graph.length ≤ v → (res.2 u v).flow = 0) ∧
    netOut graph.length res.2 source = res.1 ∧
    netOut graph.length res.2 sink = -res.1 := by
  induction k generalizing max_flow flows with
  | zero => simp [mainLoop] at h
  | succ k ih =>
    unfold mainLoop at h
    cases ha : augment graph back_graph source sink inner flows with
    | none => rw [ha] at h; simp at h
    | some a =>
      cases a with
      | none =>
        rw [ha] at h
        simp only [Option.some.injEq] at h
        rw [← h]
        exact ⟨hsup, hval, hsink⟩
      | some cf =>
        obtain ⟨c, F'⟩ := cf
        rw [ha] at h
        dsimp only at h
        obtain ⟨r, hr, hidx, _, hsf⟩ := augment_some_inv ha
        have hpost := bfs_post hadj hs hst inner r hr
        obtain ⟨s1, s2⟩ := sendFlow_netOut hpost.links c inner sink flows F'
          (Or.inr (hpost.found hidx)) hsf hsup
        apply ih (max_flow + c) F' s1 _ _ h
        · rw [s2 source, hval, if_pos rfl, if_neg hst]
          omega
        · rw [s2 sink, hsink, if_neg (fun h' => hst h'.symm), if_pos rfl]
          omega

/-! ## The network of 820.cpp -/

theorem length_addEdgeAt (g : List (List edge)) (i : Nat) (e : edge) :
    (addEdgeAt g i e).length = g.length := by
  unfold addEdgeAt
  rw [List.length_set]

theorem getD_addEdgeAt (g : List (List edge)) (i j : Nat) (e : edge) (hi : i < g.length) :
    (addEdgeAt g i e).getD j [] = if j = i then g.getD i [] ++ [e] else g.getD j [] := by
  unfold addEdgeAt
  by_cases h : j = i
  · subst h
    rw [if_pos rfl, getD_set_eq _ _ _ _ hi]
  · rw [if_neg h, getD_set_ne _ _ _ _ _ (fun h' => h h'.symm)]

theorem getD_append_empty_row (g : List (List edge)) (j : Nat) :
    (g ++ [[]]).getD j [] = g.getD j [] := by
  by_cases h : j < g.length
  · rw [List.getD_append _ _ _ _ h]
  · rw [getD_of_le g j [] (not_lt.mp h)]
    rcases Nat.lt_or_ge g.length j with h1 | h1
    · apply getD_of_le
      simp
      omega
    · have : j = g.length := by omega
      subst this
      simp [List.getD_eq_getElem?_getD, List.getElem?_append_right]

/-- What one pass of the connection loop leaves: two more rows, the row of
`d` holds the edges to `a` and `b`, the row of `c` the edge to `d`, and the
rows of `a` and `b` gain an edge to `c`. -/
theorem addConnection_rows (g : List (List edge)) (a b : Nat) (bw : Int)
    (ha : a - 1 < g.length) (hb : b - 1 < g.length) :
    (addConnection g (a, b, bw)).length = g.length + 2 ∧
    ∀ j, (addConnection g (a, b, bw)).getD j [] =
      if j = g.length + 1 then [(⟨a - 1, bw⟩ : edge), ⟨b - 1, bw⟩]
      else if j = g.length then [(⟨g.length + 1, bw⟩ : edge)]
      else g.getD j [] ++ (if j = a - 1 then [(⟨g.length, bw⟩ : edge)] else [])
        ++ (if j = b - 1 then [(⟨g.length, bw⟩ : edge)] else []) := by
  unfold addConnection
  simp only [List.length_append, List.length_singleton, Nat.add_sub_cancel]
  have r1 := getD_append_empty_row g
  have l1 : (g ++ [[]]).length = g.length + 1 := by simp
  generalize g ++ [[]] = g1 at r1 l1 ⊢
  have l2 := length_addEdgeAt g1 g.length ⟨g.length + 1, bw⟩
  have r2 : ∀ j, (addEdgeAt g1 g.length ⟨g.length + 1, bw⟩).getD j [] =
      if j = g.length then [(⟨g.length + 1, bw⟩ : edge)] else g.getD j [] := by
    intro j
    rw [getD_addEdgeAt _ _ _ _ (by omega), r1, r1, getD_of_le g g.length [] (le_refl _)]
    rfl
  generalize addEdgeAt g1 g.length ⟨g.length + 1, bw⟩ = g2 at l2 r2 ⊢
  have r3 : ∀ j, (g2 ++ [[]]).getD j [] =
      if j = g.length then [(⟨g.length + 1, bw⟩ : edge)] else g.getD j [] := by
    intro j
    rw [getD_append_empty_row, r2]
  have l3 : (g2 ++ [[]]).length = g.length + 2 := by simp; omega
  generalize g2 ++ [[]] = g3 at l3 r3 ⊢
  have l4 := length_addEdgeAt g3 (a - 1) ⟨g.length, bw⟩
  have r4 := fun j => getD_addEdgeAt g3 (a - 1) j ⟨g.length, bw⟩ (by omega)
  generalize addEdgeAt g3 (a - 1) ⟨g.length, bw⟩ = g4 at l4 r4 ⊢
  have l5 := length_addEdgeAt g4 (b - 1) ⟨g.length, bw⟩
  have r5 := fun j => getD_addEdgeAt g4 (b - 1) j ⟨g.length, bw⟩ (by omega)
  generalize addEdgeAt g4 (b - 1) ⟨g.length, bw⟩ = g5 at l5 r5 ⊢
  have l6 := length_addEdgeAt g5 (g.length + 1) ⟨a - 1, bw⟩
  have r6 := fun j => getD_addEdgeAt g5 (g.length + 1) j ⟨a - 1, bw⟩ (by omega)
  generalize addEdgeAt g5 (g.length + 1) ⟨a - 1, bw⟩ = g6 at l6 r6 ⊢
  have l7 := length_addEdgeAt g6 (g.length + 1) ⟨b - 1, bw⟩
  have r7 := fun j => getD_addEdgeAt g6 (g.length + 1) j ⟨b - 1, bw⟩ (by omega)
  generalize addEdgeAt g6 (g.length + 1) ⟨b - 1, bw⟩ = g7 at l7 r7 ⊢
  refine ⟨by omega, ?_⟩
  intro j
  have hout : g.getD (g.length + 1) [] = [] := getD_of_le _ _ _ (by omega)
  have ea : ¬ g.length + 1 = a - 1 := by omega
  have eb : ¬ g.length + 1 = b - 1 := by omega
  have e0 : ¬ g.length + 1 = g.length := by omega
  by_cases h1 : j = g.length + 1
  · subst h1
    rw [r7, if_pos rfl, r6, if_pos rfl, r5, if_neg eb, r4, if_neg ea, r3, if_neg e0, hout,
      if_pos rfl]
    rfl
  · rw [r7, if_neg h1, r6, if_neg h1, if_neg h1]
    by_cases h0 : j = g.length
    · subst h0
      have ea' : ¬ g.length = a - 1 := by omega
      have eb' : ¬ g.length = b - 1 := by omega
      rw [r5, if_neg eb', r4, if_neg ea', r3, if_pos rfl, if_pos rfl]
    · rw [if_neg h0, r5]
      by_cases hjb : j = b - 1
      · rw [if_pos hjb, r4]
        by_cases hba : b - 1 = a - 1
        · rw [if_pos hba, r3, if_pos (hjb.trans hba), if_pos hjb]
          rw [hjb, hba] at h0
          rw [if_neg h0, hjb, hba]
        · rw [if_neg hba, r3, if_neg (fun h => hba (hjb.symm.trans h)), if_pos hjb]
          rw [hjb] at h0
          rw [if_neg h0, hjb, List.append_nil]
      · rw [if_neg hjb, r4, if_neg hjb, List.append_nil]
        by_cases hja : j = a - 1
        · rw [if_pos hja, if_pos hja, r3]
          rw [hja] at h0
          rw [if_neg h0, hja]
        · rw [if_neg hja, if_neg hja, r3, if_neg h0, List.append_nil]

theorem addConnection_rowsOK (g : List (List edge)) (a b : Nat) (bw : Int) (n : Nat)
    (hn : n ≤ g.length) (ha1 : 1 ≤ a) (han : a ≤ n) (hb1 : 1 ≤ b) (hbn : b ≤ n) (hab : a ≠ b)
    (h : RowsOK g) : RowsOK (addConnection g (a, b, bw)) := by
  obtain ⟨hl, hr⟩ := addConnection_rows g a b bw (by omega) (by omega)
  intro j
  rw [hl, hr j]
  by_cases h1 : j = g.length + 1
  · rw [if_pos h1]
    constructor
    · have : a - 1 ≠ b - 1 := by omega
      simp [this]
    · intro e he
      simp only [List.mem_cons, List.mem_singleton, List.not_mem_nil, or_false] at he
      rcases he with rfl | rfl
      · show a - 1 < g.length + 2
        omega
      · show b - 1 < g.length + 2
        omega
  · rw [if_neg h1]
    by_cases h0 : j = g.length
    · rw [if_pos h0]
      constructor
      · simp
      · intro e he
        simp only [List.mem_singleton] at he
        rw [he]
        show g.length + 1 < g.length + 2
        omega
    · rw [if_neg h0]
      obtain ⟨hnd, hlt⟩ := h j
      have hfresh : g.length ∉ (g.getD j []).map edge.to_ := by
        intro hmem
        obtain ⟨e, he, hEq⟩ := List.mem_map.mp hmem
        have := hlt e he
        omega
      by_cases hja : j = a - 1
      · have hjb : ¬ j = b - 1 := by omega
        rw [if_pos hja, if_neg hjb, List.append_nil]
        constructor
        · rw [List.map_append, List.nodup_append]
          refine ⟨hnd, by simp, ?_⟩
          intro x hx hx'
          simp only [List.map_cons, List.map_nil, List.mem_singleton] at hx'
          rw [hx'] at hx
          exact hfresh hx
        · intro e he
          rcases List.mem_append.mp he with he | he
          · have := hlt e he
            omega
          · simp only [List.mem_singleton] at he
            rw [he]
            show g.length < g.length + 2
            omega
      · rw [if_neg hja, List.append_nil]
        by_cases hjb : j = b - 1
        · rw [if_pos hjb]
          constructor
          · rw [List.map_append, List.nodup_append]
            refine ⟨hnd, by simp, ?_⟩
            intro x hx hx'
            simp only [List.map_cons, List.map_nil, List.mem_singleton] at hx'
            rw [hx'] at hx
            exact hfresh hx
          · intro e he
            rcases List.mem_append.mp he with he | he
            · have := hlt e he
              omega
            · simp only [List.mem_singleton] at he
              rw [he]
              show g.length < g.length + 2
              omega
        · rw [if_neg hjb, List.append_nil]
          exact ⟨hnd, fun e he => by have := hlt e he; omega⟩

theorem foldl_addConnection_rowsOK (n : Nat) (conns : List (Nat × Nat × Int))
    (g : List (List edge)) (hn : n ≤ g.length) (h : RowsOK g) (hv : ConnsValid n conns) :
    RowsOK (conns.foldl addConnection g) ∧
      (conns.foldl addConnection g).length = g.length + 2 * conns.length := by
  induction conns generalizing g with
  | nil => exact ⟨h, by simp⟩
  | cons c rest ih =>
    obtain ⟨a, b, bw⟩ := c
    obtain ⟨h1, h2, h3, h4, h5⟩ := hv (a, b, bw) (List.mem_cons_self _ _)
    have hl := (addConnection_rows g a b bw (by dsimp only at h1 h2; omega)
      (by dsimp only at h3 h4; omega)).1
    obtain ⟨i1, i2⟩ := ih (addConnection g (a, b, bw)) (by rw [hl]; omega)
      (addConnection_rowsOK g a b bw n hn h1 h2 h3 h4 h5 h)
      (fun c hc => hv c (List.mem_cons_of_mem _ hc))
    rw [List.foldl_cons]
    refine ⟨i1, ?_⟩
    rw [i2, hl, List.length_cons]
    omega

theorem rowsOK_noParallel (g : List (List edge)) (h : RowsOK g) : NoParallel g ∧ GraphWF g := by
  constructor
  · intro row hrow
    obtain ⟨i, hi, rfl⟩ := List.getElem_of_mem hrow
    have := (h i).1
    rw [List.getD_eq_getElem _ _ hi] at this
    exact this
  · intro row hrow e he
    obtain ⟨i, hi, rfl⟩ := List.getElem_of_mem hrow
    have := (h i).2 e
    rw [List.getD_eq_getElem _ _ hi] at this
    exact this he

/-- C22: for every node count and every list of connections `(a, b, bandwidth)`
with `1 <= a, b <= n` and `a != b` (repetitions allowed), the graph that
`Solve` of 820.cpp builds contains no two edges with the same ordered
`(from, to)` pair; all its edges point at vertices of the graph, and it has two
vertices more per connection. -/
theorem network_no_parallel (num_nodes : Nat) (conns : List (Nat × Nat × Int))
    (hv : ConnsValid num_nodes conns) :
    NoParallel (networkGraph num_nodes conns) ∧ GraphWF (networkGraph num_nodes conns) ∧
    (networkGraph num_nodes conns).length = num_nodes + 2 * conns.length := by
  have h0 : RowsOK (List.replicate num_nodes ([] : List edge)) := by
    intro j
    rw [getD_replicate_self]
    simp
  obtain ⟨h1, h2⟩ := foldl_addConnection_rowsOK num_nodes conns (List.replicate num_nodes [])
    (by simp) h0 hv
  obtain ⟨h3, h4⟩ := rowsOK_noParallel _ h1
  refine ⟨h3, h4, ?_⟩
  unfold networkGraph
  rw [h2]
  simp

/-- Instance of C22: three connections between the nodes `1` and `2`, two of
them in the same direction. -/
theorem network_no_parallel_witness :
    NoParallel (networkGraph 2 [(1, 2, 10), (2, 1, 5), (1, 2, 7)]) ∧
    GraphWF (networkGraph 2 [(1, 2, 10), (2, 1, 5), (1, 2, 7)]) ∧
    (networkGraph 2 [(1, 2, 10), (2, 1, 5), (1, 2, 7)]).length = 2 + 2 * 3 :=
  network_no_parallel 2 [(1, 2, 10), (2, 1, 5), (1, 2, 7)] (by decide)

/-! ## The adapter rewrite of 753.cpp -/

/-- C23 (code at the failing input): for the adapters `yz → x`, `z → xy`,
`x → yz`, `xy → z`, whose type names do not start with `__`, the rewrite
replaces `x → yz` and `xy → z` by chains through the same new name `__xyz`;
in the rewritten list `x` can be converted to `z`, in the input list it
cannot. -/
theorem rewrite_collision_adds_conversion :
    (∀ ab ∈ collidingAdapters, startsWithMark ab.1 = false ∧ startsWithMark ab.2 = false) ∧
    rewriteAdapters collidingAdapters =
      [("yz", "x"), ("z", "xy"), ("x", "__xyz"), ("__xyz", "yz"),
        ("xy", "__xyz"), ("__xyz", "z")] ∧
    Converts (rewriteAdapters collidingAdapters) "x" "z" ∧
    ¬ Converts collidingAdapters "x" "z" := by
  have hrw : rewriteAdapters collidingAdapters =
      [("yz", "x"), ("z", "xy"), ("x", "__xyz"), ("__xyz", "yz"),
        ("xy", "__xyz"), ("__xyz", "z")] := by decide
  refine ⟨by decide, hrw, ?_, ?_⟩
  · rw [hrw]
    unfold Converts
    have s1 : ("x", "__xyz") ∈ [("yz", "x"), ("z", "xy"), ("x", "__xyz"), ("__xyz", "yz"),
        ("xy", "__xyz"), ("__xyz", "z")] := by decide
    have s2 : ("__xyz", "z") ∈ [("yz", "x"), ("z", "xy"), ("x", "__xyz"), ("__xyz", "yz"),
        ("xy", "__xyz"), ("__xyz", "z")] := by decide
    exact Relation.ReflTransGen.tail (Relation.ReflTransGen.single s1) s2
  · have key : ∀ q, Converts collidingAdapters "x" q → q = "x" ∨ q = "yz" := by
      intro q h
      unfold Converts at h
      induction h with
      | refl => exact Or.inl rfl
      | tail _ hstep ih =>
        have hmem : ∀ p q : String, (p, q) ∈ collidingAdapters → (p = "x" ∨ p = "yz") →
            q = "x" ∨ q = "yz" := by
          intro p q hpq hp
          unfold collidingAdapters at hpq
          simp only [List.mem_cons, Prod.mk.injEq, List.mem_singleton, List.not_mem_nil,
            or_false] at hpq
          rcases hpq with ⟨_, rfl⟩ | ⟨rfl, _⟩ | ⟨_, rfl⟩ | ⟨rfl, _⟩
          · exact Or.inl rfl
          · rcases hp with hp | hp <;> exact absurd hp (by decide)
          · exact Or.inr rfl
          · rcases hp with hp | hp <;> exact absurd hp (by decide)
        exact hmem _ _ hstep ih
    intro h
    rcases key "z" h with h' | h' <;> exact absurd h' (by decide)

/-! ## The solver on 32-bit ints and the solver over the integers -/

theorem wrap32_eq (x : Int) (h1 : -2147483648 ≤ x) (h2 : x ≤ 2147483647) : wrap32 x = x := by
  unfold wrap32
  omega

/-- The four `int` updates of one step are exact when none of the four results
leaves the range of `int`. -/
theorem pushEdge32_eq (flows : FlowMap) (last idx : Nat) (c : Int) (hne : last ≠ idx)
    (h1 : -2147483648 ≤ (flows last idx).flow + c ∧ (flows last idx).flow + c ≤ 2147483647)
    (h2 : -2147483648 ≤ (flows idx last).flow + -c ∧ (flows idx last).flow + -c ≤ 2147483647)
    (h3 : -2147483648 ≤ (flows last idx).c_f + -c ∧ (flows last idx).c_f + -c ≤ 2147483647)
    (h4 : -2147483648 ≤ (flows idx last).c_f + c ∧ (flows idx last).c_f + c ≤ 2147483647) :
    pushEdge32 flows last idx c = pushEdge flows last idx c := by
  funext a b
  unfold pushEdge32 addCf32 addFlow32 pushEdge bump
  by_cases hA : a = last ∧ b = idx
  · have hB : ¬ (a = idx ∧ b = last) := fun h => hne (hA.1.symm.trans h.1)
    obtain ⟨rfl, rfl⟩ := hA
    simp only [hB, if_false, and_self, if_true, wrap32_eq _ h1.1 h1.2, wrap32_eq _ h3.1 h3.2]
  · by_cases hB : a = idx ∧ b = last
    · obtain ⟨rfl, rfl⟩ := hB
      simp only [hA, if_false, and_self, if_true, wrap32_eq _ h2.1 h2.2, wrap32_eq _ h4.1 h4.2]
    · simp only [hA, hB, if_false]

/-- Along the predecessor chain of a search on a map with the loop invariant,
the "send flow through" loop on `int` is the loop over the integers, provided
the two capacities of every pair sum to at most `2147483647`. -/
theorem sendFlow32_eq {n source : Nat} {flows : FlowMap} {mins : List Nat}
    {lasts : List (Option Nat)} {cap : Nat → Nat → Int}
    (hlinks : ∀ v p, lasts.getD v none = some p → LinkOK n source flows mins lasts p v)
    (hcap : ∀ u v, 0 ≤ cap u v) (hpair : ∀ u v, cap u v + cap v u ≤ INT_MAX)
    (ha : ∀ u v, (flows u v).flow = -(flows v u).flow)
    (hr : ∀ u v, (flows u v).c_f + (flows u v).flow = cap u v)
    (hn : ∀ u v, 0 ≤ (flows u v).c_f)
    (c : Int) (hc0 : 0 ≤ c) (fuel idx : Nat) (cur : FlowMap)
    (hbound : ∀ p v, OnChain lasts idx p v → c ≤ (flows p v).c_f)
    (hsame : ∀ x y, mins.getD x INF ≤ mins.getD idx INF → mins.getD y INF ≤ mins.getD idx INF →
      cur x y = flows x y) :
    sendFlow32 lasts c fuel idx cur = sendFlow lasts c fuel idx cur := by
  induction fuel generalizing idx cur with
  | zero => rfl
  | succ fuel ih =>
    unfold sendFlow32 sendFlow
    cases hl : lasts.getD idx none with
    | none => rfl
    | some last =>
      have hk := hlinks idx last hl
      have hlev := hk.level
      have hne : last ≠ idx := by
        intro h
        rw [h] at hlev
        omega
      have e1 : cur last idx = flows last idx := hsame last idx (by omega) (le_refl _)
      have e2 : cur idx last = flows idx last := hsame idx last (le_refl _) (by omega)
      have hcb : c ≤ (flows last idx).c_f := hbound last idx (OnChain.here hl)
      have a1 := ha last idx
      have r1 := hr last idx
      have r2 := hr idx last
      have n1 := hn last idx
      have n2 := hn idx last
      have c1 := hcap last idx
      have c2 := hcap idx last
      have p1 := hpair last idx
      unfold INT_MAX at p1
      have hpe : pushEdge32 cur last idx c = pushEdge cur last idx c := by
        apply pushEdge32_eq cur last idx c hne
        · rw [e1]; constructor <;> omega
        · rw [e2]; constructor <;> omega
        · rw [e1]; constructor <;> omega
        · rw [e2]; constructor <;> omega
      dsimp only
      rw [hpe]
      apply ih last (pushEdge cur last idx c)
      · exact fun p v hch => hbound p v (OnChain.there hl hch)
      · intro x y hx hy
        have hxi : x ≠ idx := by intro h; rw [h] at hx; omega
        have hyi : y ≠ idx := by intro h; rw [h] at hy; omega
        rw [pushEdge_other _ _ _ _ _ _ (fun h => hyi h.2) (fun h => hxi h.1)]
        exact hsame x y (by omega) (by omega)

/-- An augmentation of a map with the loop invariant pushes at least one unit
and keeps the invariant, whatever the fuel it was run with. -/
theorem augment_step_inv {graph back_graph : List (List edge)} {source sink : Nat}
    {cap : Nat → Nat → Int} (hadj : AdjWF graph back_graph)
    (hs : source < graph.length) (hst : source ≠ sink)
    (inner : Nat) (max_flow : Int) (flows : FlowMap)
    (hinv : FlowInv graph.length source sink cap max_flow flows)
    (c : Int) (flows' : FlowMap)
    (ha : augment graph back_graph source sink inner flows = some (some (c, flows'))) :
    1 ≤ c ∧ FlowInv graph.length source sink cap (max_flow + c) flows' := by
  have hbig := augment_fuel_mono inner (max inner (2 * graph.length * INF + 2)) flows _
    (le_max_left _ _) ha
  rcases augment_spec hadj hs hst (max inner (2 * graph.length * INF + 2))
      (le_max_right _ _) max_flow flows hinv with
    ⟨_, _, _, _, haug⟩ | ⟨_, c', F'', _, _, _, _, haug, hc, hinv'⟩
  · rw [haug] at hbig; simp at hbig
  · rw [haug] at hbig
    simp only [Option.some.injEq, Prod.mk.injEq] at hbig
    obtain ⟨rfl, rfl⟩ := hbig
    exact ⟨hc, hinv'⟩

/-- On a map with the loop invariant one iteration of the outer loop on `int`
is the iteration over the integers, provided the two capacities of every pair
sum to at most `2147483647`. -/
theorem augment32_eq {graph back_graph : List (List edge)} {source sink : Nat}
    {cap : Nat → Nat → Int} (hadj : AdjWF graph back_graph)
    (hs : source < graph.length) (hst : source ≠ sink)
    (hcap : ∀ u v, 0 ≤ cap u v) (hpair : ∀ u v, cap u v + cap v u ≤ INT_MAX)
    (inner : Nat) (max_flow : Int) (flows : FlowMap)
    (hinv : FlowInv graph.length source sink cap max_flow flows) :
    augment32 graph back_graph source sink inner flows
      = augment graph back_graph source sink inner flows := by
  unfold augment32 augment
  cases hb : bfs graph back_graph flows source sink inner with
  | none => rfl
  | some r =>
    dsimp only
    by_cases hidx : r.idx ≠ sink
    · rw [if_pos hidx, if_pos hidx]
    · rw [if_neg hidx, if_neg hidx]
      cases hc : findCfp flows r.lasts inner sink INF_CAP with
      | none => rfl
      | some c =>
        dsimp only
        have hpost := bfs_post hadj hs hst inner r hb
        obtain ⟨m1, m2, m3⟩ := findCfp_min _ _ _ _ _ _ hc
        have hc0 : 0 ≤ c := by
          rcases m3 with h | ⟨p, v, hch, hEq⟩
          · rw [h]; unfold INF_CAP; omega
          · have := (hpost.links v p (OnChain.last_eq hch)).pos
            omega
        rw [sendFlow32_eq hpost.links hcap hpair hinv.antisym hinv.resid hinv.nonneg c hc0
          inner sink flows m2 (fun _ _ _ _ => rfl)]

/-- From a state with the loop invariant and a total between `0` and
`2147483647`, the outer loop on `int` is the loop over the integers, provided
the two capacities of every pair, and the capacities that leave the source,
sum to at most `2147483647`. -/
theorem mainLoop32_eq {graph back_graph : List (List edge)} {source sink : Nat}
    {cap : Nat → Nat → Int} (hadj : AdjWF graph back_graph)
    (hs : source < graph.length) (hst : source ≠ sink)
    (hcap : ∀ u v, 0 ≤ cap u v) (hpair : ∀ u v, cap u v + cap v u ≤ INT_MAX)
    (hsrc : ∑ w in Finset.range graph.length, cap source w ≤ INT_MAX)
    (inner k : Nat) (max_flow : Int) (flows : FlowMap) (h0 : 0 ≤ max_flow)
    (hinv : FlowInv graph.length source sink cap max_flow flows) :
    mainLoop32 graph back_graph source sink inner k max_flow flows
      = mainLoop graph back_graph source sink inner k max_flow flows := by
  induction k generalizing max_flow flows with
  | zero => rfl
  | succ k ih =>
    unfold mainLoop32 mainLoop
    rw [augment32_eq hadj hs hst hcap hpair inner max_flow flows hinv]
    cases ha : augment graph back_graph source sink inner flows with
    | none => rfl
    | some a =>
      cases a with
      | none => rfl
      | some cf =>
        obtain ⟨c, F'⟩ := cf
        dsimp only
        obtain ⟨hc, hinv'⟩ := augment_step_inv hadj hs hst inner max_flow flows hinv c F' ha
        have hle := hinv'.value_le
        unfold INT_MAX at hsrc
        rw [wrap32_eq _ (by omega) (by omega)]
        exact ih (max_flow + c) F' (by omega) hinv'

/-- The states after `k` augmentations on `int` are the states over the
integers, under the same provisos. -/
theorem afterAugmentations32_eq {graph back_graph : List (List edge)} {source sink : Nat}
    {cap : Nat → Nat → Int} (hadj : AdjWF graph back_graph)
    (hs : source < graph.length) (hst : source ≠ sink)
    (hcap : ∀ u v, 0 ≤ cap u v) (hpair : ∀ u v, cap u v + cap v u ≤ INT_MAX)
    (hsrc : ∑ w in Finset.range graph.length, cap source w ≤ INT_MAX)
    (inner k : Nat) (max_flow : Int) (flows : FlowMap) (h0 : 0 ≤ max_flow)
    (hinv : FlowInv graph.length source sink cap max_flow flows) :
    afterAugmentations32 graph back_graph source sink inner k (max_flow, flows)
      = afterAugmentations graph back_graph source sink inner k (max_flow, flows) := by
  induction k generalizing max_flow flows with
  | zero => rfl
  | succ k ih =>
    unfold afterAugmentations32 afterAugmentations
    dsimp only
    rw [augment32_eq hadj hs hst hcap hpair inner max_flow flows hinv]
    cases ha : augment graph back_graph source sink inner flows with
    | none => rfl
    | some a =>
      cases a with
      | none => rfl
      | some cf =>
        obtain ⟨c, F'⟩ := cf
        dsimp only
        obtain ⟨hc, hinv'⟩ := augment_step_inv hadj hs hst inner max_flow flows hinv c F' ha
        have hle := hinv'.value_le
        unfold INT_MAX at hsrc
        rw [wrap32_eq _ (by omega) (by omega)]
        exact ih (max_flow + c) F' (by omega) hinv'

theorem sum_range_eq_list (f : Nat → Int) (n : Nat) :
    ∑ w in Finset.range n, f w = ((List.range n).map f).sum := by
  induction n with
  | zero => rfl
  | succ n ih =>
    rw [Finset.sum_range_succ, List.range_succ, List.map_append, List.sum_append, ih]
    simp

theorem lastCap_of_ge (graph : List (List edge)) (u v : Nat) (hu : graph.length ≤ u) :
    lastCap graph u v = 0 := by
  apply lastCap_eq_zero_of_no_edge
  intro e he
  rw [getD_of_le _ _ _ hu] at he
  simp at he

theorem lastCap_to_ge (graph : List (List edge)) (hwf : GraphWF graph) (u v : Nat)
    (hv : graph.length ≤ v) : lastCap graph u v = 0 := by
  apply lastCap_eq_zero_of_no_edge
  intro e he hev
  by_cases hu : u < graph.length
  · have := hwf _ (getD_mem _ _ _ hu) e he
    omega
  · rw [getD_of_le _ _ _ (not_lt.mp hu)] at he
    simp at he

theorem PairsFit.all {graph : List (List edge)} (h : PairsFit graph)
    (hwf : GraphWF graph) (u v : Nat) : lastCap graph u v + lastCap graph v u ≤ INT_MAX := by
  by_cases hu : u < graph.length
  · by_cases hv : v < graph.length
    · exact h u hu v hv
    · rw [lastCap_to_ge graph hwf u v (not_lt.mp hv), lastCap_of_ge graph v u (not_lt.mp hv)]
      unfold INT_MAX; omega
  · rw [lastCap_of_ge graph u v (not_lt.mp hu), lastCap_to_ge graph hwf v u (not_lt.mp hu)]
    unfold INT_MAX; omega

theorem SourceFits.finset {graph : List (List edge)} {s : Nat} (h : SourceFits graph s) :
    ∑ w in Finset.range graph.length, lastCap graph s w ≤ INT_MAX := by
  rw [sum_range_eq_list]
  exact h

/-- When no `int` overflows, the solver on `int` is the solver over the
integers: same result for every fuel. -/
theorem MaxFlow32_eq_MaxFlow (graph : List (List edge)) (s t : Nat)
    (hwf : GraphWF graph) (hnn : NonNegCaps graph) (hs : s < graph.length) (hst : s ≠ t)
    (hfit : NoOverflow graph s) (fuel : Nat) :
    MaxFlow32 graph s t emptyFlows fuel = MaxFlow graph s t emptyFlows fuel := by
  unfold MaxFlow32 MaxFlow
  exact mainLoop32_eq (initFlow_adjWF graph emptyFlows hwf) hs hst (lastCap_nonneg graph hnn)
    (hfit.1.all hwf) hfit.2.finset fuel fuel 0 _ (le_refl _) (initFlow_inv graph s t hnn)

theorem MaxFlowValue32_eq_MaxFlowValue (graph : List (List edge)) (s t : Nat)
    (hwf : GraphWF graph) (hnn : NonNegCaps graph) (hs : s < graph.length) (hst : s ≠ t)
    (hfit : NoOverflow graph s) (fuel : Nat) :
    MaxFlowValue32 graph s t fuel = MaxFlowValue graph s t fuel := by
  unfold MaxFlowValue32 MaxFlowValue
  rw [MaxFlow32_eq_MaxFlow graph s t hwf hnn hs hst hfit fuel]

theorem sendFlow32_fuel_mono (lasts : List (Option Nat)) (c : Int)
    (fuel fuel' idx : Nat) (flows r : FlowMap) (hle : fuel ≤ fuel')
    (h : sendFlow32 lasts c fuel idx flows = some r) :
    sendFlow32 lasts c fuel' idx flows = some r := by
  induction fuel generalizing fuel' idx flows with
  | zero => simp [sendFlow32] at h
  | succ fuel ih =>
    cases fuel' with
    | zero => omega
    | succ fuel' =>
      unfold sendFlow32 at h ⊢
      cases hl : lasts.getD idx none with
      | none => rw [hl] at h; exact h
      | some last =>
        rw [hl] at h
        exact ih fuel' _ _ (by omega) h

theorem augment32_fuel_mono {graph back_graph : List (List edge)} {source sink : Nat}
    (fuel fuel' : Nat) (flows : FlowMap) (res : Option (Int × FlowMap)) (hle : fuel ≤ fuel')
    (h : augment32 graph back_graph source sink fuel flows = some res) :
    augment32 graph back_graph source sink fuel' flows = some res := by
  unfold augment32 at h ⊢
  cases hb : bfs graph back_graph flows source sink fuel with
  | none => rw [hb] at h; simp at h
  | some r =>
    rw [hb] at h
    have hb' : bfs graph back_graph flows source sink fuel' = some r :=
      bfsLoop_fuel_mono flows sink fuel fuel' _ _ _ _ r hle hb
    rw [hb']
    dsimp only at h ⊢
    by_cases hidx : r.idx ≠ sink
    · rw [if_pos hidx] at h ⊢
      exact h
    · rw [if_neg hidx] at h ⊢
      cases hc : findCfp flows r.lasts fuel sink INF_CAP with
      | none => rw [hc] at h; simp at h
      | some c =>
        rw [hc] at h
        rw [findCfp_fuel_mono flows r.lasts fuel fuel' sink INF_CAP c hle hc]
        dsimp only at h ⊢
        cases hsf : sendFlow32 r.lasts c fuel sink flows with
        | none => rw [hsf] at h; simp at h
        | some F' =>
          rw [hsf] at h
          rw [sendFlow32_fuel_mono r.lasts c fuel fuel' sink flows F' hle hsf]
          exact h

theorem mainLoop32_fuel_mono {graph back_graph : List (List edge)} {source sink : Nat}
    (inner inner' k k' : Nat) (max_flow : Int) (flows : FlowMap) (res : Int × FlowMap)
    (hi : inner ≤ inner') (hk : k ≤ k')
    (h : mainLoop32 graph back_graph source sink inner k max_flow flows = some res) :
    mainLoop32 graph back_graph source sink inner' k' max_flow flows = some res := by
  induction k generalizing k' max_flow flows with
  | zero => simp [mainLoop32] at h
  | succ k ih =>
    cases k' with
    | zero => omega
    | succ k' =>
      unfold mainLoop32 at h ⊢
      cases ha : augment32 graph back_graph source sink inner flows with
      | none => rw [ha] at h; simp at h
      | some a =>
        rw [ha] at h
        rw [augment32_fuel_mono inner inner' flows a hi ha]
        cases a with
        | none => exact h
        | some cf =>
          obtain ⟨c, F'⟩ := cf
          dsimp only at h ⊢
          exact ih k' _ _ (by omega) h

/-- Enlarging the fuel does not change what `MaxFlow32` returns. -/
theorem MaxFlow32_fuel_mono (graph : List (List edge)) (source sink : Nat) (flows : FlowMap)
    (fuel fuel' : Nat) (res : Int × FlowMap) (hle : fuel ≤ fuel')
    (h : MaxFlow32 graph source sink flows fuel = some res) :
    MaxFlow32 graph source sink flows fuel' = some res := by
  unfold MaxFlow32 at h ⊢
  exact mainLoop32_fuel_mono fuel fuel' fuel fuel' _ _ res hle hle h

/-- Whatever fuel lets `MaxFlow32` return, the result is the same. -/
theorem MaxFlow32_unique (graph : List (List edge)) (s t : Nat) (flows : FlowMap)
    (fuel fuel' : Nat) (a b : Int × FlowMap)
    (ha : MaxFlow32 graph s t flows fuel = some a) (hb : MaxFlow32 graph s t flows fuel' = some b) :
    a = b := by
  rcases Nat.le_total fuel fuel' with h | h
  · have := MaxFlow32_fuel_mono graph s t flows fuel fuel' a h ha
    rw [this] at hb
    exact Option.some.inj hb
  · have := MaxFlow32_fuel_mono graph s t flows fuel' fuel b h hb
    rw [this] at ha
    exact (Option.some.inj ha).symm

theorem MaxFlowValue32_of_MaxFlow32 (graph : List (List edge)) (s t fuel : Nat)
    (mf : Int) (flows : FlowMap) (h : MaxFlow32 graph s t emptyFlows fuel = some (mf, flows)) :
    MaxFlowValue32 graph s t fuel = some mf := by
  unfold MaxFlowValue32
  rw [h]
  rfl

/-- Whatever fuel lets `MaxFlow32` return, the total is the same. -/
theorem MaxFlowValue32_unique (graph : List (List edge)) (s t fuel fuel' : Nat) (a b : Int)
    (ha : MaxFlowValue32 graph s t fuel = some a) (hb : MaxFlowValue32 graph s t fuel' = some b) :
    a = b := by
  unfold MaxFlowValue32 at ha hb
  cases h1 : MaxFlow32 graph s t emptyFlows fuel with
  | none => rw [h1] at ha; simp at ha
  | some r1 =>
    cases h2 : MaxFlow32 graph s t emptyFlows fuel' with
    | none => rw [h2] at hb; simp at hb
    | some r2 =>
      rw [h1] at ha
      rw [h2] at hb
      simp only [Option.map_some', Option.some.injEq] at ha hb
      rw [← ha, ← hb, MaxFlow32_unique graph s t emptyFlows fuel fuel' r1 r2 h1 h2]

/-- When the search does not reach the sink, the iteration on `int` ends the
loop as well: no arithmetic is done. -/
theorem augment32_of_no_path {graph back_graph : List (List edge)} {source sink : Nat}
    (fuel : Nat) (flows : FlowMap)
    (h : augment graph back_graph source sink fuel flows = some none) :
    augment32 graph back_graph source sink fuel flows = some none := by
  unfold augment at h
  unfold augment32
  cases hb : bfs graph back_graph flows source sink fuel with
  | none => rw [hb] at h; simp at h
  | some r =>
    rw [hb] at h
    dsimp only at h ⊢
    by_cases hidx : r.idx ≠ sink
    · rw [if_pos hidx]
    · rw [if_neg hidx] at h
      cases hc : findCfp flows r.lasts fuel sink INF_CAP with
      | none => rw [hc] at h; simp at h
      | some c =>
        rw [hc] at h
        dsimp only at h
        cases hsf : sendFlow r.lasts c fuel sink flows with
        | none => rw [hsf] at h; simp at h
        | some F' => rw [hsf] at h; simp at h

theorem maxFlow32_of_first_fail (graph : List (List edge)) (s t fuel : Nat) (hfuel : 0 < fuel)
    (haug : augment graph (initFlow graph emptyFlows).1 s t fuel (initFlow graph emptyFlows).2
      = some none) :
    MaxFlow32 graph s t emptyFlows fuel = some (0, (initFlow graph emptyFlows).2) := by
  unfold MaxFlow32
  cases fuel with
  | zero => omega
  | succ k =>
    dsimp only
    unfold mainLoop32
    rw [augment32_of_no_path _ _ haug]

/-! ## Paths as long as the sentinel -/

/-- On a path graph with at least `999999999` edges the first search does not
reach the last vertex: the hop count of the vertex `v` is `v`, and a vertex is
only taken while its hop count stays below the sentinel `999999999`. -/
theorem longPath_search_fails (caps : List Int) (hlen : INF ≤ caps.length) (fuel : Nat)
    (hfuel : 2 * (pathGraph caps).length * INF + 2 ≤ fuel) :
    augment (pathGraph caps) (initFlow (pathGraph caps) emptyFlows).1 0 caps.length fuel
      (initFlow (pathGraph caps) emptyFlows).2 = some none := by
  have hwf := pathGraph_wf caps
  have hadj := initFlow_adjWF (pathGraph caps) emptyFlows hwf
  have hs : 0 < (pathGraph caps).length := by rw [pathGraph_length]; omega
  have hI := INF_pos
  have hst : 0 ≠ caps.length := by omega
  obtain ⟨r, hr⟩ := bfs_terminates (initFlow (pathGraph caps) emptyFlows).2 0 caps.length hadj
    fuel hfuel
  have hpost := bfs_post hadj hs hst fuel r hr
  have key : ∀ k v, r.mins.getD v INF ≤ k → (v = 0 ∨ r.lasts.getD v none ≠ none) →
      r.mins.getD v INF = v := by
    intro k
    induction k with
    | zero =>
      intro v hk hv
      cases hl : r.lasts.getD v none with
      | none =>
        rcases hv with h | h
        · rw [h]; exact hpost.src_min
        · exact absurd hl h
      | some p =>
        have := (hpost.links v p hl).level
        omega
    | succ k ih =>
      intro v hk hv
      cases hl : r.lasts.getD v none with
      | none =>
        rcases hv with h | h
        · rw [h]; exact hpost.src_min
        · exact absurd hl h
      | some p =>
        have hk' := hpost.links v p hl
        have hlev := hk'.level
        have hp := ih p (by omega) hk'.parent
        have hpos := hk'.pos
        rw [initFlow_eq, pathGraph_lastCap] at hpos
        by_cases hc : p < caps.length ∧ v = p + 1
        · omega
        · rw [if_neg hc] at hpos
          simp at hpos
  have hidx : r.idx ≠ caps.length := by
    intro hEq
    have hfound := hpost.found hEq
    have hm := key _ caps.length (le_refl _) (Or.inr hfound)
    cases hl : r.lasts.getD caps.length none with
    | none => exact hfound hl
    | some p =>
      have := (hpost.links caps.length p hl).reached
      omega
  unfold augment
  rw [hr]
  simp only [ne_eq, hidx, not_false_eq_true, if_true]

theorem pathGraph_noParallel (caps : List Int) : NoParallel (pathGraph caps) := by
  intro row hrow
  unfold pathGraph at hrow
  rcases List.mem_append.mp hrow with h | h
  · obtain ⟨i, _, rfl⟩ := List.mem_map.mp h
    simp
  · simp only [List.mem_singleton] at h
    rw [h]
    simp

theorem longPathCaps_length : longPathCaps.length = 999999999 := by
  unfold longPathCaps
  rw [List.length_replicate]

theorem longPathCaps_getD (i : Nat) (hi : i < 999999999) : longPathCaps.getD i 0 = 1 := by
  unfold longPathCaps
  rw [List.getD_eq_getElem _ _ (by rw [List.length_replicate]; exact hi), List.getElem_replicate]

/-- On the path of `999999999` unit edges both solvers return the total `0`
and leave the initialised flow map. -/
theorem longPath_result (fuel : Nat)
    (hfuel : 2 * (pathGraph longPathCaps).length * INF + 2 ≤ fuel) :
    MaxFlow (pathGraph longPathCaps) 0 999999999 emptyFlows fuel
        = some (0, (initFlow (pathGraph longPathCaps) emptyFlows).2) ∧
      MaxFlow32 (pathGraph longPathCaps) 0 999999999 emptyFlows fuel
        = some (0, (initFlow (pathGraph longPathCaps) emptyFlows).2) := by
  have h := longPath_search_fails longPathCaps
    (by rw [longPathCaps_length]; unfold INF; exact le_refl _) fuel hfuel
  rw [longPathCaps_length] at h
  have hpos : 0 < fuel := by omega
  exact ⟨maxFlow_of_first_fail _ 0 999999999 fuel hpos h,
    maxFlow32_of_first_fail _ 0 999999999 fuel hpos h⟩

/-- In the initialised flow map of a path graph with positive capacities the
vertices `0, 1, ..., k` form a sequence with positive residual capacity between
consecutive vertices. -/
theorem pathGraph_residual_path (caps : List Int) (hpos : ∀ i, i < caps.length → 0 < caps.getD i 0)
    (k : Nat) (hk : k ≤ caps.length) :
    IsResidualPath (initFlow (pathGraph caps) emptyFlows).2 (List.range (k + 1)) := by
  unfold IsResidualPath
  induction k with
  | zero =>
    have h1 : List.range (0 + 1) = [0] := rfl
    rw [h1]
    exact List.chain'_singleton _
  | succ k ih =>
    rw [List.range_succ]
    apply List.Chain'.append (ih (by omega)) (List.chain'_singleton _)
    intro x hx y hy
    rw [List.range_succ, List.getLast?_append] at hx
    have hx' : x = k := by
      simp only [List.getLast?_singleton, Option.or, Option.mem_def, Option.some.injEq] at hx
      exact hx.symm
    simp only [List.head?_cons, Option.mem_def, Option.some.injEq] at hy
    rw [hx', ← hy]
    rw [initFlow_eq, pathGraph_lastCap]
    have h1 : k < caps.length ∧ k + 1 = k + 1 := ⟨by omega, rfl⟩
    simp only [h1, and_self, if_true]
    exact hpos k (by omega)

theorem head?_range_succ (k : Nat) : (List.range (k + 1)).head? = some 0 := by
  induction k with
  | zero => rfl
  | succ k ih =>
    rw [List.range_succ, List.head?_append_of_ne_nil _ (by simp)]
    exact ih

theorem getLast?_range_succ (k : Nat) : (List.range (k + 1)).getLast? = some k := by
  rw [List.range_succ, List.getLast?_append]
  simp

/-! ## The loop invariant on 32-bit ints -/

theorem pushEdge32_flow (flows : FlowMap) (p i : Nat) (c : Int) (a b : Nat) (hne : p ≠ i) :
    ((pushEdge32 flows p i c) a b).flow =
      if a = p ∧ b = i then wrap32 ((flows a b).flow + c)
      else if a = i ∧ b = p then wrap32 ((flows a b).flow + -c) else (flows a b).flow := by
  unfold pushEdge32 addCf32 addFlow32
  by_cases hA : a = p ∧ b = i
  · obtain ⟨rfl, rfl⟩ := hA
    have hB : ¬ (a = b ∧ b = a) := fun h => hne h.1
    simp only [hB, if_false, and_self, if_true]
  · by_cases hB : a = i ∧ b = p
    · obtain ⟨rfl, rfl⟩ := hB
      have hC : ¬ (a = b ∧ b = a) := fun h => hne h.2
      simp only [hC, if_false, and_self, if_true]
    · simp only [hA, hB, if_false]

theorem pushEdge32_c_f (flows : FlowMap) (p i : Nat) (c : Int) (a b : Nat) (hne : p ≠ i) :
    ((pushEdge32 flows p i c) a b).c_f =
      if a = p ∧ b = i then wrap32 ((flows a b).c_f + -c)
      else if a = i ∧ b = p then wrap32 ((flows a b).c_f + c) else (flows a b).c_f := by
  unfold pushEdge32 addCf32 addFlow32
  by_cases hA : a = p ∧ b = i
  · obtain ⟨rfl, rfl⟩ := hA
    have hB : ¬ (a = b ∧ b = a) := fun h => hne h.1
    simp only [hB, if_false, and_self, if_true]
  · by_cases hB : a = i ∧ b = p
    · obtain ⟨rfl, rfl⟩ := hB
      have hC : ¬ (a = b ∧ b = a) := fun h => hne h.2
      simp only [hC, if_false, and_self, if_true]
    · simp only [hA, hB, if_false]

theorem pushEdge32_other (flows : FlowMap) (p i : Nat) (c : Int) (a b : Nat)
    (h1 : ¬ (a = p ∧ b = i)) (h2 : ¬ (a = i ∧ b = p)) :
    (pushEdge32 flows p i c) a b = flows a b := by
  unfold pushEdge32 addCf32 addFlow32
  simp only [h1, h2, if_false]

theorem netOut_congr (n : Nat) (F G : FlowMap) (h : ∀ a b, (F a b).flow = (G a b).flow)
    (v : Nat) : netOut n F v = netOut n G v := by
  unfold netOut
  exact Finset.sum_congr rfl (fun w _ => h v w)

/-- One step `last → idx` of the update loop on 32-bit ints, by an amount that
the stored residual capacity of the step allows: no flow entry wraps, every
residual entry stays the wrapped difference of capacity and flow, and no flow
exceeds its capacity. -/
theorem pushEdge32_step {cap : Nat → Nat → Int} (cur : FlowMap) (p i : Nat) (c : Int)
    (hne : p ≠ i) (hc0 : 0 ≤ c)
    (hcap0 : ∀ u v, 0 ≤ cap u v) (hcapI : ∀ u v, cap u v ≤ INT_MAX)
    (ha : ∀ u v, (cur u v).flow = -(cur v u).flow)
    (hr : ∀ u v, (cur u v).c_f = wrap32 (cap u v - (cur u v).flow))
    (hle : ∀ u v, (cur u v).flow ≤ cap u v)
    (hcb : c ≤ (cur p i).c_f) :
    (∀ a b, ((pushEdge32 cur p i c) a b).flow = ((pushEdge cur p i c) a b).flow) ∧
    (∀ u v, ((pushEdge32 cur p i c) u v).c_f
      = wrap32 (cap u v - ((pushEdge32 cur p i c) u v).flow)) ∧
    (∀ u v, ((pushEdge32 cur p i c) u v).flow ≤ cap u v) := by
  have a1 := ha p i
  have r1 := hr p i
  have r2 := hr i p
  have l1 := hle p i
  have l2 := hle i p
  have c1 := hcap0 p i
  have c2 := hcap0 i p
  have d1 := hcapI p i
  have d2 := hcapI i p
  unfold INT_MAX at d1 d2
  unfold wrap32 at r1 r2
  have hfit : (cur p i).flow + c ≤ cap p i := by omega
  have hflow : ∀ a b, ((pushEdge32 cur p i c) a b).flow = ((pushEdge cur p i c) a b).flow := by
    intro a b
    rw [pushEdge32_flow _ _ _ _ _ _ hne, pushEdge_flow]
    by_cases hA : a = p ∧ b = i
    · have hB : ¬ (a = i ∧ b = p) := fun h => hne (hA.1.symm.trans h.1)
      rw [if_pos hA, if_pos hA, if_neg hB]
      obtain ⟨rfl, rfl⟩ := hA
      rw [wrap32_eq _ (by omega) (by omega)]
      omega
    · rw [if_neg hA, if_neg hA]
      by_cases hB : a = i ∧ b = p
      · rw [if_pos hB, if_pos hB]
        obtain ⟨rfl, rfl⟩ := hB
        rw [wrap32_eq _ (by omega) (by omega)]
        omega
      · rw [if_neg hB, if_neg hB]
        omega
  refine ⟨hflow, ?_, ?_⟩
  · intro u v
    rw [hflow, pushEdge32_c_f _ _ _ _ _ _ hne, pushEdge_flow]
    by_cases hA : u = p ∧ v = i
    · have hB : ¬ (u = i ∧ v = p) := fun h => hne (hA.1.symm.trans h.1)
      rw [if_pos hA, if_pos hA, if_neg hB]
      obtain ⟨rfl, rfl⟩ := hA
      rw [hr u v]
      unfold wrap32
      omega
    · rw [if_neg hA, if_neg hA]
      by_cases hB : u = i ∧ v = p
      · rw [if_pos hB, if_pos hB]
        obtain ⟨rfl, rfl⟩ := hB
        rw [hr u v]
        unfold wrap32
        omega
      · rw [if_neg hB, if_neg hB, hr u v]
        simp
  · intro u v
    rw [hflow, pushEdge_flow]
    have := hle u v
    by_cases hA : u = p ∧ v = i
    · have hB : ¬ (u = i ∧ v = p) := fun h => hne (hA.1.symm.trans h.1)
      rw [if_pos hA, if_neg hB]
      obtain ⟨rfl, rfl⟩ := hA
      omega
    · rw [if_neg hA]
      by_cases hB : u = i ∧ v = p
      · rw [if_pos hB]
        omega
      · rw [if_neg hB]
        omega

/-- The "send flow through" loop on 32-bit ints returns and keeps the
bookkeeping facts; the net flow changes only at the two ends of the chain. -/
theorem sendFlow32_spec {n source : Nat} {flows : FlowMap} {mins : List Nat}
    {lasts : List (Option Nat)} {cap : Nat → Nat → Int}
    (hlinks : ∀ v p, lasts.getD v none = some p → LinkOK n source flows mins lasts p v)
    (hcap0 : ∀ u v, 0 ≤ cap u v) (hcapI : ∀ u v, cap u v ≤ INT_MAX)
    (c : Int) (hc0 : 0 ≤ c) (fuel idx : Nat) (cur : FlowMap)
    (hfuel : mins.getD idx INF < fuel)
    (hroot : idx = source ∨ lasts.getD idx none ≠ none)
    (hbound : ∀ p v, OnChain lasts idx p v → c ≤ (flows p v).c_f)
    (hsame : ∀ x y, mins.getD x INF ≤ mins.getD idx INF → mins.getD y INF ≤ mins.getD idx INF →
      cur x y = flows x y)
    (ha : ∀ u v, (cur u v).flow = -(cur v u).flow)
    (hr : ∀ u v, (cur u v).c_f = wrap32 (cap u v - (cur u v).flow))
    (hle : ∀ u v, (cur u v).flow ≤ cap u v)
    (hsup : ∀ u v, n ≤ u ∨ n ≤ v → (cur u v).flow = 0) :
    ∃ r, sendFlow32 lasts c fuel idx cur = some r ∧
      (∀ u v, (r u v).flow = -(r v u).flow) ∧
      (∀ u v, (r u v).c_f = wrap32 (cap u v - (r u v).flow)) ∧
      (∀ u v, (r u v).flow ≤ cap u v) ∧
      (∀ u v, n ≤ u ∨ n ≤ v → (r u v).flow = 0) ∧
      ∀ v, netOut n r v =
        netOut n cur v + (if v = source then c else 0) - (if v = idx then c else 0) := by
  induction fuel generalizing idx cur with
  | zero => omega
  | succ fuel ih =>
    unfold sendFlow32
    cases hl : lasts.getD idx none with
    | none =>
      have hidx : idx = source := by
        rcases hroot with h | h
        · exact h
        · exact absurd hl h
      refine ⟨cur, rfl, ha, hr, hle, hsup, ?_⟩
      intro v
      rw [hidx]
      omega
    | some last =>
      have hk := hlinks idx last hl
      have hlev := hk.level
      have hne : last ≠ idx := by
        intro h
        rw [h] at hlev
        omega
      have hcb : c ≤ (cur last idx).c_f := by
        rw [hsame last idx (by omega) (le_refl _)]
        exact hbound last idx (OnChain.here hl)
      obtain ⟨s1, s2, s3⟩ := pushEdge32_step cur last idx c hne hc0 hcap0 hcapI ha hr hle hcb
      obtain ⟨r, h1, h2, h3, h4, h5, h6⟩ := ih last (pushEdge32 cur last idx c)
        (by omega) hk.parent
        (fun p v hch => hbound p v (OnChain.there hl hch))
        (by
          intro x y hx hy
          have hxi : x ≠ idx := by intro h; rw [h] at hx; omega
          have hyi : y ≠ idx := by intro h; rw [h] at hy; omega
          rw [pushEdge32_other _ _ _ _ _ _ (fun h => hyi h.2) (fun h => hxi h.1)]
          exact hsame x y (by omega) (by omega))
        (by
          intro u v
          rw [s1, s1]
          exact pushEdge_antisym cur last idx c ha u v)
        s2 s3
        (by
          intro u v huv
          rw [s1, pushEdge_flow, hsup u v huv]
          have hp := hk.p_lt
          have hv := hk.v_lt
          have hA : ¬ (u = last ∧ v = idx) := by
            rintro ⟨rfl, rfl⟩; omega
          have hB : ¬ (u = idx ∧ v = last) := by
            rintro ⟨rfl, rfl⟩; omega
          rw [if_neg hA, if_neg hB]
          omega)
      refine ⟨r, h1, h2, h3, h4, h5, ?_⟩
      intro v
      rw [h6 v, netOut_congr n _ _ s1 v, pushEdge_netOut n cur last idx c v hk.p_lt hk.v_lt]
      omega

/-- With enough fuel one iteration of the outer loop on 32-bit ints either
reports that the search did not reach the sink, or augments by a positive
amount and keeps the loop invariant, the exact value growing by that amount. -/
theorem augment32_spec {graph back_graph : List (List edge)} {source sink : Nat}
    {cap : Nat → Nat → Int} (hadj : AdjWF graph back_graph)
    (hs : source < graph.length) (hst : source ≠ sink)
    (hcap0 : ∀ u v, 0 ≤ cap u v) (hcapI : ∀ u v, cap u v ≤ INT_MAX)
    (fuel : Nat) (hfuel : 2 * graph.length * INF + 2 ≤ fuel)
    (total : Int) (flows : FlowMap)
    (hinv : FlowInv32 graph.length source sink cap total flows) :
    (∃ r, bfs graph back_graph flows source sink fuel = some r ∧ r.idx ≠ sink ∧
        BfsPost graph back_graph flows source sink r ∧
        augment32 graph back_graph source sink fuel flows = some none) ∨
    (∃ r c flows', bfs graph back_graph flows source sink fuel = some r ∧ r.idx = sink ∧
        BfsPost graph back_graph flows source sink r ∧
        findCfp flows r.lasts fuel sink INF_CAP = some c ∧
        augment32 graph back_graph source sink fuel flows = some (some (c, flows')) ∧
        1 ≤ c ∧ FlowInv32 graph.length source sink cap (total + c) flows') := by
  obtain ⟨r, hr⟩ := bfs_terminates flows source sink hadj fuel hfuel
  have hpost := bfs_post hadj hs hst fuel r hr
  by_cases hidx : r.idx = sink
  · right
    have hlast := hpost.found hidx
    have hminf : r.mins.getD sink INF < fuel := by
      cases hl : r.lasts.getD sink none with
      | none => exact absurd hl hlast
      | some p =>
        have := (hpost.links sink p hl).reached
        have h1 : 1 ≤ graph.length := by omega
        have : 2 * 1 * INF ≤ 2 * graph.length * INF :=
          Nat.mul_le_mul_right _ (Nat.mul_le_mul_left _ h1)
        omega
    obtain ⟨c, hc1, hc2, hc3, hc4⟩ := findCfp_spec hpost.links fuel sink INF_CAP hminf
    have hcpos : 0 < c := hc3 (by unfold INF_CAP; omega)
    obtain ⟨F', hF1, hF2, hF3, hF4, hF5, hF6⟩ :=
      @sendFlow32_spec graph.length source flows r.mins r.lasts cap hpost.links hcap0 hcapI
        c (le_of_lt hcpos) fuel sink flows hminf
        (Or.inr hlast) hc4 (fun _ _ _ _ => rfl) hinv.antisym hinv.resid hinv.le_cap hinv.support
    refine ⟨r, c, F', hr, hidx, hpost, hc1, ?_, by omega, ⟨hF2, hF3, hF4, hF5, ?_, ?_, ?_⟩⟩
    · unfold augment32
      rw [hr]
      simp only [hidx, ne_eq, not_true_eq_false, if_false, hc1, hF1]
    · intro v hv hvs hvt
      rw [hF6 v, hinv.conserve v hv hvs hvt, if_neg hvs, if_neg hvt]
      omega
    · rw [hF6 source, hinv.value, if_pos rfl, if_neg hst]
      omega
    · rw [hF6 sink, hinv.sink_value, if_neg (fun h => hst h.symm), if_pos rfl]
      omega
  · left
    refine ⟨r, hr, hidx, hpost, ?_⟩
    unfold augment32
    rw [hr]
    simp only [ne_eq, hidx, not_false_eq_true, if_true]

theorem FlowInv32.total_le {n s t : Nat} {cap : Nat → Nat → Int} {total : Int}
    {flows : FlowMap} (h : FlowInv32 n s t cap total flows) :
    total ≤ ∑ w in Finset.range n, cap s w := by
  rw [← h.value]
  unfold netOut
  apply Finset.sum_le_sum
  intro w _
  exact h.le_cap s w

/-- An augmentation on 32-bit ints of a map with the loop invariant pushes at
least one unit and keeps the invariant, whatever the fuel it was run with. -/
theorem augment32_step_inv {graph back_graph : List (List edge)} {source sink : Nat}
    {cap : Nat → Nat → Int} (hadj : AdjWF graph back_graph)
    (hs : source < graph.length) (hst : source ≠ sink)
    (hcap0 : ∀ u v, 0 ≤ cap u v) (hcapI : ∀ u v, cap u v ≤ INT_MAX)
    (inner : Nat) (total : Int) (flows : FlowMap)
    (hinv : FlowInv32 graph.length source sink cap total flows)
    (c : Int) (flows' : FlowMap)
    (ha : augment32 graph back_graph source sink inner flows = some (some (c, flows'))) :
    1 ≤ c ∧ FlowInv32 graph.length source sink cap (total + c) flows' := by
  have hbig := augment32_fuel_mono inner (max inner (2 * graph.length * INF + 2)) flows _
    (le_max_left _ _) ha
  rcases augment32_spec hadj hs hst hcap0 hcapI (max inner (2 * graph.length * INF + 2))
      (le_max_right _ _) total flows hinv with
    ⟨_, _, _, _, haug⟩ | ⟨_, c', F'', _, _, _, _, haug, hc, hinv'⟩
  · rw [haug] at hbig; simp at hbig
  · rw [haug] at hbig
    simp only [Option.some.injEq, Prod.mk.injEq] at hbig
    obtain ⟨rfl, rfl⟩ := hbig
    exact ⟨hc, hinv'⟩

/-- The outer loop on 32-bit ints returns once its fuel exceeds the slack
between the capacity leaving the source and the exact value of the flow; what
it returns as total is the wrapped exact value of the returned flow, the
returned state is reached by finitely many augmentations, satisfies the loop
invariant, and the search on it does not reach the sink. -/
theorem mainLoop32_spec {graph back_graph : List (List edge)} {source sink : Nat}
    {cap : Nat → Nat → Int} (hadj : AdjWF graph back_graph)
    (hs : source < graph.length) (hst : source ≠ sink)
    (hcap0 : ∀ u v, 0 ≤ cap u v) (hcapI : ∀ u v, cap u v ≤ INT_MAX)
    (inner : Nat) (hinner : 2 * graph.length * INF + 2 ≤ inner)
    (k : Nat) (total : Int) (flows : FlowMap)
    (hinv : FlowInv32 graph.length source sink cap total flows)
    (hk : (∑ w in Finset.range graph.length, cap source w - total).toNat < k) :
    ∃ total' flows' j r,
      mainLoop32 graph back_graph source sink inner k (wrap32 total) flows
        = some (wrap32 total', flows') ∧
      afterAugmentations32 graph back_graph source sink inner j (wrap32 total, flows)
        = some (wrap32 total', flows') ∧
      total + j ≤ total' ∧
      FlowInv32 graph.length source sink cap total' flows' ∧
      bfs graph back_graph flows' source sink inner = some r ∧ r.idx ≠ sink ∧
      BfsPost graph back_graph flows' source sink r := by
  induction k generalizing total flows with
  | zero => omega
  | succ k ih =>
    rcases augment32_spec hadj hs hst hcap0 hcapI inner hinner total flows hinv with
      ⟨r, hr, hidx, hpost, haug⟩ | ⟨r, c, F', hr, hidx, hpost, hcfp, haug, hc, hinv'⟩
    · refine ⟨total, flows, 0, r, ?_, rfl, by simp, hinv, hr, hidx, hpost⟩
      unfold mainLoop32
      rw [haug]
    · have hle := hinv'.total_le
      obtain ⟨T', F'', j, r', h1, h2, h3, h4, h5, h6, h7⟩ := ih (total + c) F' hinv'
        (by omega)
      have hw : wrap32 (wrap32 total + c) = wrap32 (total + c) := by
        unfold wrap32
        omega
      refine ⟨T', F'', j + 1, r', ?_, ?_, ?_, h4, h5, h6, h7⟩
      · unfold mainLoop32
        rw [haug]
        dsimp only
        rw [hw]
        exact h1
      · unfold afterAugmentations32
        rw [haug]
        dsimp only
        rw [hw]
        exact h2
      · push_cast
        omega

/-- Every state the outer loop on 32-bit ints reaches from a state with the
loop invariant has the invariant for some exact value, of which the stored
total is the wrapped value. -/
theorem afterAugmentations32_inv {graph back_graph : List (List edge)} {source sink : Nat}
    {cap : Nat → Nat → Int} (hadj : AdjWF graph back_graph)
    (hs : source < graph.length) (hst : source ≠ sink)
    (hcap0 : ∀ u v, 0 ≤ cap u v) (hcapI : ∀ u v, cap u v ≤ INT_MAX)
    (inner j : Nat) (total : Int) (flows : FlowMap) (st : Int × FlowMap)
    (hinv : FlowInv32 graph.length source sink cap total flows)
    (h : afterAugmentations32 graph back_graph source sink inner j (wrap32 total, flows)
      = some st) :
    ∃ total', FlowInv32 graph.length source sink cap total' st.2 ∧ st.1 = wrap32 total' ∧
      total + j ≤ total' := by
  induction j generalizing total flows with
  | zero =>
    simp only [afterAugmentations32, Option.some.injEq] at h
    rw [← h]
    exact ⟨total, hinv, rfl, by simp⟩
  | succ j ih =>
    unfold afterAugmentations32 at h
    dsimp only at h
    cases ha : augment32 graph back_graph source sink inner flows with
    | none => rw [ha] at h; simp at h
    | some a =>
      cases a with
      | none => rw [ha] at h; simp at h
      | some cf =>
        obtain ⟨c, F'⟩ := cf
        rw [ha] at h
        dsimp only at h
        obtain ⟨hc, hinv'⟩ :=
          augment32_step_inv hadj hs hst hcap0 hcapI inner total flows hinv c F' ha
        have hw : wrap32 (wrap32 total + c) = wrap32 (total + c) := by
          unfold wrap32
          omega
        rw [hw] at h
        obtain ⟨T', i1, i2, i3⟩ := ih (total + c) F' hinv' h
        refine ⟨T', i1, i2, ?_⟩
        push_cast
        omega

theorem lastCap_le_of_intCaps (graph : List (List edge)) (hint : IntCaps graph) (u v : Nat) :
    lastCap graph u v ≤ INT_MAX := by
  unfold lastCap
  cases h : (edgesTo graph u v).getLast? with
  | none =>
    show (0 : Int) ≤ 2147483647
    omega
  | some e =>
    have hmem : e ∈ edgesTo graph u v := List.mem_of_getLast?_eq_some h
    unfold edgesTo at hmem
    have hmem' := (List.mem_filter.mp hmem).1
    by_cases hu : u < graph.length
    · exact hint _ (getD_mem _ _ _ hu) e hmem'
    · rw [getD_of_le _ _ _ (not_lt.mp hu)] at hmem'
      simp at hmem'

/-- The initialised flow map satisfies the loop invariant on 32-bit ints with
exact value `0`. -/
theorem initFlow_inv32 (graph : List (List edge)) (s t : Nat) (hnn : NonNegCaps graph)
    (hcapI : ∀ u v, lastCap graph u v ≤ INT_MAX) :
    FlowInv32 graph.length s t (lastCap graph) 0 (initFlow graph emptyFlows).2 := by
  have h0 : ∀ v, netOut graph.length (initFlow graph emptyFlows).2 v = 0 := by
    intro v
    unfold netOut
    apply Finset.sum_eq_zero
    intro w _
    rw [initFlow_eq]
  refine ⟨?_, ?_, ?_, ?_, fun v _ _ _ => h0 v, h0 s, by rw [h0 t]; rfl⟩
  · intro u v; rw [initFlow_eq, initFlow_eq]; rfl
  · intro u v
    rw [initFlow_eq]
    have h1 := lastCap_nonneg graph hnn u v
    have h2 := hcapI u v
    unfold INT_MAX at h2
    simp only [sub_zero]
    rw [wrap32_eq _ (by omega) (by omega)]
  · intro u v; rw [initFlow_eq]; exact lastCap_nonneg graph hnn u v
  · intro u v _; rw [initFlow_eq]

/-- `MaxFlow` on 32-bit ints, called with an empty flow map on a well-formed
graph of non-negative capacities that are values of `int`: with enough fuel it
returns; the total
it returns is the wrapped exact value of the flow map it returns, which is
reached by finitely many augmentations from the initialised map, satisfies the
loop invariant, and on which the last search ends without reaching the sink. -/
theorem MaxFlow32_spec (graph : List (List edge)) (s t : Nat)
    (hwf : GraphWF graph) (hnn : NonNegCaps graph)
    (hcapI : ∀ u v, lastCap graph u v ≤ INT_MAX)
    (hs : s < graph.length) (hst : s ≠ t) :
    ∃ total flows' j r,
      (∀ fuel, fuelBound graph s ≤ fuel →
        MaxFlow32 graph s t emptyFlows fuel = some (wrap32 total, flows')) ∧
      afterAugmentations32 graph (initFlow graph emptyFlows).1 s t (fuelBound graph s) j
        (0, (initFlow graph emptyFlows).2) = some (wrap32 total, flows') ∧
      0 ≤ total ∧
      FlowInv32 graph.length s t (lastCap graph) total flows' ∧
      bfs graph (initFlow graph emptyFlows).1 flows' s t (fuelBound graph s) = some r ∧
      r.idx ≠ t ∧ BfsPost graph (initFlow graph emptyFlows).1 flows' s t r := by
  have hadj := initFlow_adjWF graph emptyFlows hwf
  have hinv := initFlow_inv32 graph s t hnn hcapI
  have hw0 : wrap32 0 = 0 := by decide
  obtain ⟨T, F', j, r, h1, h2, h3, h4, h5, h6, h7⟩ :=
    mainLoop32_spec hadj hs hst (lastCap_nonneg graph hnn) hcapI
      (fuelBound graph s) (by unfold fuelBound; omega)
      (fuelBound graph s) 0 _ hinv (by unfold fuelBound; simp only [sub_zero]; omega)
  rw [hw0] at h1 h2
  refine ⟨T, F', j, r, ?_, h2, by omega, h4, h5, h6, h7⟩
  intro fuel hfuel
  exact MaxFlow32_fuel_mono graph s t emptyFlows (fuelBound graph s) fuel _ hfuel h1


theorem lastCap_le_of_pairsFit (graph : List (List edge)) (hwf : GraphWF graph)
    (hnn : NonNegCaps graph) (hfit : PairsFit graph) (u v : Nat) :
    lastCap graph u v ≤ INT_MAX := by
  have h1 := hfit.all hwf u v
  have h2 := lastCap_nonneg graph hnn v u
  omega

/-! ## Consequences of the loop invariant on 32-bit ints -/

/-- Under the loop invariant on 32-bit ints, when the two capacities of every
pair sum to at most `2147483647`, no residual entry has wrapped: it is the
exact difference of capacity and flow, it is non-negative, and the two
residual entries of a pair sum to the two capacities of the pair. -/
theorem FlowInv32.exact {n s t : Nat} {cap : Nat → Nat → Int} {total : Int} {flows : FlowMap}
    (h : FlowInv32 n s t cap total flows) (hcap0 : ∀ u v, 0 ≤ cap u v)
    (hpair : ∀ u v, cap u v + cap v u ≤ INT_MAX) (u v : Nat) :
    (flows u v).c_f = cap u v - (flows u v).flow ∧ 0 ≤ (flows u v).c_f ∧
      (flows u v).c_f + (flows v u).c_f = cap u v + cap v u := by
  have r1 := h.resid u v
  have r2 := h.resid v u
  have a1 := h.antisym u v
  have l1 := h.le_cap u v
  have l2 := h.le_cap v u
  have c1 := hcap0 u v
  have c2 := hcap0 v u
  have p1 := hpair u v
  unfold INT_MAX at p1
  unfold wrap32 at r1 r2
  omega

/-- Under the loop invariant on 32-bit ints a pair with positive stored
residual capacity is joined by an edge of the graph in one of the two
directions, so the search looks at it. -/
theorem residual_adjacent32 {graph : List (List edge)} {s t : Nat} {total : Int}
    {flows : FlowMap} (hwf : GraphWF graph) (hnn : NonNegCaps graph)
    (hinv : FlowInv32 graph.length s t (lastCap graph) total flows) (u v : Nat)
    (h : 0 < (flows u v).c_f) :
    ∃ e ∈ graph.getD u [] ++ (initFlow graph emptyFlows).1.getD u [], e.to_ = v := by
  by_cases hA : ∃ e ∈ graph.getD u [], e.to_ = v
  · obtain ⟨e, he, hev⟩ := hA
    exact ⟨e, List.mem_append_left _ he, hev⟩
  · have hcap : lastCap graph u v = 0 :=
      lastCap_eq_zero_of_no_edge graph u v (fun e he hev => hA ⟨e, he, hev⟩)
    have h1 := hinv.resid u v
    have h2 := hinv.antisym u v
    have h3 := hinv.le_cap u v
    have h4 := hinv.le_cap v u
    have h5 := lastCap_nonneg graph hnn v u
    have hpos : 0 < lastCap graph v u := by
      by_contra hno
      have h0 : (flows u v).flow = 0 := by omega
      rw [hcap, h0] at h1
      have hw : wrap32 (0 - 0) = 0 := by decide
      rw [hw] at h1
      omega
    have hB : ∃ e ∈ graph.getD v [], e.to_ = u := by
      by_contra hno
      have := lastCap_eq_zero_of_no_edge graph v u (fun e he hev => hno ⟨e, he, hev⟩)
      omega
    obtain ⟨e, he, hev⟩ := hB
    have hvlt : v < graph.length := by
      by_contra hge
      rw [getD_of_le _ _ _ (not_lt.mp hge)] at he
      simp at he
    have hmem := initFlow_back_mem graph emptyFlows hwf v hvlt e he
    rw [hev] at hmem
    exact ⟨⟨v, 0⟩, List.mem_append_right _ hmem, rfl⟩

/-- After a failed search every sequence of pairs with positive stored residual
capacity that starts in the reached set stays in the reached set, provided
such pairs are joined by an edge the search looks at. -/
theorem residual_path_stays_of {graph back_graph : List (List edge)} {s t : Nat}
    {flows : FlowMap} {r : SearchResult} (hN : graph.length < INF)
    (hadjc : ∀ a b, 0 < (flows a b).c_f →
      ∃ e ∈ graph.getD a [] ++ back_graph.getD a [], e.to_ = b)
    (hpost : BfsPost graph back_graph flows s t r) (hidx : r.idx ≠ t)
    (path : List Nat) (hpath : IsResidualPath flows path) (u : Nat)
    (hu : path.head? = some u) (hreach : reachedSet r u = true) :
    ∀ v ∈ path, reachedSet r v = true := by
  induction path generalizing u with
  | nil => intro v hv; simp at hv
  | cons a rest ih =>
    simp only [List.head?_cons, Option.some.injEq] at hu
    subst hu
    intro v hv
    rcases List.mem_cons.mp hv with rfl | hv'
    · exact hreach
    · cases rest with
      | nil => simp at hv'
      | cons b rest' =>
        unfold IsResidualPath at hpath
        rw [List.chain'_cons] at hpath
        have hb : reachedSet r b = true := by
          unfold reachedSet at hreach ⊢
          simp only [decide_eq_true_eq] at hreach ⊢
          obtain ⟨e, he, heb⟩ := hadjc a b hpath.1
          have hlt := hpost.level_lt a hreach
          rcases (hpost.closed hidx a hreach).2 e he with h1 | h1
          · rw [heb] at h1; omega
          · rw [heb] at h1
            have := hpath.1
            omega
        exact ih hpath.2 b rfl hb v hv'

/-- On a graph with fewer than `999999999` vertices, a map with the loop
invariant on 32-bit ints on which a search fails has no sequence of pairs with
positive stored residual capacity from source to sink. -/
theorem no_path_of_failed_search32 {graph : List (List edge)} {s t : Nat} {total : Int}
    {flows : FlowMap} {r : SearchResult} (hwf : GraphWF graph) (hnn : NonNegCaps graph)
    (hN : graph.length < INF)
    (hinv : FlowInv32 graph.length s t (lastCap graph) total flows)
    (hpost : BfsPost graph (initFlow graph emptyFlows).1 flows s t r) (hidx : r.idx ≠ t) :
    ¬ ∃ path : List Nat, path.head? = some s ∧ path.getLast? = some t ∧
        IsResidualPath flows path := by
  rintro ⟨path, hhead, hlast, hpath⟩
  have hsrc : reachedSet r s = true := by
    unfold reachedSet
    rw [hpost.src_min]
    simp [INF]
  have hall := residual_path_stays_of hN (residual_adjacent32 hwf hnn hinv) hpost hidx path
    hpath s hhead hsrc
  have ht := hall t (List.mem_of_getLast?_eq_some hlast)
  unfold reachedSet at ht
  simp only [decide_eq_true_eq] at ht
  exact (hpost.closed hidx t ht).1 rfl

/-- A path graph whose capacities are non-negative values of `int` satisfies
`NoOverflow` from its first vertex. -/
theorem pathGraph_noOverflow (caps : List Int) (hnn : ∀ c ∈ caps, 0 ≤ c)
    (hint : ∀ c ∈ caps, c ≤ INT_MAX) : NoOverflow (pathGraph caps) 0 := by
  have hget : ∀ i, 0 ≤ caps.getD i 0 ∧ caps.getD i 0 ≤ INT_MAX := by
    intro i
    by_cases hi : i < caps.length
    · exact ⟨hnn _ (getD_mem _ _ _ hi), hint _ (getD_mem _ _ _ hi)⟩
    · rw [getD_of_le _ _ _ (not_lt.mp hi)]
      unfold INT_MAX
      omega
  constructor
  · intro u _ v _
    rw [pathGraph_lastCap, pathGraph_lastCap]
    have h1 := hget u
    have h2 := hget v
    unfold INT_MAX at h1 h2 ⊢
    by_cases hA : u < caps.length ∧ v = u + 1
    · have hB : ¬ (v < caps.length ∧ u = v + 1) := by omega
      rw [if_pos hA, if_neg hB]
      omega
    · rw [if_neg hA]
      by_cases hB : v < caps.length ∧ u = v + 1
      · rw [if_pos hB]
        omega
      · rw [if_neg hB]
        omega
  · unfold SourceFits
    rw [← sum_range_eq_list]
    have h0 := hget 0
    have hle : ∀ w ∈ Finset.range (pathGraph caps).length, w ≠ 1 →
        lastCap (pathGraph caps) 0 w = 0 := by
      intro w _ hw
      rw [pathGraph_lastCap]
      have : ¬ (0 < caps.length ∧ w = 0 + 1) := by omega
      rw [if_neg this]
    by_cases h1 : 1 ∈ Finset.range (pathGraph caps).length
    · rw [Finset.sum_eq_single_of_mem 1 h1 hle, pathGraph_lastCap]
      unfold INT_MAX at h0 ⊢
      split <;> omega
    · rw [Finset.sum_eq_zero]
      · unfold INT_MAX
        omega
      · intro w hw
        exact hle w hw (fun h => h1 (h ▸ hw))

/-- On the graph `wrappedResidualGraph` the solver over the integers returns
`300000000`, the minimum cut capacity and the maximum flow value of the graph. -/
theorem wrappedResidual_exact :
    MaxFlowValue wrappedResidualGraph 0 3 100 = some 300000000 ∧
    IsMinCutValue wrappedResidualGraph 0 3 300000000 ∧
    IsMaxFlowValue wrappedResidualGraph 0 3 300000000 := by
  have hv : MaxFlowValue wrappedResidualGraph 0 3 100 = some 300000000 := by decide
  obtain ⟨mf, F', h1, h2, h3⟩ := MaxFlow_optimal wrappedResidualGraph 0 3 (by decide)
    (by decide) (by decide) (by decide) (by decide)
  have hmf := MaxFlowValue_of_MaxFlow wrappedResidualGraph 0 3 _ mf F'
    (h1 (fuelBound wrappedResidualGraph 0) (le_refl _))
  have hEq : mf = 300000000 := MaxFlowValue_unique wrappedResidualGraph 0 3 _ 100 mf _ hmf hv
  rw [hEq] at h2 h3
  exact ⟨hv, isMinCutValue_of_lastCap wrappedResidualGraph (by decide) 0 3 _ h2,
    isMaxFlowValue_of_lastCap wrappedResidualGraph (by decide) 0 3 _ h3⟩

theorem isMinCutOf_unique {cap : Nat → Nat → Int} {n s t : Nat} {a b : Int}
    (ha : IsMinCutOf cap n s t a) (hb : IsMinCutOf cap n s t b) : a = b := by
  obtain ⟨⟨S, hS, hT, hSa⟩, ha2⟩ := ha
  obtain ⟨⟨S', hS', hT', hSb⟩, hb2⟩ := hb
  have h1 := ha2 S' hS' hT'
  have h2 := hb2 S hS hT
  omega

theorem isMaxFlowValue_unique {graph : List (List edge)} {s t : Nat} {a b : Int}
    (ha : IsMaxFlowValue graph s t a) (hb : IsMaxFlowValue graph s t b) : a = b := by
  obtain ⟨⟨f, hf, hfa⟩, ha2⟩ := ha
  obtain ⟨⟨g, hg, hgb⟩, hb2⟩ := hb
  have h1 := ha2 g hg
  have h2 := hb2 f hf
  omega

/-- On the graph of two disjoint paths with every capacity `2000000000` the
solver over the integers returns `4000000000`, the minimum cut capacity and
the maximum flow value of the graph. -/
theorem twoBigPaths_exact :
    MaxFlowValue twoBigPathsGraph 0 3 100 = some 4000000000 ∧
    IsMinCutValue twoBigPathsGraph 0 3 4000000000 ∧
    IsMaxFlowValue twoBigPathsGraph 0 3 4000000000 := by
  have hv : MaxFlowValue twoBigPathsGraph 0 3 100 = some 4000000000 := by decide
  obtain ⟨mf, F', h1, h2, h3⟩ := MaxFlow_optimal twoBigPathsGraph 0 3 (by decide) (by decide)
    (by decide) (by decide) (by decide)
  have hmf := MaxFlowValue_of_MaxFlow twoBigPathsGraph 0 3 _ mf F'
    (h1 (fuelBound twoBigPathsGraph 0) (le_refl _))
  have hEq : mf = 4000000000 := MaxFlowValue_unique twoBigPathsGraph 0 3 _ 100 mf _ hmf hv
  rw [hEq] at h2 h3
  exact ⟨hv, isMinCutValue_of_lastCap twoBigPathsGraph (by decide) 0 3 _ h2,
    isMaxFlowValue_of_lastCap twoBigPathsGraph (by decide) 0 3 _ h3⟩

/-- On the path of `999999999` unit edges a flow of value `1` exists, so `0`
is neither the maximum flow value nor the capacity of a separating cut. -/
theorem longPath_not_zero :
    ¬ IsMaxFlowValue (pathGraph longPathCaps) 0 999999999 0 ∧
    ¬ IsMinCutValue (pathGraph longPathCaps) 0 999999999 0 := by
  have hcap : capOf (pathGraph longPathCaps) = lastCap (pathGraph longPathCaps) := by
    funext u v
    exact capOf_eq_lastCap _ (pathGraph_noParallel longPathCaps) u v
  obtain ⟨f1, f2⟩ := pathGraph_flow longPathCaps 1 (by omega)
    (by rw [longPathCaps_length]; omega)
    (by
      intro j hj
      rw [longPathCaps_length] at hj
      rw [longPathCaps_getD j hj])
  rw [longPathCaps_length] at f1 f2
  constructor
  · intro h
    unfold IsMaxFlowValue IsFeasibleFlow flowValue at h
    rw [hcap, pathGraph_length, longPathCaps_length] at h
    have := h.2 _ f1
    rw [f2] at this
    omega
  · intro h
    unfold IsMinCutValue at h
    rw [hcap, pathGraph_length, longPathCaps_length] at h
    obtain ⟨⟨S, hS, hT, hval⟩, _⟩ := h
    have := weak_duality _ _ 0 999999999 _ S (by omega) hS hT f1
    rw [f2, hval] at this
    omega

/-! ## Optimality on 32-bit ints -/

/-- C1 (as stated, refuted), at four inputs with non-negative capacities.
(1) On the graph with two parallel unit edges `0 → 1` the solver returns `1`
while every cut separating `0` from `1` has capacity `2`.
(2) On the graph of two disjoint paths `0 → 1 → 3` and `0 → 2 → 3` with every
capacity `2000000000` the `int` total wraps: the solver returns `-294967296`
while the minimum cut capacity is `4000000000`.
(3) On `wrappedResidualGraph` the first augmentation sends `200000000` along
`0 → 1 → 2 → 3`, the residual `flows[2][1].c_f = 2000000000 + 200000000` wraps
to a negative `int`, the path `0 → 4 → 2 → 1 → 5 → 3` is not found, and the
solver returns `200000000` while the minimum cut capacity is `300000000`.
(4) On the path of `999999999` unit edges the last vertex is as far from the
source as the sentinel `999999999` and is never taken: the solver returns `0`,
which is not the capacity of any separating cut.
At none of these inputs does any fuel make `MaxFlow` return the minimum cut
capacity. -/
theorem maxFlow32_not_minCut :
    (NonNegCaps parallelGraph ∧ MaxFlowValue32 parallelGraph 0 1 100 = some 1 ∧
      (∀ S : Nat → Bool, S 0 = true → S 1 = false → cutCapacity parallelGraph S = 2) ∧
      ¬ ∃ fuel mf, MaxFlowValue32 parallelGraph 0 1 fuel = some mf ∧
          IsMinCutValue parallelGraph 0 1 mf) ∧
    (NonNegCaps twoBigPathsGraph ∧ NoParallel twoBigPathsGraph ∧
      PairsFit twoBigPathsGraph ∧ ¬ SourceFits twoBigPathsGraph 0 ∧
      MaxFlowValue32 twoBigPathsGraph 0 3 100 = some (-294967296) ∧
      IsMinCutValue twoBigPathsGraph 0 3 4000000000 ∧
      ¬ ∃ fuel mf, MaxFlowValue32 twoBigPathsGraph 0 3 fuel = some mf ∧
          IsMinCutValue twoBigPathsGraph 0 3 mf) ∧
    (NonNegCaps wrappedResidualGraph ∧ NoParallel wrappedResidualGraph ∧
      SourceFits wrappedResidualGraph 0 ∧ ¬ PairsFit wrappedResidualGraph ∧
      MaxFlowValue32 wrappedResidualGraph 0 3 100 = some 200000000 ∧
      IsMinCutValue wrappedResidualGraph 0 3 300000000 ∧
      ¬ ∃ fuel mf, MaxFlowValue32 wrappedResidualGraph 0 3 fuel = some mf ∧
          IsMinCutValue wrappedResidualGraph 0 3 mf) ∧
    (NonNegCaps (pathGraph longPathCaps) ∧ NoParallel (pathGraph longPathCaps) ∧
      NoOverflow (pathGraph longPathCaps) 0 ∧
      (∀ fuel, 2 * (pathGraph longPathCaps).length * INF + 2 ≤ fuel →
        MaxFlowValue32 (pathGraph longPathCaps) 0 999999999 fuel = some 0) ∧
      ¬ ∃ fuel mf, MaxFlowValue32 (pathGraph longPathCaps) 0 999999999 fuel = some mf ∧
          IsMinCutValue (pathGraph longPathCaps) 0 999999999 mf) := by
  have h1 : MaxFlowValue32 parallelGraph 0 1 100 = some 1 := by decide
  have h2 : ∀ S : Nat → Bool, S 0 = true → S 1 = false → cutCapacity parallelGraph S = 2 := by
    intro S hS hT
    have hlen : parallelGraph.length = 2 := rfl
    have hcap : capOf parallelGraph 0 1 = 2 := by decide
    unfold cutCapacity cutCapacityOf
    rw [hlen]
    simp [Finset.sum_range_succ, hS, hT, hcap]
  have h3 : MaxFlowValue32 twoBigPathsGraph 0 3 100 = some (-294967296) := by decide
  have h4 := twoBigPaths_exact.2.1
  have h5 : MaxFlowValue32 wrappedResidualGraph 0 3 100 = some 200000000 := by decide
  have h6 := wrappedResidual_exact.2.1
  have h7 : ∀ fuel, 2 * (pathGraph longPathCaps).length * INF + 2 ≤ fuel →
      MaxFlowValue32 (pathGraph longPathCaps) 0 999999999 fuel = some 0 :=
    fun fuel hf => MaxFlowValue32_of_MaxFlow32 _ _ _ fuel 0 _ (longPath_result fuel hf).2
  have hone : ∀ c ∈ longPathCaps, c = 1 := fun c hc => List.eq_of_mem_replicate hc
  refine ⟨⟨by decide, h1, h2, ?_⟩, ⟨by decide, by decide, by decide, by decide, h3, h4, ?_⟩,
    ⟨by decide, by decide, by decide, by decide, h5, h6, ?_⟩,
    ⟨pathGraph_nonneg _ (fun c hc => by rw [hone c hc]; omega), pathGraph_noParallel _,
      pathGraph_noOverflow _ (fun c hc => by rw [hone c hc]; omega)
        (fun c hc => by rw [hone c hc]; unfold INT_MAX; omega), h7, ?_⟩⟩
  · rintro ⟨fuel, mf, hmf, hcut⟩
    have hmf1 : mf = 1 := MaxFlowValue32_unique parallelGraph 0 1 fuel 100 mf 1 hmf h1
    obtain ⟨⟨S, hS, hT, hval⟩, _⟩ := hcut
    have := h2 S hS hT
    unfold cutCapacity at this
    rw [this, hmf1] at hval
    omega
  · rintro ⟨fuel, mf, hmf, hcut⟩
    have hmf1 : mf = -294967296 :=
      MaxFlowValue32_unique twoBigPathsGraph 0 3 fuel 100 mf _ hmf h3
    have := isMinCutOf_unique hcut h4
    omega
  · rintro ⟨fuel, mf, hmf, hcut⟩
    have hmf1 : mf = 200000000 :=
      MaxFlowValue32_unique wrappedResidualGraph 0 3 fuel 100 mf _ hmf h5
    have := isMinCutOf_unique hcut h6
    omega
  · rintro ⟨fuel, mf, hmf, hcut⟩
    have hmf0 : mf = 0 := MaxFlowValue32_unique _ 0 999999999 fuel _ mf 0 hmf (h7 _ (le_refl _))
    rw [hmf0] at hcut
    exact longPath_not_zero.2 hcut

/-- C1 (amended): for every well-formed graph with non-negative capacities,
fewer than `999999999` vertices and capacities small enough that no `int`
overflows (`NoOverflow`: the two capacities of every pair, and the capacities
leaving the source, sum to at most `2147483647`), and distinct source and
sink, `MaxFlow` on 32-bit ints returns the minimum capacity of a separating
cut in which each ordered pair counts with its last-listed edge; when no two
edges share an ordered pair this is the minimum cut capacity of the graph. -/
theorem maxFlow32_eq_minCut (graph : List (List edge)) (s t : Nat)
    (hwf : GraphWF graph) (hnn : NonNegCaps graph) (hN : graph.length < INF)
    (hs : s < graph.length) (hst : s ≠ t) (hfit : NoOverflow graph s) :
    ∃ mf, (∀ fuel, fuelBound graph s ≤ fuel → MaxFlowValue32 graph s t fuel = some mf) ∧
      IsMinCutOf (lastCap graph) graph.length s t mf ∧
      (NoParallel graph → IsMinCutValue graph s t mf) := by
  obtain ⟨mf, F', h1, h2, _⟩ := MaxFlow_optimal graph s t hwf hnn hN hs hst
  refine ⟨mf, ?_, h2, fun hnp => isMinCutValue_of_lastCap graph hnp s t mf h2⟩
  intro fuel hf
  rw [MaxFlowValue32_eq_MaxFlowValue graph s t hwf hnn hs hst hfit fuel]
  exact MaxFlowValue_of_MaxFlow graph s t fuel mf F' (h1 fuel hf)

/-- Witness for C1 (amended) on Scenario A. -/
theorem maxFlow32_eq_minCut_witness :
    ∃ mf, (∀ fuel, fuelBound scenarioA 0 ≤ fuel → MaxFlowValue32 scenarioA 0 2 fuel = some mf) ∧
      IsMinCutOf (lastCap scenarioA) scenarioA.length 0 2 mf ∧
      (NoParallel scenarioA → IsMinCutValue scenarioA 0 2 mf) :=
  maxFlow32_eq_minCut scenarioA 0 2 (by decide) (by decide) (by decide) (by decide) (by decide)
    (by decide)

/-- C2 (as stated, refuted), at three inputs without parallel edges and with
non-negative capacities.
(1) On the graph of two disjoint paths with every capacity `2000000000` the
`int` total wraps: the solver returns `-294967296` while the maximum flow
value is `4000000000`.
(2) On `wrappedResidualGraph` the residual `flows[2][1].c_f` wraps to a
negative `int` after the first augmentation and the solver returns
`200000000` while the maximum flow value is `300000000`.
(3) On the path of `999999999` unit edges the last vertex is as far from the
source as the sentinel `999999999` and is never taken: the solver returns `0`
while a flow of value `1` exists. -/
theorem maxFlow32_not_maxFlowValue :
    (GraphWF twoBigPathsGraph ∧ NoParallel twoBigPathsGraph ∧ NonNegCaps twoBigPathsGraph ∧
      PairsFit twoBigPathsGraph ∧ ¬ SourceFits twoBigPathsGraph 0 ∧
      MaxFlowValue32 twoBigPathsGraph 0 3 100 = some (-294967296) ∧
      IsMaxFlowValue twoBigPathsGraph 0 3 4000000000 ∧
      ¬ ∃ fuel mf, MaxFlowValue32 twoBigPathsGraph 0 3 fuel = some mf ∧
          IsMaxFlowValue twoBigPathsGraph 0 3 mf) ∧
    (GraphWF wrappedResidualGraph ∧ NoParallel wrappedResidualGraph ∧
      NonNegCaps wrappedResidualGraph ∧ SourceFits wrappedResidualGraph 0 ∧
      ¬ PairsFit wrappedResidualGraph ∧
      MaxFlowValue32 wrappedResidualGraph 0 3 100 = some 200000000 ∧
      IsMaxFlowValue wrappedResidualGraph 0 3 300000000 ∧
      ¬ ∃ fuel mf, MaxFlowValue32 wrappedResidualGraph 0 3 fuel = some mf ∧
          IsMaxFlowValue wrappedResidualGraph 0 3 mf) ∧
    (GraphWF (pathGraph longPathCaps) ∧ NoParallel (pathGraph longPathCaps) ∧
      NonNegCaps (pathGraph longPathCaps) ∧ NoOverflow (pathGraph longPathCaps) 0 ∧
      (∀ fuel, 2 * (pathGraph longPathCaps).length * INF + 2 ≤ fuel →
        MaxFlowValue32 (pathGraph longPathCaps) 0 999999999 fuel = some 0) ∧
      ¬ IsMaxFlowValue (pathGraph longPathCaps) 0 999999999 0 ∧
      ¬ ∃ fuel mf, MaxFlowValue32 (pathGraph longPathCaps) 0 999999999 fuel = some mf ∧
          IsMaxFlowValue (pathGraph longPathCaps) 0 999999999 mf) := by
  have h3 : MaxFlowValue32 twoBigPathsGraph 0 3 100 = some (-294967296) := by decide
  have h4 := twoBigPaths_exact.2.2
  have h5 : MaxFlowValue32 wrappedResidualGraph 0 3 100 = some 200000000 := by decide
  have h6 := wrappedResidual_exact.2.2
  have h7 : ∀ fuel, 2 * (pathGraph longPathCaps).length * INF + 2 ≤ fuel →
      MaxFlowValue32 (pathGraph longPathCaps) 0 999999999 fuel = some 0 :=
    fun fuel hf => MaxFlowValue32_of_MaxFlow32 _ _ _ fuel 0 _ (longPath_result fuel hf).2
  have hone : ∀ c ∈ longPathCaps, c = 1 := fun c hc => List.eq_of_mem_replicate hc
  refine ⟨⟨by decide, by decide, by decide, by decide, by decide, h3, h4, ?_⟩,
    ⟨by decide, by decide, by decide, by decide, by decide, h5, h6, ?_⟩,
    ⟨pathGraph_wf _, pathGraph_noParallel _,
      pathGraph_nonneg _ (fun c hc => by rw [hone c hc]; omega),
      pathGraph_noOverflow _ (fun c hc => by rw [hone c hc]; omega)
        (fun c hc => by rw [hone c hc]; unfold INT_MAX; omega),
      h7, longPath_not_zero.1, ?_⟩⟩
  · rintro ⟨fuel, mf, hmf, hmax⟩
    have hmf1 : mf = -294967296 :=
      MaxFlowValue32_unique twoBigPathsGraph 0 3 fuel 100 mf _ hmf h3
    have := isMaxFlowValue_unique hmax h4
    omega
  · rintro ⟨fuel, mf, hmf, hmax⟩
    have hmf1 : mf = 200000000 :=
      MaxFlowValue32_unique wrappedResidualGraph 0 3 fuel 100 mf _ hmf h5
    have := isMaxFlowValue_unique hmax h6
    omega
  · rintro ⟨fuel, mf, hmf, hmax⟩
    have hmf0 : mf = 0 := MaxFlowValue32_unique _ 0 999999999 fuel _ mf 0 hmf (h7 _ (le_refl _))
    rw [hmf0] at hmax
    exact longPath_not_zero.1 hmax

/-- C2 (amended): for every well-formed graph in which no two edges share an
ordered pair, with non-negative capacities, fewer than `999999999` vertices,
capacities small enough that no `int` overflows (`NoOverflow`: the two
capacities of every pair, and the capacities leaving the source, sum to at
most `2147483647`) and distinct source and sink, `MaxFlow` on 32-bit ints
returns the maximum value of a feasible source-to-sink flow. -/
theorem maxFlow32_eq_maxFlowValue (graph : List (List edge)) (s t : Nat)
    (hwf : GraphWF graph) (hnp : NoParallel graph) (hnn : NonNegCaps graph)
    (hN : graph.length < INF) (hs : s < graph.length) (hst : s ≠ t)
    (hfit : NoOverflow graph s) :
    ∃ mf, (∀ fuel, fuelBound graph s ≤ fuel → MaxFlowValue32 graph s t fuel = some mf) ∧
      IsMaxFlowValue graph s t mf := by
  obtain ⟨mf, F', h1, _, h3⟩ := MaxFlow_optimal graph s t hwf hnn hN hs hst
  refine ⟨mf, ?_, isMaxFlowValue_of_lastCap graph hnp s t mf h3⟩
  intro fuel hf
  rw [MaxFlowValue32_eq_MaxFlowValue graph s t hwf hnn hs hst hfit fuel]
  exact MaxFlowValue_of_MaxFlow graph s t fuel mf F' (h1 fuel hf)

/-- Witness for C2 (amended) on the self-test graph of 563.cpp. -/
theorem maxFlow32_eq_maxFlowValue_witness :
    ∃ mf, (∀ fuel, fuelBound selfTestGraph 0 ≤ fuel →
        MaxFlowValue32 selfTestGraph 0 6 fuel = some mf) ∧
      IsMaxFlowValue selfTestGraph 0 6 mf :=
  maxFlow32_eq_maxFlowValue selfTestGraph 0 6 (by decide) (by decide) (by decide) (by decide)
    (by decide) (by decide) (by decide)

/-! ## The sentinel limits the length of a path -/

/-- C9 (as stated, refuted): for `n = 999999999` and capacities `c_i = 1`, on
the path graph `0 → 1 → ... → n` the solver (over the integers and on 32-bit
ints alike) returns `0`, which is not the minimum `1` of the capacities: the
vertex `n` is as many hops from the source as the sentinel `999999999` that
marks a vertex as not reached, and is never taken. -/
theorem longPath_maxFlow_zero :
    longPathCaps.length = 999999999 ∧ (∀ c ∈ longPathCaps, c = 1) ∧
    (∀ fuel, 2 * (pathGraph longPathCaps).length * INF + 2 ≤ fuel →
      MaxFlowValue (pathGraph longPathCaps) 0 longPathCaps.length fuel = some 0 ∧
      MaxFlowValue32 (pathGraph longPathCaps) 0 longPathCaps.length fuel = some 0) ∧
    ¬ ∃ fuel m, m ∈ longPathCaps ∧
        (MaxFlowValue (pathGraph longPathCaps) 0 longPathCaps.length fuel = some m ∨
          MaxFlowValue32 (pathGraph longPathCaps) 0 longPathCaps.length fuel = some m) := by
  have hval : ∀ fuel, 2 * (pathGraph longPathCaps).length * INF + 2 ≤ fuel →
      MaxFlowValue (pathGraph longPathCaps) 0 longPathCaps.length fuel = some 0 ∧
      MaxFlowValue32 (pathGraph longPathCaps) 0 longPathCaps.length fuel = some 0 := by
    intro fuel hf
    rw [longPathCaps_length]
    exact ⟨MaxFlowValue_of_MaxFlow _ _ _ fuel 0 _ (longPath_result fuel hf).1,
      MaxFlowValue32_of_MaxFlow32 _ _ _ fuel 0 _ (longPath_result fuel hf).2⟩
  have hone : ∀ c ∈ longPathCaps, c = 1 := fun c hc => List.eq_of_mem_replicate hc
  refine ⟨longPathCaps_length, hone, hval, ?_⟩
  rintro ⟨fuel, m, hm, hmf | hmf⟩
  · have h0 := (hval _ (le_refl _)).1
    have := MaxFlowValue_unique _ _ _ _ _ _ _ hmf h0
    have := hone m hm
    omega
  · have h0 := (hval _ (le_refl _)).2
    have := MaxFlowValue32_unique _ _ _ _ _ _ _ hmf h0
    have := hone m hm
    omega

/-- C9 (amended): for every non-empty list of non-negative capacities
`c_1..c_n` with `n + 1 < 999999999` (the sentinel for "not reached"), on the
path graph `0 → 1 → ... → n` whose `i`-th edge has capacity `c_i`,
`MaxFlow(0, n)` returns the minimum of the capacities: the solver over the
integers does, and so does the solver on 32-bit ints when the capacities are
values of `int`. -/
theorem pathGraph_maxFlow_min (caps : List Int) (hne : caps ≠ []) (hnn : ∀ c ∈ caps, 0 ≤ c)
    (hN : caps.length + 1 < INF) :
    ∃ m, m ∈ caps ∧ (∀ c ∈ caps, m ≤ c) ∧
      (∀ fuel, fuelBound (pathGraph caps) 0 ≤ fuel →
        MaxFlowValue (pathGraph caps) 0 caps.length fuel = some m) ∧
      ((∀ c ∈ caps, c ≤ INT_MAX) → ∀ fuel, fuelBound (pathGraph caps) 0 ≤ fuel →
        MaxFlowValue32 (pathGraph caps) 0 caps.length fuel = some m) := by
  obtain ⟨m, hm, hmin, h⟩ := pathGraph_maxFlow caps hne hnn hN
  refine ⟨m, hm, hmin, h, ?_⟩
  intro hint fuel hf
  have hn : 0 < caps.length := List.length_pos.mpr hne
  rw [MaxFlowValue32_eq_MaxFlowValue (pathGraph caps) 0 caps.length (pathGraph_wf caps)
    (pathGraph_nonneg caps hnn) (by rw [pathGraph_length]; omega) (by omega)
    (pathGraph_noOverflow caps hnn hint) fuel]
  exact h fuel hf

/-- Witness for C9 (amended), Scenario A: edges `0 → 1` of capacity `5` and
`1 → 2` of capacity `3` give `MaxFlow(0, 2) = 3`. -/
theorem pathGraph_maxFlow_min_witness :
    pathGraph [5, 3] = scenarioA ∧
    ∀ fuel, fuelBound (pathGraph [5, 3]) 0 ≤ fuel →
      MaxFlowValue (pathGraph [5, 3]) 0 2 fuel = some 3 ∧
      MaxFlowValue32 (pathGraph [5, 3]) 0 2 fuel = some 3 := by
  refine ⟨by decide, ?_⟩
  obtain ⟨m, hm, hmin, h, h32⟩ := pathGraph_maxFlow_min [5, 3] (by decide) (by decide) (by decide)
  have h3 : m = 3 := by
    have := hmin 3 (by decide)
    simp only [List.mem_cons, List.mem_singleton, List.not_mem_nil, or_false] at hm
    rcases hm with rfl | rfl
    · omega
    · rfl
  rw [h3] at h h32
  exact fun fuel hf => ⟨h fuel hf, h32 (by decide) fuel hf⟩

/-- In the initialised flow map of a path graph with positive capacities the
whole path is a sequence from the first to the last vertex with positive
residual capacity between consecutive vertices. -/
theorem pathGraph_has_residual_path (caps : List Int)
    (hpos : ∀ i, i < caps.length → 0 < caps.getD i 0) :
    ∃ path : List Nat, path.head? = some 0 ∧ path.getLast? = some caps.length ∧
      IsResidualPath (initFlow (pathGraph caps) emptyFlows).2 path :=
  ⟨List.range (caps.length + 1), head?_range_succ _, getLast?_range_succ _,
    pathGraph_residual_path caps hpos caps.length (le_refl _)⟩

/-- C18 (as stated, refuted): on the path of `999999999` unit edges `MaxFlow`
(over the integers and on 32-bit ints alike) returns the initialised flow
map, in which the vertices `0, 1, ..., 999999999` form a sequence from source
to sink with `flows[u][v].c_f = 1 > 0` between consecutive vertices: the
search failed although an augmenting path exists. -/
theorem longPath_augmenting_path_left :
    GraphWF (pathGraph longPathCaps) ∧ NonNegCaps (pathGraph longPathCaps) ∧
    ∃ flows,
      (∀ fuel, 2 * (pathGraph longPathCaps).length * INF + 2 ≤ fuel →
        MaxFlow (pathGraph longPathCaps) 0 999999999 emptyFlows fuel = some (0, flows) ∧
        MaxFlow32 (pathGraph longPathCaps) 0 999999999 emptyFlows fuel = some (0, flows)) ∧
      ∃ path : List Nat, path.head? = some 0 ∧ path.getLast? = some 999999999 ∧
        IsResidualPath flows path := by
  have hpos : ∀ i, i < longPathCaps.length → 0 < longPathCaps.getD i 0 := by
    intro i hi
    rw [longPathCaps_length] at hi
    rw [longPathCaps_getD i hi]
    omega
  obtain ⟨path, p1, p2, p3⟩ := pathGraph_has_residual_path longPathCaps hpos
  rw [longPathCaps_length] at p2
  refine ⟨pathGraph_wf _, ?_, (initFlow (pathGraph longPathCaps) emptyFlows).2,
    fun fuel hf => longPath_result fuel hf, path, p1, p2, p3⟩
  apply pathGraph_nonneg
  intro c hc
  rw [List.eq_of_mem_replicate hc]
  omega

/-- C18 (amended): for every well-formed graph with non-negative capacities,
fewer than `999999999` vertices and distinct source and sink, in the flow map
`MaxFlow` returns no sequence of vertices leads from source to sink through
pairs of positive residual capacity; and whenever a search of a reachable
state fails to reach the sink, that state has no such sequence.  This holds
for the solver over the integers and, when the capacities are values of
`int`, for the solver on 32-bit ints. -/
theorem no_augmenting_path_at_end (graph : List (List edge)) (s t : Nat)
    (hwf : GraphWF graph) (hnn : NonNegCaps graph) (hN : graph.length < INF)
    (hs : s < graph.length) (hst : s ≠ t) :
    ((∃ mf flows,
      (∀ fuel, fuelBound graph s ≤ fuel →
        MaxFlow graph s t emptyFlows fuel = some (mf, flows)) ∧
      ¬ ∃ path : List Nat, path.head? = some s ∧ path.getLast? = some t ∧
          IsResidualPath flows path) ∧
    (∀ fuel j mf flows,
      afterAugmentations graph (initFlow graph emptyFlows).1 s t fuel j
        (0, (initFlow graph emptyFlows).2) = some (mf, flows) →
      ∀ fuel' r, bfs graph (initFlow graph emptyFlows).1 flows s t fuel' = some r →
        r.idx ≠ t →
        ¬ ∃ path : List Nat, path.head? = some s ∧ path.getLast? = some t ∧
            IsResidualPath flows path)) ∧
    (IntCaps graph →
      (∃ mf flows,
        (∀ fuel, fuelBound graph s ≤ fuel →
          MaxFlow32 graph s t emptyFlows fuel = some (mf, flows)) ∧
        ¬ ∃ path : List Nat, path.head? = some s ∧ path.getLast? = some t ∧
            IsResidualPath flows path) ∧
      (∀ fuel j mf flows,
        afterAugmentations32 graph (initFlow graph emptyFlows).1 s t fuel j
          (0, (initFlow graph emptyFlows).2) = some (mf, flows) →
        ∀ fuel' r, bfs graph (initFlow graph emptyFlows).1 flows s t fuel' = some r →
          r.idx ≠ t →
          ¬ ∃ path : List Nat, path.head? = some s ∧ path.getLast? = some t ∧
              IsResidualPath flows path)) := by
  refine ⟨no_augmenting_path_left graph s t hwf hnn hN hs hst, ?_⟩
  intro hint
  have hadj := initFlow_adjWF graph emptyFlows hwf
  have hcapI := lastCap_le_of_intCaps graph hint
  constructor
  · obtain ⟨T, F', _, r, h1, _, _, h4, _, h6, h7⟩ :=
      MaxFlow32_spec graph s t hwf hnn hcapI hs hst
    exact ⟨wrap32 T, F', h1, no_path_of_failed_search32 hwf hnn hN h4 h7 h6⟩
  · intro fuel j mf flows h fuel' r hr hidx
    have hw0 : wrap32 0 = 0 := by decide
    rw [← hw0] at h
    obtain ⟨T', hinv, _, _⟩ := afterAugmentations32_inv hadj hs hst (lastCap_nonneg graph hnn)
      hcapI fuel j 0 _ (mf, flows) (initFlow_inv32 graph s t hnn hcapI) h
    exact no_path_of_failed_search32 hwf hnn hN hinv (bfs_post hadj hs hst fuel' r hr) hidx

/-- Instance of C18 (amended) on the self-test graph of 563.cpp. -/
theorem no_augmenting_path_at_end_witness :
    (∃ mf flows,
      (∀ fuel, fuelBound selfTestGraph 0 ≤ fuel →
        MaxFlow selfTestGraph 0 6 emptyFlows fuel = some (mf, flows)) ∧
      ¬ ∃ path : List Nat, path.head? = some 0 ∧ path.getLast? = some 6 ∧
          IsResidualPath flows path) ∧
    ∃ mf flows,
      (∀ fuel, fuelBound selfTestGraph 0 ≤ fuel →
        MaxFlow32 selfTestGraph 0 6 emptyFlows fuel = some (mf, flows)) ∧
      ¬ ∃ path : List Nat, path.head? = some 0 ∧ path.getLast? = some 6 ∧
          IsResidualPath flows path :=
  ⟨(no_augmenting_path_at_end selfTestGraph 0 6 (by decide) (by decide) (by decide)
      (by decide) (by decide)).1.1,
    ((no_augmenting_path_at_end selfTestGraph 0 6 (by decide) (by decide) (by decide)
      (by decide) (by decide)).2 (by decide)).1⟩

/-! ## Residual bookkeeping on 32-bit ints -/

/-- C12 (as stated, refuted), at two inputs.  With edges `0 → 1` of capacity
`5` and `1 → 0` of capacity `3`, right after the initialisation
`flows[0][1].c_f + flows[1][0].c_f = 8`, not the capacity `5` of the edge
`(0, 1, 5)`.  With edges `0 → 1` and `1 → 0` of capacity `2000000000` each,
`flows[1][0].c_f` wraps and in the returned map
`flows[0][1].c_f + flows[1][0].c_f = -294967296`, neither the capacity
`2000000000` of the edge nor the sum `4000000000` of the two capacities. -/
theorem residual_sum_not_capacity :
    ((⟨1, 5⟩ : edge) ∈ antiparallelGraph.getD 0 [] ∧
      ((initFlow antiparallelGraph emptyFlows).2 0 1).c_f
        + ((initFlow antiparallelGraph emptyFlows).2 1 0).c_f = 8 ∧
      ((initFlow antiparallelGraph emptyFlows).2 0 1).c_f
        + ((initFlow antiparallelGraph emptyFlows).2 1 0).c_f ≠ (⟨1, 5⟩ : edge).capacity) ∧
    ((⟨1, 2000000000⟩ : edge) ∈ bigAntiparallelGraph.getD 0 [] ∧
      NonNegCaps bigAntiparallelGraph ∧ IntCaps bigAntiparallelGraph ∧
      ¬ PairsFit bigAntiparallelGraph ∧
      (MaxFlow32 bigAntiparallelGraph 0 1 emptyFlows 100).map
        (fun r => (r.2 0 1).c_f + (r.2 1 0).c_f) = some (-294967296) ∧
      lastCap bigAntiparallelGraph 0 1 + lastCap bigAntiparallelGraph 1 0 = 4000000000) := by
  decide

/-- C12 (amended): for every well-formed graph with non-negative capacities in
which the two capacities of every pair of vertices sum to at most `2147483647`
(`PairsFit`), and distinct source and sink: after the initialisation, after
every number `j` of augmentations and in the flow map that `MaxFlow` on 32-bit
ints returns, every ordered pair satisfies
`flows[u][v].c_f + flows[v][u].c_f = c(u,v) + c(v,u)`, where `c` is the
capacity of the last-listed edge of the pair (`0` without an edge); this sum is
`capacity(u,v)` for an edge `(u, v, capacity)` that is the last-listed of its
pair when no edge leads from `v` to `u`. -/
theorem residual_pair_conservation32 (graph : List (List edge)) (s t : Nat)
    (hwf : GraphWF graph) (hnn : NonNegCaps graph) (hs : s < graph.length) (hst : s ≠ t)
    (hfit : PairsFit graph) :
    (∀ u v, ((initFlow graph emptyFlows).2 u v).c_f + ((initFlow graph emptyFlows).2 v u).c_f
        = lastCap graph u v + lastCap graph v u) ∧
    (∀ fuel j st, afterAugmentations32 graph (initFlow graph emptyFlows).1 s t fuel j
        (0, (initFlow graph emptyFlows).2) = some st →
      ∀ u v, (st.2 u v).c_f + (st.2 v u).c_f = lastCap graph u v + lastCap graph v u) ∧
    (∃ mf flows,
      (∀ fuel, fuelBound graph s ≤ fuel →
        MaxFlow32 graph s t emptyFlows fuel = some (mf, flows)) ∧
      ∀ u v, (flows u v).c_f + (flows v u).c_f = lastCap graph u v + lastCap graph v u) ∧
    (∀ u pre e post, graph.getD u [] = pre ++ e :: post →
      (∀ e' ∈ post, e'.to_ ≠ e.to_) → (∀ e' ∈ graph.getD e.to_ [], e'.to_ ≠ u) →
      lastCap graph u e.to_ + lastCap graph e.to_ u = e.capacity) := by
  have hadj := initFlow_adjWF graph emptyFlows hwf
  have hcap0 := lastCap_nonneg graph hnn
  have hcapI := lastCap_le_of_pairsFit graph hwf hnn hfit
  have hpair := hfit.all hwf
  have hinv := initFlow_inv32 graph s t hnn hcapI
  refine ⟨?_, ?_, ?_, ?_⟩
  · intro u v
    rw [initFlow_eq, initFlow_eq]
  · intro fuel j st h
    have hw0 : wrap32 0 = 0 := by decide
    rw [← hw0] at h
    obtain ⟨T', hinv', _, _⟩ := afterAugmentations32_inv hadj hs hst hcap0 hcapI fuel j 0 _ st
      hinv h
    exact fun u v => (hinv'.exact hcap0 hpair u v).2.2
  · obtain ⟨T, F', _, _, h1, _, _, h4, _⟩ := MaxFlow32_spec graph s t hwf hnn hcapI hs hst
    exact ⟨wrap32 T, F', h1, fun u v => (h4.exact hcap0 hpair u v).2.2⟩
  · intro u pre e post hsplit hpost hrev
    rw [lastCap_of_last graph u pre post e hsplit hpost,
      lastCap_eq_zero_of_no_edge graph e.to_ u hrev]
    omega

/-- Instance of C12 (amended) on Scenario A: a state after one augmentation and
a returned flow map exist and satisfy the pair equation. -/
theorem residual_pair_conservation32_witness :
    ∃ st mf flows,
      afterAugmentations32 scenarioA (initFlow scenarioA emptyFlows).1 0 2 100 1
        (0, (initFlow scenarioA emptyFlows).2) = some st ∧
      (∀ fuel, fuelBound scenarioA 0 ≤ fuel →
        MaxFlow32 scenarioA 0 2 emptyFlows fuel = some (mf, flows)) ∧
      (∀ u v, (st.2 u v).c_f + (st.2 v u).c_f = lastCap scenarioA u v + lastCap scenarioA v u) ∧
      (∀ u v, (flows u v).c_f + (flows v u).c_f
        = lastCap scenarioA u v + lastCap scenarioA v u) := by
  have h1 : (afterAugmentations32 scenarioA (initFlow scenarioA emptyFlows).1 0 2 100 1
      (0, (initFlow scenarioA emptyFlows).2)).isSome = true := by decide
  obtain ⟨st, hst⟩ := Option.isSome_iff_exists.mp h1
  have h := residual_pair_conservation32 scenarioA 0 2 (by decide) (by decide) (by decide)
    (by decide) (by decide)
  obtain ⟨mf, flows, hm, hsum⟩ := h.2.2.1
  exact ⟨st, mf, flows, hst, hm, h.2.1 100 1 st hst, hsum⟩

/-- C20 (as stated, refuted): with edges `0 → 1` and `1 → 0` of capacity
`2000000000` each (non-negative capacities), source `0` and sink `1`, the
update `flows[1][0].c_f += c_f_p` wraps: after the first augmentation
`flows[1][0].c_f = -1294967297`, and in the returned map
`flows[1][0].c_f = -294967296`; no fuel makes `MaxFlow` return a map whose
residual capacities are all non-negative. -/
theorem residual_negative_bigAntiparallel :
    GraphWF bigAntiparallelGraph ∧ NonNegCaps bigAntiparallelGraph ∧
    IntCaps bigAntiparallelGraph ∧ SourceFits bigAntiparallelGraph 0 ∧
    ¬ PairsFit bigAntiparallelGraph ∧
    (afterAugmentations32 bigAntiparallelGraph (initFlow bigAntiparallelGraph emptyFlows).1 0 1
      100 1 (0, (initFlow bigAntiparallelGraph emptyFlows).2)).map
        (fun st => (st.2 1 0).c_f) = some (-1294967297) ∧
    (MaxFlow32 bigAntiparallelGraph 0 1 emptyFlows 100).map
      (fun r => (r.1, (r.2 1 0).c_f)) = some (2000000000, -294967296) ∧
    ¬ ∃ fuel mf flows, MaxFlow32 bigAntiparallelGraph 0 1 emptyFlows fuel = some (mf, flows) ∧
        ∀ u v, 0 ≤ (flows u v).c_f := by
  have h : (MaxFlow32 bigAntiparallelGraph 0 1 emptyFlows 100).map
      (fun r => (r.1, (r.2 1 0).c_f)) = some (2000000000, -294967296) := by decide
  refine ⟨by decide, by decide, by decide, by decide, by decide, by decide, h, ?_⟩
  rintro ⟨fuel, mf, flows, hm, hnn⟩
  cases h100 : MaxFlow32 bigAntiparallelGraph 0 1 emptyFlows 100 with
  | none => rw [h100] at h; simp at h
  | some r =>
    rw [h100] at h
    simp only [Option.map_some', Option.some.injEq, Prod.mk.injEq] at h
    have hEq := MaxFlow32_unique bigAntiparallelGraph 0 1 emptyFlows fuel 100 _ _ hm h100
    have := hnn 1 0
    rw [← hEq] at h
    dsimp only at h
    omega

/-- C20 (amended): for every well-formed graph with non-negative capacities in
which the two capacities of every pair of vertices sum to at most `2147483647`
(`PairsFit`), and distinct source and sink, `flows[u][v].c_f >= 0` for every
pair after the initialisation, after every number of augmentations, and in the
flow map that `MaxFlow` on 32-bit ints returns. -/
theorem residual_nonneg32 (graph : List (List edge)) (s t : Nat)
    (hwf : GraphWF graph) (hnn : NonNegCaps graph) (hs : s < graph.length) (hst : s ≠ t)
    (hfit : PairsFit graph) :
    (∀ u v, 0 ≤ ((initFlow graph emptyFlows).2 u v).c_f) ∧
    (∀ fuel j mf flows,
      afterAugmentations32 graph (initFlow graph emptyFlows).1 s t fuel j
        (0, (initFlow graph emptyFlows).2) = some (mf, flows) →
      ∀ u v, 0 ≤ (flows u v).c_f) ∧
    ∃ mf flows,
      (∀ fuel, fuelBound graph s ≤ fuel →
        MaxFlow32 graph s t emptyFlows fuel = some (mf, flows)) ∧
      ∀ u v, 0 ≤ (flows u v).c_f := by
  have hadj := initFlow_adjWF graph emptyFlows hwf
  have hcap0 := lastCap_nonneg graph hnn
  have hcapI := lastCap_le_of_pairsFit graph hwf hnn hfit
  have hpair := hfit.all hwf
  have hinv := initFlow_inv32 graph s t hnn hcapI
  refine ⟨?_, ?_, ?_⟩
  · intro u v
    rw [initFlow_eq]
    exact hcap0 u v
  · intro fuel j mf flows h
    have hw0 : wrap32 0 = 0 := by decide
    rw [← hw0] at h
    obtain ⟨T', hinv', _, _⟩ := afterAugmentations32_inv hadj hs hst hcap0 hcapI fuel j 0 _
      (mf, flows) hinv h
    exact fun u v => (hinv'.exact hcap0 hpair u v).2.1
  · obtain ⟨T, F', _, _, h1, _, _, h4, _⟩ := MaxFlow32_spec graph s t hwf hnn hcapI hs hst
    exact ⟨wrap32 T, F', h1, fun u v => (h4.exact hcap0 hpair u v).2.1⟩

/-- Instance of C20 (amended) on the self-test graph of 563.cpp. -/
theorem residual_nonneg32_witness :
    (∀ u v, 0 ≤ ((initFlow selfTestGraph emptyFlows).2 u v).c_f) ∧
    (∀ fuel j mf flows,
      afterAugmentations32 selfTestGraph (initFlow selfTestGraph emptyFlows).1 0 6 fuel j
        (0, (initFlow selfTestGraph emptyFlows).2) = some (mf, flows) →
      ∀ u v, 0 ≤ (flows u v).c_f) ∧
    ∃ mf flows,
      (∀ fuel, fuelBound selfTestGraph 0 ≤ fuel →
        MaxFlow32 selfTestGraph 0 6 emptyFlows fuel = some (mf, flows)) ∧
      ∀ u v, 0 ≤ (flows u v).c_f :=
  residual_nonneg32 selfTestGraph 0 6 (by decide) (by decide) (by decide) (by decide)
    (by decide)

/-! ## The returned total on 32-bit ints -/

/-- C21 (as stated, refuted): on the graph of two disjoint paths `0 → 1 → 3`
and `0 → 2 → 3` with every capacity `2000000000`, called with an empty flow
map, source `0` and sink `3`, the total `max_flow` wraps: whatever the fuel,
`MaxFlow` returns `-294967296`, while in the returned map the sum over `w` of
`flows[0][w].flow` and the sum over `w` of `flows[w][3].flow` are both
`4000000000`. -/
theorem returned_total_wraps :
    GraphWF twoBigPathsGraph ∧ NonNegCaps twoBigPathsGraph ∧ IntCaps twoBigPathsGraph ∧
    PairsFit twoBigPathsGraph ∧ ¬ SourceFits twoBigPathsGraph 0 ∧
    ∃ mf flows,
      MaxFlow32 twoBigPathsGraph 0 3 emptyFlows 100 = some (mf, flows) ∧
      (∀ fuel res, MaxFlow32 twoBigPathsGraph 0 3 emptyFlows fuel = some res →
        res = (mf, flows)) ∧
      mf = -294967296 ∧
      ∑ w in Finset.range twoBigPathsGraph.length, (flows 0 w).flow = 4000000000 ∧
      ∑ w in Finset.range twoBigPathsGraph.length, (flows w 3).flow = 4000000000 := by
  have h : (MaxFlow32 twoBigPathsGraph 0 3 emptyFlows 100).map
      (fun r => (r.1, [(r.2 0 0).flow, (r.2 0 1).flow, (r.2 0 2).flow, (r.2 0 3).flow],
        [(r.2 0 3).flow, (r.2 1 3).flow, (r.2 2 3).flow, (r.2 3 3).flow]))
      = some (-294967296, [0, 2000000000, 2000000000, 0], [0, 2000000000, 2000000000, 0]) := by
    decide
  refine ⟨by decide, by decide, by decide, by decide, by decide, ?_⟩
  cases h100 : MaxFlow32 twoBigPathsGraph 0 3 emptyFlows 100 with
  | none => rw [h100] at h; simp at h
  | some r =>
    rw [h100] at h
    simp only [Option.map_some', Option.some.injEq, Prod.mk.injEq, List.cons.injEq,
      and_true] at h
    obtain ⟨a, ⟨b0, b1, b2, b3⟩, c0, c1, c2, c3⟩ := h
    have hlen : twoBigPathsGraph.length = 4 := rfl
    refine ⟨r.1, r.2, rfl, ?_, a, ?_, ?_⟩
    · intro fuel res hres
      exact MaxFlow32_unique twoBigPathsGraph 0 3 emptyFlows fuel 100 _ _ hres h100
    · rw [hlen]
      simp only [Finset.sum_range_succ, Finset.sum_range_zero, b0, b1, b2, b3]
      norm_num
    · rw [hlen]
      simp only [Finset.sum_range_succ, Finset.sum_range_zero, c0, c1, c2, c3]
      norm_num

/-- C21 (amended): for every well-formed graph with non-negative capacities
that are values of `int` and in which the capacities leaving the source sum to
at most `2147483647` (`SourceFits`), and distinct source and sink, `MaxFlow`
on 32-bit ints, called with an empty flow map, returns, and whatever it
returns as total equals the sum over `w` of `flows[source][w].flow` and the
sum over `w` of `flows[w][sink].flow` in the returned map (entries outside the
vertex range carry no flow). -/
theorem returned_total32_is_flow_value (graph : List (List edge)) (s t : Nat)
    (hwf : GraphWF graph) (hnn : NonNegCaps graph) (hint : IntCaps graph)
    (hs : s < graph.length) (hst : s ≠ t) (hfit : SourceFits graph s) :
    (∀ fuel mf flows, MaxFlow32 graph s t emptyFlows fuel = some (mf, flows) →
      mf = ∑ w in Finset.range graph.length, (flows s w).flow ∧
      mf = ∑ w in Finset.range graph.length, (flows w t).flow ∧
      ∀ u v, graph.length ≤ u ∨ graph.length ≤ v → (flows u v).flow = 0) ∧
    ∃ mf flows, ∀ fuel, fuelBound graph s ≤ fuel →
      MaxFlow32 graph s t emptyFlows fuel = some (mf, flows) := by
  have hcapI := lastCap_le_of_intCaps graph hint
  obtain ⟨T, F', _, _, h1, _, h0, h4, _⟩ := MaxFlow32_spec graph s t hwf hnn hcapI hs hst
  have hle := h4.total_le
  have hsrc := hfit.finset
  unfold INT_MAX at hsrc
  have hT : wrap32 T = T := wrap32_eq _ (by omega) (by omega)
  refine ⟨?_, wrap32 T, F', h1⟩
  intro fuel mf flows h
  have hEq := MaxFlow32_unique graph s t emptyFlows fuel (fuelBound graph s) _ _ h
    (h1 _ (le_refl _))
  simp only [Prod.mk.injEq] at hEq
  obtain ⟨rfl, rfl⟩ := hEq
  refine ⟨?_, ?_, h4.support⟩
  · rw [hT, ← h4.value]
    rfl
  · have : ∑ w in Finset.range graph.length, (flows w t).flow
        = -netOut graph.length flows t := by
      unfold netOut
      rw [← Finset.sum_neg_distrib]
      apply Finset.sum_congr rfl
      intro w _
      exact h4.antisym w t
    rw [this, h4.sink_value, hT]
    omega

/-- Instance of C21 (amended) on the self-test graph of 563.cpp: `MaxFlow`
returns, and its total is the flow out of the source and the flow into the
sink. -/
theorem returned_total32_is_flow_value_witness :
    ∃ mf flows,
      MaxFlow32 selfTestGraph 0 6 emptyFlows (fuelBound selfTestGraph 0) = some (mf, flows) ∧
      mf = ∑ w in Finset.range selfTestGraph.length, (flows 0 w).flow ∧
      mf = ∑ w in Finset.range selfTestGraph.length, (flows w 6).flow := by
  have h := returned_total32_is_flow_value selfTestGraph 0 6 (by decide) (by decide) (by decide)
    (by decide) (by decide) (by decide)
  obtain ⟨mf, flows, hm⟩ := h.2
  have hm' := hm (fuelBound selfTestGraph 0) (le_refl _)
  obtain ⟨a, b, _⟩ := h.1 _ mf flows hm'
  exact ⟨mf, flows, hm', a, b⟩

end FordFulkerson
